/-
  Verification development for the sortedBucket repository: three ordered-multiset
  engines (a weighted red-black tree `SortedBucketRBT`, a vector-of-vectors bucket
  container `SortedBucketVV`, and a list-of-lists bucket container `SortedBucketLL`).

  The C++ sources are shallowly embedded as executable Lean functions:
  * vector/list iterators are represented by indices into the bucket list
    (a bucket iterator is the bucket index, an element iterator is the element
    index inside its bucket);
  * operations whose C++ counterpart can dereference an invalid iterator
    (undefined behavior) return `Option`, with `none` marking the
    out-of-bounds access;
  * the comparator template parameter `Comp` is an explicit `less` function,
    `operator==` / `operator!=` on the key type is an explicit `beq` function,
    and the tree engine additionally takes its `Equal` template parameter.
  Machine integers (`int`, `size_t`) are modelled by `Int` / `Nat`; the values
  involved stay far below any overflow boundary.
-/
import Mathlib

namespace SortedBucket

/-! ## Common list helpers (vector/list primitive operations) -/

/-- Insert `x` at position `i` of a list (`std::vector::emplace` /
`std::list::emplace` at an iterator position). If `i` is past the end the
element is appended, matching `emplace(end(), x)`. -/
def insAt {α : Type} : List α → Nat → α → List α
  | l, 0, x => x :: l
  | [], _ + 1, x => [x]
  | a :: l, i + 1, x => a :: insAt l i x

/-- Reference stable sort: fold of upper-bound insertion (each new element is
placed after all elements not greater than it), i.e. insertion sort that keeps
equal keys in arrival order. -/
def ubInsert (x : Int) : List Int → List Int
  | [] => [x]
  | a :: l => if x < a then x :: a :: l else a :: ubInsert x l

/-- Reference stable sort of a sequence of keys, in insertion order. -/
def stableSort (xs : List Int) : List Int :=
  xs.foldl (fun acc x => ubInsert x acc) []

/-! ## SortedBucketVV (src/src/sortedBucketVV.h, version 1.0)

A `std::vector<std::vector<T>>` of buckets.  No sentinel element exists in this
engine; "end" positions are represented by `none` (the C++ code returns
`buckets.end()` paired with a default-constructed inner iterator). -/

namespace VV

/-- The container state: the bucket vector, the cached element count `sz`,
and the bucket density. `capacity` is never read after construction and is
omitted. -/
structure St (α : Type) where
  buckets : List (List α)
  sz : Nat
  density : Nat
  deriving Repr, DecidableEq

/-- `init()`: one empty bucket (the `reserve` call has no observable effect). -/
def initSt (α : Type) (density : Nat) : St α := ⟨[[]], 0, density⟩

/-- `SortedBucketVV<int>` default-constructed: density `DefaultSmallDensity = 500`. -/
def init0 : St Int := initSt Int 500

/-- The bucket-selection predicate of `lowerBound`:
`[](const std::vector<T>& bucket, const T& n) { return bucket.empty() || Comp{}(bucket.back(), n); }`.
`std::lower_bound` over the (partitioned) bucket vector returns the first
bucket on which this predicate is false; on the linear model this is `findIdx`. -/
def lbBucketLess {α : Type} (less : α → α → Bool) (b : List α) (n : α) : Bool :=
  match b.getLast? with
  | none => true
  | some x => less x n

/-- The bucket-selection predicate of `upperBound`:
`[](const T& n, const std::vector<T>& bucket) { return bucket.empty() || Comp{}(n, bucket.back()); }`.
`std::upper_bound` returns the first bucket on which it is true. -/
def ubBucketGreater {α : Type} (less : α → α → Bool) (n : α) (b : List α) : Bool :=
  match b.getLast? with
  | none => true
  | some x => less n x

/-- `lowerBound(n)`: pair of (bucket, element) iterators, `none` when the first
iterator is `buckets.end()` (container empty, or `n` greater than every stored
key). Mirrors the source: empty-container edge case, bucket search by each
bucket's `back()`, `std::lower_bound` inside the bucket, and the shift of an
end-of-bucket position to the start of the next bucket. -/
def lowerBound {α : Type} (less : α → α → Bool) (st : St α) (n : α) :
    Option (Nat × Nat) :=
  match st.buckets.head? with
  | none => none
  | some b0 =>
    if b0.isEmpty then none
    else
      let tb := st.buckets.findIdx (fun b => !lbBucketLess less b n)
      if st.buckets.length ≤ tb then none
      else
        let bkt := st.buckets.getD tb []
        let i := bkt.findIdx (fun e => !less e n)
        if i = bkt.length then
          if tb + 1 = st.buckets.length then none else some (tb + 1, 0)
        else some (tb, i)

/-- `upperBound(n)`: like `lowerBound` with the strict predicate. -/
def upperBound {α : Type} (less : α → α → Bool) (st : St α) (n : α) :
    Option (Nat × Nat) :=
  match st.buckets.head? with
  | none => none
  | some b0 =>
    if b0.isEmpty then none
    else
      let tb := st.buckets.findIdx (fun b => ubBucketGreater less n b)
      if st.buckets.length ≤ tb then none
      else
        let bkt := st.buckets.getD tb []
        let i := bkt.findIdx (fun e => less n e)
        if i = bkt.length then
          if tb + 1 = st.buckets.length then none else some (tb + 1, 0)
        else some (tb, i)

/-- `balance(targetBucket, targ, targSupplied)` on the bucket vector alone
(the function only reads `bucketDensity` from the object).  Returns the new
bucket vector and the `shiftRight` flag.  Steps, in source order: drop the run
of empty buckets immediately to the right; split when the bucket exceeds `2d`
(the new right bucket receives everything from index `d` on); merge or
redistribute when the bucket is below `d/2` and is not the last bucket. -/
def balance {α : Type} (d : Nat) (bk : List (List α)) (tb : Nat)
    (targ : Option Nat) : List (List α) × Bool :=
  if bk.length ≤ tb then (bk, false)
  else
    let bk1 := bk.take (tb + 1) ++ (bk.drop (tb + 1)).dropWhile List.isEmpty
    let tbl := bk1.getD tb []
    if d * 2 < tbl.length then
      let shiftRight := match targ with
        | some i => decide (d ≤ i)
        | none => false
      (insAt (bk1.set tb (tbl.take d)) (tb + 1) (tbl.drop d), shiftRight)
    else if tbl.length < d / 2 then
      if tb + 1 = bk1.length then (bk1, false)
      else
        let nxt := bk1.getD (tb + 1) []
        if d * 2 < tbl.length + nxt.length then
          let desired := (nxt.length - tbl.length) / 2
          (((bk1.set tb (tbl ++ nxt.take desired)).set (tb + 1) (nxt.drop desired)), false)
        else
          ((bk1.set (tb + 1) (tbl ++ nxt)).eraseIdx tb, true)
    else (bk1, false)

/-- `insert(n)`: upper-bound position (falling back to the end of the last
bucket when past the whole range), `emplace`, then `balance`; the returned
iterator pair is regenerated from the stored distances. -/
def insert {α : Type} (less : α → α → Bool) (st : St α) (n : α) :
    St α × (Nat × Nat) :=
  let p :=
    match upperBound less st n with
    | none => (st.buckets.length - 1, (st.buckets.getLastD []).length)
    | some q => q
  let tb := p.1
  let i := p.2
  let bk1 := st.buckets.set tb (insAt (st.buckets.getD tb []) i n)
  let origSize := (bk1.getD tb []).length
  let r := balance st.density bk1 tb (some i)
  let shift : Nat := if r.2 then 1 else 0
  let back : Nat := if r.2 && decide (st.density * 2 < origSize) then st.density else 0
  (⟨r.1, st.sz + 1, st.density⟩, (tb + shift, i - back))

/-- `erase(n)`: one element at the `lowerBound` position is removed whenever
that position is a valid element position (the source never compares the
element against `n`). -/
def erase {α : Type} (less : α → α → Bool) (st : St α) (n : α) : St α × Int :=
  match lowerBound less st n with
  | none => (st, 0)
  | some (tb, i) =>
    if i = (st.buckets.getD tb []).length then (st, 0)
    else
      let bk1 := st.buckets.set tb ((st.buckets.getD tb []).eraseIdx i)
      let r := balance st.density bk1 tb none
      (⟨r.1, st.sz - 1, st.density⟩, 1)

/-- The scan loop of `eraseAll`:
`while (thisBucket != buckets.end() && *targ == n) { ++ct; targ = thisBucket->erase(targ); if (targ == thisBucket->end()) { targ = (++thisBucket)->begin(); } }`.
Returns `none` when the C++ loop dereferences an invalid iterator: `*targ`
with `targ` out of range, or `(++thisBucket)->begin()` with `thisBucket`
equal to `buckets.end()`. Fuel decreases on every iteration; one element is
erased per iteration, so `total length + 1` fuel always suffices. -/
def eraseScan {α : Type} (beq : α → α → Bool) (n : α) :
    Nat → List (List α) → Nat → Nat → Nat → Option (List (List α) × Nat × Nat)
  | 0, _, _, _, _ => none
  | fuel + 1, bk, tb, i, ct =>
    if tb = bk.length then some (bk, tb, ct)
    else
      match (bk.getD tb [])[i]? with
      | none => none
      | some v =>
        if beq v n then
          let bkt := (bk.getD tb []).eraseIdx i
          let bk1 := bk.set tb bkt
          if i = bkt.length then
            if tb + 1 = bk1.length then none
            else eraseScan beq n fuel bk1 (tb + 1) 0 (ct + 1)
          else eraseScan beq n fuel bk1 tb i (ct + 1)
        else some (bk, tb, ct)

/-- `eraseAll(n)`: locate the run with `lowerBound`, erase it with the scan
loop, then rebalance `targetBucket` and `thisBucket`. The second bucket
iterator is translated across the structural changes of the first `balance`
call (C++ keeps a raw vector position). `none` propagates the scan loop's
invalid dereference. -/
def eraseAll {α : Type} (less beq : α → α → Bool) (st : St α) (n : α) :
    Option (St α × Int) :=
  match lowerBound less st n with
  | none => some (st, 0)
  | some (tb, i) =>
    match eraseScan beq n ((st.buckets.map List.length).sum + 1) st.buckets tb i 0 with
    | none => none
    | some (bk1, thisB, ct) =>
      let r1 := balance st.density bk1 tb none
      let thisB2 := if tb < thisB then thisB + r1.1.length - bk1.length else thisB
      let r2 := balance st.density r1.1 thisB2 none
      some (⟨r2.1, st.sz - ct, st.density⟩, (ct : Int))

/-- `distance(n)`: 0 on an empty container (first-bucket-empty edge case),
otherwise scan buckets by `back()` accumulating sizes, then `lower_bound`
inside the target bucket; `-1` when past the range or the element at the
position is not `== n`.  `none` marks the `back()` call on an empty
mid-sequence bucket (invalid in C++). -/
def distance {α : Type} (less beq : α → α → Bool) (st : St α) (n : α) :
    Option Int :=
  match st.buckets.head? with
  | none => some 0
  | some b0 =>
    if b0.isEmpty then some 0
    else distGo less beq n st.buckets 0
where
  distGo (less beq : α → α → Bool) (n : α) : List (List α) → Int → Option Int
    | [], _ => some (-1)
    | b :: rest, ct =>
      match b.getLast? with
      | none => none
      | some x =>
        if less x n then distGo less beq n rest (ct + b.length)
        else
          let i := b.findIdx (fun e => !less e n)
          match b[i]? with
          | none => some (-1)
          | some e => if beq e n then some (ct + i) else some (-1)

/-- `find(n)`: `lowerBound`, then the `*targ != n` confirmation. Outer `none`
marks the undefined dereference of an invalid element iterator; the inner
option is the returned position (`none` = the `(buckets.end(), invalid)`
pair). -/
def find {α : Type} (less beq : α → α → Bool) (st : St α) (n : α) :
    Option (Option (Nat × Nat)) :=
  match lowerBound less st n with
  | none => some none
  | some (tb, i) =>
    match (st.buckets.getD tb [])[i]? with
    | none => none
    | some v => if beq v n then some (some (tb, i)) else some none

/-- All stored keys in container order (what a full forward traversal visits;
this engine has no iterator interface in the source, see `spec.md` §4.1). -/
def flatten {α : Type} (st : St α) : List α := st.buckets.flatten

end VV

/-! ## SortedBucketLL (src/unnamed/part_001, version 1.2)

A `std::list<std::list<T>>` of buckets.  The last bucket always carries the
sentinel element as its final entry (value `T{SENTINEL_FLAG} = 0xBEEF = 48879`
for `int`); `end()` is the position of that element.  List iterators are
modelled positionally as `(bucket index, element index)`; the stored
`endSentinel` iterator always equals "last element of the last bucket"
because every mutating path refreshes it that way.  `back()` on an empty
bucket (undefined in C++, unreachable under the container invariants) is
totalized with the default value `dfl`. -/

namespace LL

/-- The container state (the `endSentinel` member is derived: last element of
the last bucket). -/
structure St (α : Type) where
  buckets : List (List α)
  sz : Nat
  density : Nat
  deriving Repr, DecidableEq

/-- `init()`: one bucket holding only the sentinel element `sv`. -/
def initSt {α : Type} (sv : α) (density : Nat) : St α := ⟨[[sv]], 0, density⟩

/-- The sentinel flag value used for `SortedBucketLL<int>` (`0xBEEF`). -/
def svInt : Int := 48879

/-- `SortedBucketLL<int>` default-constructed: density 500. -/
def init0 : St Int := initSt svInt 500

/-- `end()`: the position of the sentinel element (last element of the last
bucket). -/
def endPos {α : Type} (st : St α) : Nat × Nat :=
  (st.buckets.length - 1, (st.buckets.getLastD []).length - 1)

/-- The in-bucket scan shared by `lowerBound` / `upperBound` /
`findWithDistance`:
`while (targ != end && (bucket != sentinelBucket || targ != endSentinel) && cond) ++targ`.
`stop` is the sentinel's index relative to the current element (`some k` only
inside the sentinel bucket); the result is the index where the loop halts
(the bucket length when it runs off the end). -/
def scanIn {α : Type} (q : α → Bool) : List α → Option Nat → Nat
  | [], _ => 0
  | _ :: _, some 0 => 0
  | a :: l, some (k + 1) => if q a then scanIn q l (some k) + 1 else 0
  | a :: l, none => if q a then scanIn q l none + 1 else 0

/-- The bucket-selection scan of `lowerBound` / `findWithDistance` followed by
the post-loop correction:
`while (targetBucket != sentinelBucket && Comp(back, n)) ++targetBucket;`
`if (Comp(targetBucket->back, n)) targetBucket = sentinelBucket;`. -/
def pickBucketLB {α : Type} (less : α → α → Bool) (dfl : α) (st : St α) (n : α) : Nat :=
  let sentB := st.buckets.length - 1
  if 1 < st.buckets.length then
    let t0 := (st.buckets.take sentB).findIdx (fun b => !less (b.getLastD dfl) n)
    if less ((st.buckets.getD t0 []).getLastD dfl) n then sentB else t0
  else 0

/-- The bucket-selection scan of `upperBound` (strict predicate). -/
def pickBucketUB {α : Type} (less : α → α → Bool) (dfl : α) (st : St α) (n : α) : Nat :=
  let sentB := st.buckets.length - 1
  if 1 < st.buckets.length then
    let t0 := (st.buckets.take sentB).findIdx (fun b => less n (b.getLastD dfl))
    if !less n ((st.buckets.getD t0 []).getLastD dfl) then sentB else t0
  else 0

/-- `lowerBound(n)`: first position whose element is not `Comp`-less than `n`,
skipping the sentinel element; an end-of-bucket halt moves to the start of the
next bucket. -/
def lowerBound {α : Type} (less : α → α → Bool) (dfl : α) (st : St α) (n : α) :
    Nat × Nat :=
  let sentB := st.buckets.length - 1
  let tb := pickBucketLB less dfl st n
  let bkt := st.buckets.getD tb []
  let stop : Option Nat := if tb = sentB then some (bkt.length - 1) else none
  let i := scanIn (fun e => less e n) bkt stop
  if i = bkt.length then (tb + 1, 0) else (tb, i)

/-- `upperBound(n)`: first position whose element is strictly greater than `n`
under `Comp`, skipping the sentinel element. -/
def upperBound {α : Type} (less : α → α → Bool) (dfl : α) (st : St α) (n : α) :
    Nat × Nat :=
  let sentB := st.buckets.length - 1
  let tb := pickBucketUB less dfl st n
  let bkt := st.buckets.getD tb []
  let stop : Option Nat := if tb = sentB then some (bkt.length - 1) else none
  let i := scanIn (fun e => !less n e) bkt stop
  if i = bkt.length then (tb + 1, 0) else (tb, i)

/-- `findWithDistance(n)`: the `lowerBound` walk accumulating the index, then
the final confirmation
`((targetBucket == sentinelBucket && targ == endSentinel) || *targ != n) ? (end(), -1) : (pos, dist)`. -/
def findWithDistance {α : Type} (less beq : α → α → Bool) (dfl : α)
    (st : St α) (n : α) : (Nat × Nat) × Int :=
  let sentB := st.buckets.length - 1
  let tb := pickBucketLB less dfl st n
  let dist0 := ((st.buckets.take tb).map List.length).sum
  let bkt := st.buckets.getD tb []
  let stop : Option Nat := if tb = sentB then some (bkt.length - 1) else none
  let i0 := scanIn (fun e => less e n) bkt stop
  let p := if i0 = bkt.length then (tb + 1, 0) else (tb, i0)
  let isSent := p.1 = sentB ∧ p.2 = (st.buckets.getD sentB []).length - 1
  if isSent ∨ !beq ((st.buckets.getD p.1 []).getD p.2 dfl) n then
    (endPos st, -1)
  else (p, (dist0 + i0 : Int))

/-- `find(n)` = first component of `findWithDistance`. -/
def find {α : Type} (less beq : α → α → Bool) (dfl : α) (st : St α) (n : α) :
    Nat × Nat :=
  (findWithDistance less beq dfl st n).1

/-- `distance(n)` = second component of `findWithDistance`. -/
def distance {α : Type} (less beq : α → α → Bool) (dfl : α) (st : St α) (n : α) :
    Int :=
  (findWithDistance less beq dfl st n).2

/-- `balance(targetBucket, targ, targSupplied)`; identical thresholds to the
vector engine, with the list-specific `shiftRight` computation (it starts
`true` in the split case and is cleared only when the supplied target lies in
the first `density` positions). -/
def balance {α : Type} (d : Nat) (bk : List (List α)) (tb : Nat)
    (targ : Option Nat) : List (List α) × Bool :=
  if bk.length ≤ tb then (bk, false)
  else
    let bk1 := bk.take (tb + 1) ++ (bk.drop (tb + 1)).dropWhile List.isEmpty
    let tbl := bk1.getD tb []
    if d * 2 < tbl.length then
      let shiftRight := match targ with
        | some i => decide (d ≤ i)
        | none => true
      (insAt (bk1.set tb (tbl.take d)) (tb + 1) (tbl.drop d), shiftRight)
    else if tbl.length < d / 2 then
      if tb + 1 = bk1.length then (bk1, false)
      else
        let nxt := bk1.getD (tb + 1) []
        if d * 2 < tbl.length + nxt.length then
          let desired := (nxt.length - tbl.length) / 2
          (((bk1.set tb (tbl ++ nxt.take desired)).set (tb + 1) (nxt.drop desired)), false)
        else
          ((bk1.set (tb + 1) (tbl ++ nxt)).eraseIdx tb, true)
    else (bk1, false)

/-- `insert(n)`: `upperBound`, `emplace` before the found position, `balance`.
The returned iterator follows the inserted element across the splice (C++
keeps a stable list-node pointer; positionally the element moves to index
`i - density` of the new bucket when the split carries it right). -/
def insert {α : Type} (less : α → α → Bool) (dfl : α) (st : St α) (n : α) :
    St α × (Nat × Nat) :=
  let p := upperBound less dfl st n
  let tb := p.1
  let i := p.2
  let bk1 := st.buckets.set tb (insAt (st.buckets.getD tb []) i n)
  let origLen := (bk1.getD tb []).length
  let r := balance st.density bk1 tb (some i)
  let pos :=
    if r.2 then
      if st.density * 2 < origLen then (tb + 1, i - st.density) else (tb + 1, i)
    else (tb, i)
  (⟨r.1, st.sz + 1, st.density⟩, pos)

/-- `erase(n)`: `find`, return 0 at `end()`, otherwise remove the element and
rebalance its bucket. -/
def erase {α : Type} (less beq : α → α → Bool) (dfl : α) (st : St α) (n : α) :
    St α × Int :=
  let p := find less beq dfl st n
  if p = endPos st then (st, 0)
  else
    let bk1 := st.buckets.set p.1 ((st.buckets.getD p.1 []).eraseIdx p.2)
    let r := balance st.density bk1 p.1 none
    (⟨r.1, st.sz - 1, st.density⟩, 1)

/-- The scan loop of `eraseAll`:
`while ((thisBucket != sentinelBucket || targ != endSentinel) && *targ == n) { ... }`;
the sentinel position is re-read from the current last bucket each iteration
(the C++ pointers are stable while elements before the sentinel are erased).
`none` marks an invalid dereference (unreachable under the container
invariants). -/
def eraseScan {α : Type} (beq : α → α → Bool) (n : α) (sentB : Nat) :
    Nat → List (List α) → Nat → Nat → Nat → Option (List (List α) × Nat × Nat)
  | 0, _, _, _, _ => none
  | fuel + 1, bk, tb, i, ct =>
    if tb = sentB ∧ i = (bk.getD sentB []).length - 1 then some (bk, tb, ct)
    else
      match (bk.getD tb [])[i]? with
      | none => none
      | some v =>
        if beq v n then
          let bkt := (bk.getD tb []).eraseIdx i
          let bk1 := bk.set tb bkt
          if i = bkt.length then
            if tb + 1 = bk1.length then none
            else eraseScan beq n sentB fuel bk1 (tb + 1) 0 (ct + 1)
          else eraseScan beq n sentB fuel bk1 tb i (ct + 1)
        else some (bk, tb, ct)

/-- `eraseAll(n)`: `find`, scan-erase the run, then rebalance `targetBucket`
and `thisBucket` (the latter translated across the bucket removals of the
first `balance`, mirroring the stable list iterator). -/
def eraseAll {α : Type} (less beq : α → α → Bool) (dfl : α) (st : St α) (n : α) :
    Option (St α × Int) :=
  let p := find less beq dfl st n
  if p = endPos st then some (st, 0)
  else
    let sentB := st.buckets.length - 1
    match eraseScan beq n sentB ((st.buckets.map List.length).sum + 1)
        st.buckets p.1 p.2 0 with
    | none => none
    | some (bk1, thisB, ct) =>
      let r1 := balance st.density bk1 p.1 none
      let thisB2 := if p.1 < thisB then thisB + r1.1.length - bk1.length else thisB
      let r2 := balance st.density r1.1 thisB2 none
      some (⟨r2.1, st.sz - ct, st.density⟩, (ct : Int))

/-- `Iterator::operator++`: step to the next element, hopping to the next
bucket from an end-of-bucket position. -/
def nextPos {α : Type} (st : St α) (p : Nat × Nat) : Nat × Nat :=
  if p.2 + 1 = (st.buckets.getD p.1 []).length then (p.1 + 1, 0) else (p.1, p.2 + 1)

/-- `begin()`: first element of the first bucket. -/
def beginPos {α : Type} (_ : St α) : Nat × Nat := (0, 0)

/-- Forward traversal `for (it = begin(); it != end(); ++it)` collecting the
visited elements, with fuel (the iteration visits each element at most once). -/
def traverseGo {α : Type} (dfl : α) (st : St α) : Nat → Nat × Nat → List α
  | 0, _ => []
  | fuel + 1, p =>
    if p = endPos st then []
    else ((st.buckets.getD p.1 []).getD p.2 dfl) :: traverseGo dfl st fuel (nextPos st p)

/-- Full forward traversal of the container. -/
def traverse {α : Type} (dfl : α) (st : St α) : List α :=
  traverseGo dfl st ((st.buckets.map List.length).sum + st.buckets.length + 1)
    (beginPos st)

/-- All stored entries in container order, sentinel element included. -/
def flatten {α : Type} (st : St α) : List α := st.buckets.flatten

end LL

/-! ## SortedBucketRBT (src/unnamed/part_000, version 1.1)

A weighted red-black tree with a rightmost sentinel node (`SENTINEL_FLAG =
99999` for `int`, colored Black, `copies = 0`, `mass = 0`).  Node colors are
the numeric values of the C++ enum (`Red = 0`, `Black = 1`, `DoubleBlack = 2`)
because the deletion code computes on them (`par->color += sibling->color`).

The pointer structure is embedded as a subtree type plus a zipper: a position
in the tree is the subtree rooted at a node together with the list of
ancestor frames (innermost first); the parent pointer of the C++ node is the
first frame.  A C++ `Node*` held across operations (the `leftmost` member) is
represented by the node's key, which identifies the node uniquely in every
state produced by the public interface (keys of distinct nodes are distinct).
Operations whose C++ counterpart can dereference a null pointer return
`Option`, with `none` marking the invalid access. -/

namespace RBT

/-- The comparison functions a `SortedBucketRBT<T, Comp, Equal>` instance
uses: the template parameters `Comp` and `Equal`, and the raw `operator<` /
`operator==` of the key type (used by `insertHelper` and the `leftmost`
maintenance in `eraseAll`). -/
structure Ops (α : Type) where
  comp : α → α → Bool
  equal : α → α → Bool
  rawLt : α → α → Bool
  rawEq : α → α → Bool

/-- `SortedBucketRBT<int>` with all template defaults. -/
def intOps : Ops Int :=
  ⟨fun a b => decide (a < b), fun a b => decide (a = b),
   fun a b => decide (a < b), fun a b => decide (a = b)⟩

/-- A subtree: empty, or a node with left child, key, `copies`, `mass`,
numeric color, sentinel flag, right child. -/
inductive T (α : Type) where
  | nil : T α
  | node (l : T α) (v : α) (copies mass : Int) (c : Nat) (sent : Bool) (r : T α)
  deriving Repr, DecidableEq

/-- Which side of its parent a node hangs on. -/
inductive Dir where
  | left : Dir
  | right : Dir
  deriving Repr, DecidableEq

/-- One ancestor frame of a zipper: the parent node with a hole on side
`dir`, `other` being the subtree on the opposite side. -/
structure Frame (α : Type) where
  dir : Dir
  v : α
  copies : Int
  mass : Int
  c : Nat
  sent : Bool
  other : T α
  deriving Repr, DecidableEq

/-- A path from a node up to the root (innermost frame first). -/
abbrev Path (α : Type) := List (Frame α)

/-- `(x) ? x->mass : 0`. -/
def massOf {α : Type} : T α → Int
  | .nil => 0
  | .node _ _ _ m _ _ _ => m

/-- Node color, null pointers counting as Black where the C++ tests
`!x || x->color == Black`. -/
def colorOf {α : Type} : T α → Nat
  | .nil => 1
  | .node _ _ _ _ c _ _ => c

/-- Replace the color of the root node of a subtree. -/
def withColor {α : Type} : T α → Nat → T α
  | .nil, _ => .nil
  | .node l v cp m _ s r, c => .node l v cp m c s r

/-- Rebuild the parent node from its frame and the child subtree. -/
def upOne {α : Type} (t : T α) (f : Frame α) : T α :=
  match f.dir with
  | .left => .node t f.v f.copies f.mass f.c f.sent f.other
  | .right => .node f.other f.v f.copies f.mass f.c f.sent t

/-- Rebuild the whole tree from a position. -/
def plug {α : Type} : T α → Path α → T α
  | t, [] => t
  | t, f :: ps => plug (upOne t f) ps

/-- `leftRotate(upperPivot)` on the subtree rooted at the pivot, with the
source's mass recomputation (`upperPivot->mass = upperPivot->copies + left +
cl; child->mass = child->copies + upperPivot->mass + child->right`).  A null
pivot or null right child leaves the tree unchanged (the guarded early
returns). -/
def leftRotate {α : Type} : T α → T α
  | .node a x cpx _ cx sx (.node b y cpy _ cy sy c) =>
    let upMass := cpx + massOf a + massOf b
    .node (.node a x cpx upMass cx sx b) y cpy (cpy + upMass + massOf c) cy sy c
  | t => t

/-- `rightRotate(upperPivot)`: the source sets `upperPivot->mass = 1` (not
`upperPivot->copies`; the preceding `child->mass = upperPivot->copies` store
is dead) before adding the child masses, so the pivot's new mass is
`1 + mass(cr) + mass(right)` regardless of its multiplicity. -/
def rightRotate {α : Type} : T α → T α
  | .node (.node a y cpy _ cy sy b) x cpx _ cx sx c =>
    let upMass := 1 + massOf b + massOf c
    .node a y cpy (cpy + upMass + massOf a) cy sy (.node b x cpx upMass cx sx c)
  | t => t

/-- Force the root of the plugged tree Black (`root->color = Black`). -/
def plugRootBlack {α : Type} (t : T α) (p : Path α) : T α :=
  withColor (plug t p) 1

/-- `balanceDoubleRed(child)`: the while loop, as structural recursion over
the ancestor path.  Each iteration examines the child (current subtree), its
parent (first frame) and grandparent (second frame); straight-line
configurations recolor the child Black and rotate at the grandparent,
continuing from the parent's new position; bent configurations lift the child
above parent and grandparent with the source's explicit relink and mass
recomputation, continuing from the lifted child. -/
def bdr {α : Type} : T α → Path α → T α
  | ct, [] =>
    if colorOf ct = 1 then plug ct []
    else plugRootBlack ct []
  | ct, [f1] =>
    if colorOf ct = 1 then plug ct [f1]
    else if f1.c = 1 then plugRootBlack ct [f1]
    else plugRootBlack ct [f1]
  | ct, f1 :: f2 :: rest =>
      if colorOf ct = 1 then plug ct (f1 :: f2 :: rest)
      else if f1.c = 1 then plugRootBlack ct (f1 :: f2 :: rest)
      else if f2.dir = Dir.left then
        if f1.dir = Dir.left then
          let par := upOne (withColor ct 1) f1
          bdr (rightRotate (upOne par f2)) rest
        else
          match ct with
          | .nil => plugRootBlack ct (f1 :: f2 :: rest)
          | .node cl vC cpC _ cC sC cr =>
            let pl := f1.other
            let gu := f2.other
            let parMass := f1.copies + massOf pl + massOf cl
            let grandMass := f2.copies + massOf cr + massOf gu
            let par2 : T α := .node pl f1.v f1.copies parMass 1 f1.sent cl
            let grand2 : T α := .node cr f2.v f2.copies grandMass f2.c f2.sent gu
            bdr (.node par2 vC cpC (cpC + grandMass + parMass) cC sC grand2) rest
      else
        if f1.dir = Dir.right then
          let par := upOne (withColor ct 1) f1
          bdr (leftRotate (upOne par f2)) rest
        else
          match ct with
          | .nil => plugRootBlack ct (f1 :: f2 :: rest)
          | .node cl vC cpC _ cC sC cr =>
            let pr := f1.other
            let gu := f2.other
            let parMass := f1.copies + massOf cr + massOf pr
            let grandMass := f2.copies + massOf gu + massOf cl
            let par2 : T α := .node cr f1.v f1.copies parMass 1 f1.sent pr
            let grand2 : T α := .node gu f2.v f2.copies grandMass f2.c f2.sent cl
            bdr (.node grand2 vC cpC (cpC + grandMass + parMass) cC sC par2) rest

/-- The container state: the tree (whose root is never null after `init`),
the element count, and the `leftmost` pointer represented by the key of the
node it references (`none` when it is the `endSentinel`). -/
structure St (α : Type) where
  tree : T α
  sz : Int
  leftmost : Option α
  deriving Repr, DecidableEq

/-- The sentinel flag value used for `SortedBucketRBT<int>` (99999). -/
def svInt : Int := 99999

/-- `init()`: the tree holds only the sentinel node (Black, `copies = 0`,
`mass = 0`); `root = leftmost = endSentinel`. -/
def initSt {α : Type} (sv : α) : St α :=
  ⟨.node .nil sv 0 0 1 true .nil, 0, none⟩

/-- `SortedBucketRBT<int>` default-constructed. -/
def init0 : St Int := initSt svInt

/-- The insertion descent: every visited node's mass grows by `copies`; the
sentinel is always entered leftward; an `Equal` hit adds to the node's
multiplicity; a null child slot receives a fresh Red node and
`balanceDoubleRed` runs from it. -/
def insertGo {α : Type} (o : Ops α) (n : α) (cps : Int) : T α → Path α → T α
  | .nil, path => plug .nil path
  | .node l v cp m c s r, path =>
    let m2 := m + cps
    if s then
      match l with
      | .nil =>
        bdr (.node .nil n cps cps 0 false .nil) (⟨.left, v, cp, m2, c, s, r⟩ :: path)
      | _ => insertGo o n cps l (⟨.left, v, cp, m2, c, s, r⟩ :: path)
    else if o.equal n v then
      plug (.node l v (cp + cps) m2 c s r) path
    else if o.comp n v then
      match l with
      | .nil =>
        bdr (.node .nil n cps cps 0 false .nil) (⟨.left, v, cp, m2, c, s, r⟩ :: path)
      | _ => insertGo o n cps l (⟨.left, v, cp, m2, c, s, r⟩ :: path)
    else
      match r with
      | .nil =>
        bdr (.node .nil n cps cps 0 false .nil) (⟨.right, v, cp, m2, c, s, l⟩ :: path)
      | _ => insertGo o n cps r (⟨.right, v, cp, m2, c, s, l⟩ :: path)

/-- `insert(n, copies)`: the descent plus `sz += copies` and the
`insertHelper` update of `leftmost` (`leftmost == endSentinel || n <
leftmost->val`, with the key type's raw `operator<`). -/
def insert {α : Type} (o : Ops α) (st : St α) (n : α) (cps : Int) : St α :=
  let t2 := insertGo o n cps st.tree []
  let lm := match st.leftmost with
    | none => some n
    | some lv => if o.rawLt n lv then some n else some lv
  ⟨t2, st.sz + cps, lm⟩

/-- `findWithDistance(n)`: the search descent; the sentinel is skipped
leftward; an `Equal` hit returns the node's position and the accumulated
rank; `Comp` left descents add nothing; right descents add the left subtree's
mass plus the node's multiplicity.  A null miss returns the null iterator and
`-1`. -/
def fwdGo {α : Type} (o : Ops α) (n : α) :
    T α → Path α → Int → Option (T α × Path α) × Int
  | .nil, _, _ => (none, -1)
  | .node l v cp m c s r, path, dist =>
    if s then fwdGo o n l (⟨.left, v, cp, m, c, s, r⟩ :: path) dist
    else if o.equal n v then (some (.node l v cp m c s r, path), dist + massOf l)
    else if o.comp n v then fwdGo o n l (⟨.left, v, cp, m, c, s, r⟩ :: path) dist
    else fwdGo o n r (⟨.right, v, cp, m, c, s, l⟩ :: path) (dist + massOf l + cp)

/-- `findWithDistance` on a container. -/
def findWithDistance {α : Type} (o : Ops α) (st : St α) (n : α) :
    Option (T α × Path α) × Int :=
  fwdGo o n st.tree [] 0

/-- `distance(n)`. -/
def distance {α : Type} (o : Ops α) (st : St α) (n : α) : Int :=
  (findWithDistance o st n).2

/-- `find(n)`: the iterator half (`none` = `Iterator(nullptr)`). -/
def find {α : Type} (o : Ops α) (st : St α) (n : α) : Option (T α × Path α) :=
  (findWithDistance o st n).1

/-- `end()`: the position of the (unique) sentinel node, reached by
descending toward the rightmost node as long as a sentinel is below. -/
def endIter {α : Type} : T α → Path α → Option (T α × Path α)
  | .nil, _ => none
  | .node l v cp m c s r, path =>
    if s then some (.node l v cp m c s r, path)
    else endIter r (⟨.right, v, cp, m, c, s, l⟩ :: path)

/-- The leftmost node of a subtree, as a position (frames accumulated onto
`path`). `none` only for an empty subtree. -/
def leftmostPos {α : Type} : T α → Path α → Option (T α × Path α)
  | .nil, _ => none
  | .node .nil v cp m c s r, path => some (.node .nil v cp m c s r, path)
  | .node (.node a b c1 d1 e1 f1 g) v cp m c s r, path =>
    leftmostPos (.node a b c1 d1 e1 f1 g) (⟨.left, v, cp, m, c, s, r⟩ :: path)

/-- The parent-walk half of `Iterator::operator++`:
`while (temp && temp->right == node) { node = temp; temp = temp->par; }`. -/
def climb {α : Type} : T α → Path α → Option (T α × Path α)
  | _, [] => none
  | t, f :: rest =>
    match f.dir with
    | .right => climb (upOne t f) rest
    | .left => some (upOne t f, rest)

/-- `Iterator::operator++`: in-order successor position (`none` when the walk
runs past the root, i.e. the C++ iterator becomes null). -/
def iterNext {α : Type} : T α → Path α → Option (T α × Path α)
  | .nil, _ => none
  | .node l v cp m c s r, path =>
    match r with
    | .nil => climb (.node l v cp m c s .nil) path
    | .node a b c1 d1 e1 f1 g =>
      leftmostPos (.node a b c1 d1 e1 f1 g) (⟨.right, v, cp, m, c, s, l⟩ :: path)

/-- `updateMass(node, d)` on the ancestor frames of a path. -/
def decMass {α : Type} (p : Path α) (d : Int) : Path α :=
  p.map fun f => ⟨f.dir, f.v, f.copies, f.mass + d, f.c, f.sent, f.other⟩

/-- `(x == nullptr)` on a child pointer. -/
def isNil {α : Type} : T α → Bool
  | .nil => true
  | .node _ _ _ _ _ _ _ => false

/-- Number of nodes of a subtree (fuel bound for the fixup loops). -/
def sizeT {α : Type} : T α → Nat
  | .nil => 0
  | .node l _ _ _ _ _ r => sizeT l + sizeT r + 1

/-- `balanceDoubleBlack(child)`: the while loop over the problem child's
position.  `none` marks a null-sibling or null-nephew dereference (or fuel
exhaustion, which enough fuel makes unreachable). -/
def bdb {α : Type} : Nat → T α → Path α → Option (T α)
  | 0, _, _ => none
  | fuel + 1, ct, path =>
    match ct with
    | .nil => some (plug .nil path)
    | .node l v cp m c s r =>
      if c ≠ 2 then some (plug (.node l v cp m c s r) path)
      else
        match path with
        | [] => some (withColor (.node l v cp m c s r) 1)
        | f :: rest =>
          let ct0 : T α := .node l v cp m c s r
          match f.other with
          | .nil => none
          | .node sl sv scp sm sc ss sr =>
            if sc = 0 then
              match f.dir with
              | .left =>
                let par2 : T α :=
                  .node ct0 f.v f.copies f.mass 0 f.sent (.node sl sv scp sm 1 ss sr)
                match leftRotate par2 with
                | .node (.node a2 v2 cp2 m2 c2 s2 b2) tv tcp tm tc ts tr =>
                  bdb fuel a2
                    (⟨.left, v2, cp2, m2, c2, s2, b2⟩ :: ⟨.left, tv, tcp, tm, tc, ts, tr⟩ :: rest)
                | _ => none
              | .right =>
                let par2 : T α :=
                  .node (.node sl sv scp sm 1 ss sr) f.v f.copies f.mass 0 f.sent ct0
                match rightRotate par2 with
                | .node tl tv tcp tm tc ts (.node a2 v2 cp2 m2 c2 s2 b2) =>
                  bdb fuel b2
                    (⟨.right, v2, cp2, m2, c2, s2, a2⟩ :: ⟨.right, tv, tcp, tm, tc, ts, tl⟩ :: rest)
                | _ => none
            else
              if colorOf sl = 1 ∧ colorOf sr = 1 then
                let sib2 : T α := .node sl sv scp sm 0 ss sr
                let par2 : T α :=
                  match f.dir with
                  | .left => .node (withColor ct0 1) f.v f.copies f.mass (f.c + 1) f.sent sib2
                  | .right => .node sib2 f.v f.copies f.mass (f.c + 1) f.sent (withColor ct0 1)
                bdb fuel par2 rest
              else if f.dir = .right ∧ colorOf sl = 0 then
                let sib2 : T α := .node (withColor sl 1) sv scp sm f.c ss sr
                let par2 : T α := .node sib2 f.v f.copies f.mass 1 f.sent (withColor ct0 1)
                some (plug (rightRotate par2) rest)
              else if f.dir = .left ∧ colorOf sr = 0 then
                let sib2 : T α := .node sl sv scp sm f.c ss (withColor sr 1)
                let par2 : T α := .node (withColor ct0 1) f.v f.copies f.mass 1 f.sent sib2
                some (plug (leftRotate par2) rest)
              else if f.dir = .right ∧ colorOf sr = 0 then
                let sib2 : T α := .node sl sv scp sm 0 ss (withColor sr 1)
                bdb fuel ct0 (⟨f.dir, f.v, f.copies, f.mass, f.c, f.sent, leftRotate sib2⟩ :: rest)
              else
                match sl with
                | .nil => none
                | _ =>
                  let sib2 : T α := .node (withColor sl 1) sv scp sm 0 ss sr
                  bdb fuel ct0 (⟨f.dir, f.v, f.copies, f.mass, f.c, f.sent, rightRotate sib2⟩ :: rest)

/-- The in-place fixup loop of the black-leaf removal case of `eraseAll`
(the parent is the current subtree; the removed child's side is
`nodeOnLeft`).  Returns the final whole tree, `none` on an invalid
dereference. -/
def leafFix {α : Type} : Nat → T α → Path α → Bool → Option (T α)
  | 0, _, _, _ => none
  | fuel + 1, parT, path, nodeOnLeft =>
    match parT with
    | .nil => none
    | .node pl pv pcp pm pc ps pr =>
      match (if nodeOnLeft then pr else pl) with
      | .nil => none
      | .node sl sv scp sm sc ss sr =>
        if sc = 0 then
          if nodeOnLeft then
            let par2 : T α := .node pl pv pcp pm 0 ps (.node sl sv scp sm 1 ss sr)
            match leftRotate par2 with
            | .node (.node a2 v2 cp2 m2 c2 s2 b2) tv tcp tm tc ts tr =>
              leafFix fuel (.node a2 v2 cp2 m2 c2 s2 b2)
                (⟨.left, tv, tcp, tm, tc, ts, tr⟩ :: path) nodeOnLeft
            | _ => none
          else
            let par2 : T α := .node (.node sl sv scp sm 1 ss sr) pv pcp pm 0 ps pr
            match rightRotate par2 with
            | .node tl tv tcp tm tc ts (.node a2 v2 cp2 m2 c2 s2 b2) =>
              leafFix fuel (.node a2 v2 cp2 m2 c2 s2 b2)
                (⟨.right, tv, tcp, tm, tc, ts, tl⟩ :: path) nodeOnLeft
            | _ => none
        else
          match sl, sr with
          | .nil, .nil =>
            let sib2 : T α := .node .nil sv scp sm 0 ss .nil
            let par2 : T α :=
              if nodeOnLeft then .node pl pv pcp pm (pc + sc) ps sib2
              else .node sib2 pv pcp pm (pc + sc) ps pr
            bdb fuel par2 path
          | _, _ =>
            if !nodeOnLeft && !(isNil sl) then
              let sib2 : T α := .node (withColor sl 1) sv scp sm pc ss sr
              let par2 : T α := .node sib2 pv pcp pm 1 ps pr
              some (plug (rightRotate par2) path)
            else if nodeOnLeft && !(isNil sr) then
              let sib2 : T α := .node sl sv scp sm pc ss (withColor sr 1)
              let par2 : T α := .node pl pv pcp pm 1 ps sib2
              some (plug (leftRotate par2) path)
            else if nodeOnLeft && !(isNil sl) then
              let sib2 : T α := .node (withColor sl 1) sv scp sm 0 ss sr
              let par2 : T α := .node pl pv pcp pm pc ps (rightRotate sib2)
              leafFix fuel par2 path nodeOnLeft
            else
              match sr with
              | .nil => none
              | _ =>
                let sib2 : T α := .node sl sv scp sm 0 ss (withColor sr 1)
                let par2 : T α :=
                  if nodeOnLeft then .node pl pv pcp pm pc ps (leftRotate sib2)
                  else .node (leftRotate sib2) pv pcp pm pc ps pr
                leafFix fuel par2 path nodeOnLeft

/-- `int eraseAll(Node* node)` at a located position: the `leftmost`
maintenance, then the four structural cases (leaf with its fixup loop, single
child with color addition and `balanceDoubleBlack`, two children with the
physical successor swap — including the source's mass exchange
`a->mass = bMassBelow + a->copies` — followed by one recursive removal).
Returns the new tree, `leftmost`, size, and the removed count. -/
def eraseNode {α : Type} (o : Ops α) :
    Nat → T α → Path α → Option α → Int → Option (T α × Option α × Int × Int)
  | 0, _, _, _, _ => none
  | fuel + 1, t, path, lm, sz =>
    match t with
    | .nil => some (plug .nil path, lm, sz, 0)
    | .node l v cp m c s r =>
      let t0 : T α := .node l v cp m c s r
      let ct := cp
      let lm2 : Option α :=
        match lm with
        | none => none
        | some lv =>
          if o.rawEq v lv then
            match iterNext t0 path with
            | none => none
            | some (t2, _) =>
              match t2 with
              | .nil => none
              | .node _ v2 _ _ _ s2 _ => if s2 then none else some v2
          else some lv
      match l, r with
      | .nil, .nil =>
        match path with
        | [] => some (.nil, lm2, sz - ct, ct)
        | f :: rest =>
          let fm := f.mass - ct
          let par0 : T α :=
            match f.dir with
            | .left => .node .nil f.v f.copies fm f.c f.sent f.other
            | .right => .node f.other f.v f.copies fm f.c f.sent .nil
          let rest2 := decMass rest (-ct)
          if c = 1 then
            match leafFix fuel par0 rest2 (f.dir = .left) with
            | none => none
            | some tr => some (tr, lm2, sz - ct, ct)
          else some (plug par0 rest2, lm2, sz - ct, ct)
      | .node ll lv2 lcp lms lc ls lr, .nil =>
        let lT : T α := .node ll lv2 lcp lms lc ls lr
        match path with
        | [] => some (withColor lT 1, lm2, sz - ct, ct)
        | f :: rest =>
          let l2 := withColor lT (lc + c)
          let f2 : Frame α := ⟨f.dir, f.v, f.copies, f.mass - ct, f.c, f.sent, f.other⟩
          match bdb fuel l2 (f2 :: decMass rest (-ct)) with
          | none => none
          | some tr => some (tr, lm2, sz - ct, ct)
      | .nil, .node rl rv rcp rms rc rs rr =>
        let rT : T α := .node rl rv rcp rms rc rs rr
        match path with
        | [] => some (withColor rT 1, lm2, sz - ct, ct)
        | f :: rest =>
          let r2 := withColor rT (rc + c)
          let f2 : Frame α := ⟨f.dir, f.v, f.copies, f.mass - ct, f.c, f.sent, f.other⟩
          match bdb fuel r2 (f2 :: decMass rest (-ct)) with
          | none => none
          | some tr => some (tr, lm2, sz - ct, ct)
      | .node ll lv2 lcp lms lc ls lr, .node rl rv rcp rms rc rs rr =>
        let lT : T α := .node ll lv2 lcp lms lc ls lr
        let rT : T α := .node rl rv rcp rms rc rs rr
        match leftmostPos rT [] with
        | none => none
        | some (succT, q) =>
          match succT with
          | .nil => none
          | .node _ sv scp sm sc ss srr =>
            let newNode : T α := .node .nil v cp ((sm - scp) + cp) sc s srr
            let topMass := (m - cp) + scp
            match eraseNode o fuel newNode
                (q ++ ⟨.right, sv, scp, topMass, c, ss, lT⟩ :: path) lm2 sz with
            | none => none
            | some (tr, lm3, sz2, _) => some (tr, lm3, sz2, ct)

/-- `erase(n)`: `findWithDistance`, then either the multiplicity decrement
(which updates masses and `sz` but — as in the source — not `copies`) or the
full node removal. -/
def erase {α : Type} (o : Ops α) (st : St α) (n : α) : Option (St α × Int) :=
  match find o st n with
  | none => some (st, 0)
  | some (t, path) =>
    match t with
    | .nil => some (st, 0)
    | .node l v cp m c s r =>
      if 1 < cp then
        let t2 : T α := .node l v cp (m - 1) c s r
        some (⟨plug t2 (decMass path (-1)), st.sz - 1, st.leftmost⟩, 1)
      else
        match eraseNode o (sizeT st.tree + 16) (.node l v cp m c s r) path
            st.leftmost st.sz with
        | none => none
        | some (tr, lm, sz2, ct) => some (⟨tr, sz2, lm⟩, ct)

/-- `eraseAll(n)` on a key. -/
def eraseAll {α : Type} (o : Ops α) (st : St α) (n : α) : Option (St α × Int) :=
  match find o st n with
  | none => some (st, 0)
  | some (t, path) =>
    match eraseNode o (sizeT st.tree + 16) t path st.leftmost st.sz with
    | none => none
    | some (tr, lm, sz2, ct) => some (⟨tr, sz2, lm⟩, ct)

/-- First in-order node holding a given key (resolution of a stored `Node*`
by its key; keys of distinct nodes are distinct in every reachable state). -/
def posOfVal {α : Type} (o : Ops α) (lv : α) : T α → Path α → Option (T α × Path α)
  | .nil, _ => none
  | .node l v cp m c s r, path =>
    match posOfVal o lv l (⟨.left, v, cp, m, c, s, r⟩ :: path) with
    | some p => some p
    | none =>
      if o.rawEq v lv then some (.node l v cp m c s r, path)
      else posOfVal o lv r (⟨.right, v, cp, m, c, s, l⟩ :: path)

/-- The iterator walk `for (it = begin(); it != end(); ++it)`, collecting the
visited keys; it stops on reaching the sentinel node. -/
def traverseGo {α : Type} : Nat → T α → Path α → List α
  | 0, _, _ => []
  | fuel + 1, t, path =>
    match t with
    | .nil => []
    | .node l v cp m c s r =>
      if s then []
      else
        v :: match iterNext (.node l v cp m c s r) path with
          | none => []
          | some p2 => traverseGo fuel p2.1 p2.2

/-- Full forward traversal from `begin()` (the stored `leftmost` node) to
`end()`. -/
def traverse {α : Type} (o : Ops α) (st : St α) : List α :=
  match st.leftmost with
  | none => []
  | some lv =>
    match posOfVal o lv st.tree [] with
    | none => []
    | some p => traverseGo (sizeT st.tree + 1) p.1 p.2

/-- In-order key list, one entry per logical copy (`copies` entries per node;
the sentinel contributes none since its `copies` is 0). -/
def inorderCopies {α : Type} : T α → List α
  | .nil => []
  | .node l v cp _ _ _ r =>
    inorderCopies l ++ List.replicate cp.toNat v ++ inorderCopies r

/-- In-order list of node keys, sentinel excluded (what the iterator walk
visits). -/
def inorderNodes {α : Type} : T α → List α
  | .nil => []
  | .node l v _ _ _ s r =>
    inorderNodes l ++ (if s then [] else [v]) ++ inorderNodes r

/-- The mass invariant of the specification:
`mass(node) = multiplicity(node) + mass(left) + mass(right)` at every node. -/
def massOk {α : Type} : T α → Bool
  | .nil => true
  | .node l _ cp m _ _ r =>
    massOk l && massOk r && decide (m = cp + massOf l + massOf r)

/-- No red node has a red parent. -/
def noRedRed {α : Type} : T α → Bool
  | .nil => true
  | .node l _ _ _ c _ r =>
    noRedRed l && noRedRed r &&
      (decide (c ≠ 0) || (decide (colorOf l ≠ 0) && decide (colorOf r ≠ 0)))

/-- Every node's color is Red or Black (no persistent DoubleBlack). -/
def noDB {α : Type} : T α → Bool
  | .nil => true
  | .node l _ _ _ c _ r => noDB l && noDB r && decide (c < 2)

/-- Equal black height on every root-to-null path (`some h` = consistent
height counting null leaves as one black). -/
def bh {α : Type} : T α → Option Nat
  | .nil => some 1
  | .node l _ _ _ c _ r =>
    match bh l, bh r with
    | some hl, some hr =>
      if hl = hr then some (hl + (if c = 0 then 0 else 1)) else none
    | _, _ => none

end RBT

/-! ## Concrete instances used by the evaluation theorems -/

/-- `std::less<int>`. -/
def intLt : Int → Int → Bool := fun a b => decide (a < b)

/-- `operator==` on `int`. -/
def intEq : Int → Int → Bool := fun a b => decide (a = b)

/-- A `SortedBucketVV<int>` built by inserting `xs` in order into a container
whose density has been forced to `d` at construction. -/
def vvOf (xs : List Int) (d : Nat) : VV.St Int :=
  xs.foldl (fun st x => (VV.insert intLt st x).1) (VV.initSt Int d)

/-- A `SortedBucketLL<int>` built by inserting `xs` in order (density `d`). -/
def llOf (xs : List Int) (d : Nat) : LL.St Int :=
  xs.foldl (fun st x => (LL.insert intLt 0 st x).1) (LL.initSt LL.svInt d)

/-- A default-constructed `SortedBucketRBT<int>` after inserting `xs` in
order with multiplicity 1. -/
def rbtOf (xs : List Int) : RBT.St Int :=
  xs.foldl (fun st x => RBT.insert RBT.intOps st x 1) RBT.init0

/-- `erase` chained on the vector engine (first component of the result). -/
def vvErase (st : VV.St Int) (n : Int) : VV.St Int := (VV.erase intLt st n).1

/-- `insert` chained on the vector engine. -/
def vvIns (st : VV.St Int) (n : Int) : VV.St Int := (VV.insert intLt st n).1

end SortedBucket

namespace SortedBucket

/-! ## Concrete states used by the claim evaluations -/

/-- fst-only comparator on pairs (a strict weak order whose equivalence
classes are coarser than `operator==`). -/
def pairLt : Int × Int → Int × Int → Bool := fun a b => decide (a.1 < b.1)

/-- Structural `operator==` on pairs. -/
def pairEq : Int × Int → Int × Int → Bool := fun a b => decide (a = b)

/-- A `SortedBucketVV<pair>` holding the single element `(1, 3)`. -/
def pairVV : VV.St (Int × Int) :=
  (VV.insert pairLt (VV.initSt (Int × Int) 500) (1, 3)).1

/-- The tree engine instantiated with fst-only `Comp` and fst-only `Equal`
(a caller-supplied equivalence coarser than `operator==`). -/
def pairOpsFst : RBT.Ops (Int × Int) :=
  ⟨fun a b => decide (a.1 < b.1), fun a b => decide (a.1 = b.1),
   fun a b => decide (a.1 < b.1), fun a b => decide (a = b)⟩

/-- A `SortedBucketRBT<pair>` (fst-only `Equal`) holding `(1, 3)`. -/
def pairRBT : RBT.St (Int × Int) :=
  RBT.insert pairOpsFst (RBT.initSt (99999, 0)) (1, 3) 1

/-- Density-3 array engine after inserting `{0,2,…,14}` and erasing 0 and 2:
the first (non-last) bucket ends with a single element. -/
def vv7st : VV.St Int := vvErase (vvErase (vvOf [0,2,4,6,8,10,12,14] 3) 0) 2

/-- Density-1 array engine after `insert 1,2,3; erase 1; insert 0`: the
bucket contents are no longer sorted. -/
def vv1st : VV.St Int := vvIns (vvErase (vvOf [1,2,3] 1) 1) 0

/-- The five-insert tree state whose rank bookkeeping the `rightRotate` mass
slip corrupts. -/
def rbt5 : RBT.St Int := rbtOf [20, 10, 10, 5, 3]

/-- Total length of a bucket list (`flatten`'s length). -/
def lensum {α : Type} (bk : List (List α)) : Nat := (bk.map List.length).sum

/-- Representation invariant of the vector engine (maintained by `insert` and
`erase` for densities at least 2): buckets exist, the concatenated contents
are sorted, only the last bucket may be empty, non-last buckets hold at least
`⌊d/2⌋` elements, and every bucket holds at most `2d`. -/
def VVInv (st : VV.St Int) : Prop :=
  st.buckets ≠ [] ∧
  List.Sorted (fun a b : Int => a ≤ b) (VV.flatten st) ∧
  (∀ j, j + 1 < st.buckets.length → st.buckets.getD j [] ≠ []) ∧
  (∀ j, j + 1 < st.buckets.length → st.density / 2 ≤ (st.buckets.getD j []).length) ∧
  (∀ j, j < st.buckets.length → (st.buckets.getD j []).length ≤ st.density * 2)

/-- States of the array engine reachable from the constructor by any sequence
of `insert` and `erase` calls, at configured density `d`. -/
inductive VVReach (d : Nat) : VV.St Int → Prop
  | init : VVReach d (VV.initSt Int d)
  | ins (st : VV.St Int) (n : Int) : VVReach d st →
      VVReach d (VV.insert intLt st n).1
  | ers (st : VV.St Int) (n : Int) : VVReach d st →
      VVReach d (VV.erase intLt st n).1

/-- Representation invariant of the list engine (densities at least 2): the
bucket list is nonempty, every bucket is nonempty (the last one always holds
the sentinel element), the stored contents (everything before the sentinel)
are sorted, the final element is the sentinel value, non-last buckets hold at
least `⌊d/2⌋` elements, every bucket holds at most `2d`, and `size()` counts
everything except the sentinel. -/
def LLInv (st : LL.St Int) : Prop :=
  st.buckets ≠ [] ∧
  (∀ j, j < st.buckets.length → st.buckets.getD j [] ≠ []) ∧
  List.Sorted (fun a b : Int => a ≤ b) ((LL.flatten st).dropLast) ∧
  (LL.flatten st).getLast? = some LL.svInt ∧
  (∀ j, j + 1 < st.buckets.length → st.density / 2 ≤ (st.buckets.getD j []).length) ∧
  (∀ j, j < st.buckets.length → (st.buckets.getD j []).length ≤ st.density * 2) ∧
  st.sz = (LL.flatten st).length - 1

/-- States of the list engine reachable from the constructor by any sequence
of `insert` and `erase` calls, at configured density `d`. -/
inductive LLReach (d : Nat) : LL.St Int → Prop
  | init : LLReach d (LL.initSt LL.svInt d)
  | ins (st : LL.St Int) (n : Int) : LLReach d st →
      LLReach d (LL.insert intLt 0 st n).1
  | ers (st : LL.St Int) (n : Int) : LLReach d st →
      LLReach d (LL.erase intLt intEq 0 st n).1

/-! ## In-order entry abstraction for the tree engine -/

/-- The in-order list of `(key, copies, sentinelFlag)` triples of a tree. -/
def entries : RBT.T Int → List (Int × Int × Bool)
  | .nil => []
  | .node l v cp _ _ s r => entries l ++ [(v, cp, s)] ++ entries r

/-- The in-order entries contributed by the ancestor frames around a subtree
holding `inner`. -/
def entriesCtx : RBT.Path Int → List (Int × Int × Bool) →
    List (Int × Int × Bool)
  | [], inner => inner
  | f :: ps, inner =>
    entriesCtx ps
      (match f.dir with
       | .left => inner ++ [(f.v, f.copies, f.sent)] ++ entries f.other
       | .right => entries f.other ++ [(f.v, f.copies, f.sent)] ++ inner)

/-- The in-order entries lying strictly to the right of the current subtree. -/
def rightCtx : RBT.Path Int → List (Int × Int × Bool)
  | [] => []
  | f :: ps =>
    match f.dir with
    | .left => [(f.v, f.copies, f.sent)] ++ entries f.other ++ rightCtx ps
    | .right => rightCtx ps

/-- The effect of the tree engine's insertion descent on the in-order entry
list: a sentinel entry or a strictly greater key receives the new `(n, cps)`
entry in front of it; an equal key absorbs the copies; smaller keys are
passed over. -/
def insEntries (n : Int) (cps : Int) :
    List (Int × Int × Bool) → List (Int × Int × Bool)
  | [] => [(n, cps, false)]
  | e :: es =>
    if e.2.2 then (n, cps, false) :: e :: es
    else if n = e.1 then (e.1, e.2.1 + cps, e.2.2) :: es
    else if n < e.1 then (n, cps, false) :: e :: es
    else e :: insEntries n cps es

/-- Expansion of an entry list into one key per logical copy. -/
def expandE : List (Int × Int × Bool) → List Int
  | [] => []
  | e :: es => List.replicate e.2.1.toNat e.1 ++ expandE es

/-- The keys of the non-sentinel entries. -/
def nodesOfE : List (Int × Int × Bool) → List Int
  | [] => []
  | e :: es => (if e.2.2 then [] else [e.1]) ++ nodesOfE es

/-- In-order ordering discipline between two entries: the earlier entry is
not the sentinel, and the later one is the sentinel or carries a strictly
greater key. -/
def relE (e f : Int × Int × Bool) : Prop :=
  e.2.2 = false ∧ (f.2.2 = true ∨ e.1 < f.1)

/-- Invariant of the tree maintained by insert-only histories: entries are
strictly ordered with the sentinel last, sentinel entries carry zero copies,
stored entries carry at least one copy, and the entry list is nonempty (the
sentinel node exists). -/
def GoodT (t : RBT.T Int) : Prop :=
  List.Pairwise relE (entries t) ∧
  (∀ e ∈ entries t, e.2.2 = true → e.2.1 = 0) ∧
  (∀ e ∈ entries t, e.2.2 = false → 1 ≤ e.2.1) ∧
  entries t ≠ []

/-- Container-level invariant: the tree invariant plus agreement of the
`leftmost` pointer with the first stored key. -/
def GoodRBT (st : RBT.St Int) : Prop :=
  GoodT st.tree ∧ st.leftmost = (nodesOfE (entries st.tree)).head?

end SortedBucket

open SortedBucket

/-! ## Claim theorems -/

/-- C1, counterexample: inserting the key 5 twice into the tree engine and
walking begin()..end() yields `[5]` — each distinct key appears once per
node — while the reference stable sort of the inserted sequence is `[5, 5]`.
The traversal therefore does not yield the same keys as the stable sort. -/
theorem c1_tree_traversal_collapses_duplicates :
    RBT.traverse RBT.intOps (rbtOf [5, 5]) = [5] ∧
    stableSort [5, 5] = [5, 5] ∧
    RBT.traverse RBT.intOps (rbtOf [5, 5]) ≠ stableSort [5, 5] := by decide

/-- C2: on the tree built by `insert 20; insert 10; insert 10; insert 5;
insert 3` (all public-interface calls), `distance(20)` returns 3 although
four stored elements (3, 5, 10, 10) are strictly less than the present key
20 — the `rightRotate` mass slip corrupts the rank bookkeeping. -/
theorem c2_rbt_distance_miscounts :
    RBT.distance RBT.intOps rbt5 20 = 3 ∧
    ((RBT.inorderCopies rbt5.tree).filter (fun x => intLt x 20)).length = 4 ∧
    (RBT.find RBT.intOps rbt5 20).isSome = true := by decide

/-- C3: on a vector-engine container holding only the key 5, `erase(3)` — an
absent key — returns 1 and removes the element 5 (the implementation erases
whatever `lowerBound` points at without comparing it to the argument). -/
theorem c3_vv_erase_absent_removes_element :
    VV.flatten (vvOf [5] 500) = [5] ∧
    VV.erase intLt (vvOf [5] 500) 3 = (⟨[[]], 0, 500⟩, 1) := by decide

/-- C4: for the absent key 7, the tree engine's `findWithDistance` returns
the pair `(Iterator(nullptr), -1)`, not `(end(), -1)`: the null iterator
differs from the `end()` position (the allocated sentinel node).  And the
vector engine's `distance` on an empty container returns 0, not −1. -/
theorem c4_absent_key_results :
    RBT.find RBT.intOps (rbtOf [1, 2, 3]) 7 = none ∧
    (RBT.endIter (rbtOf [1, 2, 3]).tree []).isSome = true ∧
    VV.distance intLt intEq VV.init0 7 = some 0 := by decide

/-- C5: after `insert 20; insert 10` the mass equation fails (the sentinel
node gets mass 1 from `rightRotate`'s `upperPivot->mass = 1` although its
multiplicity is 0 and it has no children); and after `insert(5, 2); erase(5)`
the remaining node has multiplicity 2 but mass 1 (`erase` decrements masses
but not `copies`). -/
theorem c5_mass_invariant_broken :
    RBT.massOk (rbtOf [20, 10]).tree = false ∧
    RBT.erase RBT.intOps (RBT.insert RBT.intOps RBT.init0 5 2) 5 =
      some (⟨RBT.T.node (RBT.T.node RBT.T.nil 5 2 1 0 false RBT.T.nil)
        99999 0 1 1 true RBT.T.nil, 1, some 5⟩, 1) := by decide

/-- C7, counterexample: with density forced to 3 (odd), inserting
`{0,2,…,14}` and erasing 0 and 2 leaves the first bucket — not the last —
with a single element: its size 1 is below the claimed lower bound
`⌈3/2⌉ = 2` (the code only rebalances below `⌊d/2⌋`).  With density forced
to 1, `insert 1,2,3; erase 1; insert 0` leaves the bucket contents unsorted,
so the claim also fails entirely for `d = 1`. -/
theorem c7_bucket_bounds_counterexample :
    vv7st.buckets = [[4], [6, 8, 10, 12, 14]] ∧
    ((vv7st.buckets.getD 0 []).length) * 2 < 3 + 1 ∧
    vv1st.buckets = [[], [2], [3, 0]] ∧
    ¬ List.Sorted (fun a b : Int => a ≤ b) (VV.flatten vv1st) := by decide

/-- C8, counterexample: the array engine stores no sentinel element at all.
After inserting the single key 5, its last (and only) bucket is exactly
`[5]` — there is no extra element positioned after the true maximum key, and
the freshly constructed container's only bucket is empty. -/
theorem c8_vv_has_no_sentinel :
    (VV.initSt Int 500).buckets = [[]] ∧
    (vvOf [5] 500).buckets = [[5]] := by decide

/-- C9, counterexample: the array engine consults `operator!=` on the key
type.  With a comparator ordering pairs by first component only, the
container holds `(1,3)`; the probe `(1,2)` is comparator-equivalent to it
(neither is less than the other), yet `find` returns the end position
because `*targ != n` holds structurally.  The tree engine with a
caller-supplied fst-only `Equal` does match it. -/
theorem c9_vv_find_consults_raw_equality :
    pairVV.buckets = [[(1, 3)]] ∧
    pairLt (1, 3) (1, 2) = false ∧
    pairLt (1, 2) (1, 3) = false ∧
    VV.find pairLt pairEq pairVV (1, 2) = some none ∧
    (RBT.find pairOpsFst pairRBT (1, 2)).isSome = true := by decide

/-- C10: on a container holding only the key 5, `eraseAll(5)` — the last
occurrence being the final element of the last bucket — executes
`targ = (++thisBucket)->begin()` with `thisBucket == buckets.end()`, an
out-of-bounds bucket access (`none` in the model). -/
theorem c10_eraseall_scan_out_of_bounds :
    VV.flatten (vvOf [5] 500) = [5] ∧
    VV.eraseAll intLt intEq (vvOf [5] 500) 5 = none := by decide

namespace SortedBucket

/-! ## Helper lemmas: list primitives -/

theorem insAt_perm {α : Type} (l : List α) (i : Nat) (x : α) :
    List.Perm (insAt l i x) (x :: l) := by
  induction l generalizing i with
  | nil => cases i <;> simp [insAt]
  | cons a t ih =>
    cases i with
    | zero => simp [insAt]
    | succ j =>
      simp only [insAt]
      exact ((ih j).cons a).trans (List.Perm.swap x a t)

theorem insAt_length {α : Type} (l : List α) (i : Nat) (x : α) :
    (insAt l i x).length = l.length + 1 := by
  induction l generalizing i with
  | nil => cases i <;> simp [insAt]
  | cons a t ih => cases i <;> simp [insAt, ih]

theorem insAt_eq_take_drop {α : Type} (l : List α) (i : Nat) (x : α)
    (h : i ≤ l.length) : insAt l i x = l.take i ++ x :: l.drop i := by
  induction l generalizing i with
  | nil =>
    have hi0 : i = 0 := by simpa using h
    subst hi0; simp [insAt]
  | cons a t ih =>
    cases i with
    | zero => simp [insAt]
    | succ j =>
      simp only [insAt, List.take_succ_cons, List.drop_succ_cons, List.cons_append]
      rw [ih j (by simpa using h)]

theorem sorted_take_of_sorted {l : List Int} (i : Nat)
    (hs : List.Sorted (fun a b : Int => a ≤ b) l) :
    List.Sorted (fun a b : Int => a ≤ b) (l.take i) :=
  List.Pairwise.sublist (List.take_sublist i l) hs

theorem sorted_drop_of_sorted {l : List Int} (i : Nat)
    (hs : List.Sorted (fun a b : Int => a ≤ b) l) :
    List.Sorted (fun a b : Int => a ≤ b) (l.drop i) :=
  List.Pairwise.sublist (List.drop_sublist i l) hs

theorem sorted_insAt (l : List Int) (i : Nat) (x : Int)
    (hs : List.Sorted (fun a b : Int => a ≤ b) l) (hi : i ≤ l.length)
    (h1 : ∀ a ∈ l.take i, a ≤ x) (h2 : ∀ a ∈ l.drop i, x ≤ a) :
    List.Sorted (fun a b : Int => a ≤ b) (insAt l i x) := by
  rw [insAt_eq_take_drop l i x hi]
  have htd : ∀ a ∈ l.take i, ∀ b ∈ l.drop i, a ≤ b := by
    intro a ha b hb
    exact le_trans (h1 a ha) (h2 b hb)
  unfold List.Sorted at hs ⊢
  rw [List.pairwise_append]
  refine ⟨sorted_take_of_sorted i hs, ?_, ?_⟩
  · rw [List.pairwise_cons]
    exact ⟨h2, sorted_drop_of_sorted i hs⟩
  · intro a ha b hb
    rcases List.mem_cons.mp hb with hb | hb
    · exact hb ▸ h1 a ha
    · exact htd a ha b hb

theorem sorted_eraseIdx {l : List Int} (i : Nat)
    (hs : List.Sorted (fun a b : Int => a ≤ b) l) :
    List.Sorted (fun a b : Int => a ≤ b) (l.eraseIdx i) :=
  List.Pairwise.sublist (List.eraseIdx_sublist l i) hs

theorem ubInsert_perm (x : Int) (l : List Int) :
    List.Perm (ubInsert x l) (x :: l) := by
  induction l with
  | nil => simp [ubInsert]
  | cons a t ih =>
    simp only [ubInsert]
    split
    · exact List.Perm.refl _
    · exact (ih.cons a).trans (List.Perm.swap x a t)

theorem ubInsert_sorted (x : Int) (l : List Int)
    (hs : List.Sorted (fun a b : Int => a ≤ b) l) :
    List.Sorted (fun a b : Int => a ≤ b) (ubInsert x l) := by
  induction l with
  | nil => simp [ubInsert]
  | cons a t ih =>
    simp only [ubInsert]
    split
    · rename_i hlt
      exact List.Pairwise.cons
        (fun b hb => by
          rcases List.mem_cons.mp hb with hb | hb
          · omega
          · exact le_trans (le_of_lt hlt) (List.rel_of_sorted_cons hs b hb))
        hs
    · rename_i hnlt
      have ht := List.Sorted.of_cons hs
      refine List.Pairwise.cons ?_ (ih ht)
      intro b hb
      have := (ubInsert_perm x t).mem_iff.mp hb
      rcases List.mem_cons.mp this with hb2 | hb2
      · omega
      · exact List.rel_of_sorted_cons hs b hb2

theorem stableSort_core (xs acc : List Int) :
    List.Perm (xs.foldl (fun a x => ubInsert x a) acc) (acc ++ xs) ∧
      (List.Sorted (fun a b : Int => a ≤ b) acc →
        List.Sorted (fun a b : Int => a ≤ b) (xs.foldl (fun a x => ubInsert x a) acc)) := by
  induction xs generalizing acc with
  | nil => simp
  | cons x t ih =>
    simp only [List.foldl_cons]
    constructor
    · refine ((ih (ubInsert x acc)).1).trans ?_
      refine ((ubInsert_perm x acc).append_right t).trans ?_
      simpa using (List.perm_middle).symm
    · intro hacc
      exact (ih (ubInsert x acc)).2 (ubInsert_sorted x acc hacc)

theorem stableSort_perm (xs : List Int) : List.Perm (stableSort xs) xs := by
  simpa [stableSort] using (stableSort_core xs []).1

theorem stableSort_sorted (xs : List Int) :
    List.Sorted (fun a b : Int => a ≤ b) (stableSort xs) :=
  (stableSort_core xs []).2 (by simp)

theorem eq_stableSort_of_perm_of_sorted {l : List Int} (xs : List Int)
    (hp : List.Perm l xs) (hs : List.Sorted (fun a b : Int => a ≤ b) l) :
    l = stableSort xs := by
  have h2 : List.Perm l (stableSort xs) := hp.trans (stableSort_perm xs).symm
  exact List.eq_of_perm_of_sorted h2 hs (stableSort_sorted xs)

theorem findIdx_le_len {α : Type} (p : α → Bool) (l : List α) :
    l.findIdx p ≤ l.length := by
  induction l with
  | nil => simp
  | cons a t ih =>
    rw [List.findIdx_cons]
    cases h : p a
    · simp only [h, cond_false, List.length_cons]
      exact Nat.succ_le_succ ih
    · simp [h]

theorem findIdx_getD_false {α : Type} (p : α → Bool) (l : List α) (dflt : α)
    (j : Nat) (hj : j < l.findIdx p) : p (l.getD j dflt) = false := by
  induction l generalizing j with
  | nil => simp at hj
  | cons a t ih =>
    rw [List.findIdx_cons] at hj
    cases h : p a with
    | true => simp [h] at hj
    | false =>
      simp only [h, cond_false] at hj
      cases j with
      | zero => simpa using h
      | succ k => exact ih k (by omega)

theorem findIdx_getD_true {α : Type} (p : α → Bool) (l : List α) (dflt : α)
    (h : l.findIdx p < l.length) : p (l.getD (l.findIdx p) dflt) = true := by
  induction l with
  | nil => simp at h
  | cons a t ih =>
    rw [List.findIdx_cons]
    rw [List.findIdx_cons] at h
    cases hp : p a with
    | true => simpa using hp
    | false =>
      simp only [hp, cond_false, List.length_cons, List.getD_cons_succ] at h ⊢
      exact ih (by omega)

theorem lensum_eq_length_flatten {α : Type} (bk : List (List α)) :
    lensum bk = bk.flatten.length := by
  induction bk with
  | nil => simp [lensum]
  | cons b t ih =>
    simp only [lensum, List.map_cons, List.sum_cons, List.flatten_cons,
      List.length_append] at ih ⊢
    omega

theorem flatten_decomp {α : Type} (bk : List (List α)) (tb : Nat)
    (h : tb < bk.length) :
    bk.flatten = (bk.take tb).flatten ++ bk.getD tb [] ++ (bk.drop (tb + 1)).flatten := by
  induction bk generalizing tb with
  | nil => simp at h
  | cons b t ih =>
    cases tb with
    | zero => simp
    | succ j =>
      simp only [List.take_succ_cons, List.flatten_cons, List.getD_cons_succ,
        List.drop_succ_cons, List.append_assoc]
      rw [ih j (by simpa using h)]
      simp [List.append_assoc]

theorem flatten_set {α : Type} (bk : List (List α)) (tb : Nat) (x : List α)
    (h : tb < bk.length) :
    (bk.set tb x).flatten = (bk.take tb).flatten ++ x ++ (bk.drop (tb + 1)).flatten := by
  induction bk generalizing tb with
  | nil => simp at h
  | cons b t ih =>
    cases tb with
    | zero => simp
    | succ j =>
      simp only [List.set_cons_succ, List.flatten_cons, List.take_succ_cons,
        List.drop_succ_cons, List.append_assoc]
      rw [ih j (by simpa using h)]
      simp [List.append_assoc]

theorem flatten_insAt_bucket {α : Type} (bk : List (List α)) (tb : Nat) (x : List α)
    (h : tb ≤ bk.length) :
    (insAt bk tb x).flatten = (bk.take tb).flatten ++ x ++ (bk.drop tb).flatten := by
  induction bk generalizing tb with
  | nil =>
    have : tb = 0 := by simpa using h
    subst this; simp [insAt]
  | cons b t ih =>
    cases tb with
    | zero => simp [insAt]
    | succ j =>
      simp only [insAt, List.flatten_cons, List.take_succ_cons, List.drop_succ_cons,
        List.append_assoc]
      rw [ih j (by simpa using h)]
      simp [List.append_assoc]

theorem flatten_eraseIdx {α : Type} (bk : List (List α)) (tb : Nat)
    (h : tb < bk.length) :
    (bk.eraseIdx tb).flatten = (bk.take tb).flatten ++ (bk.drop (tb + 1)).flatten := by
  induction bk generalizing tb with
  | nil => simp at h
  | cons b t ih =>
    cases tb with
    | zero => simp
    | succ j =>
      simp only [List.eraseIdx_cons_succ, List.flatten_cons, List.take_succ_cons,
        List.drop_succ_cons, List.append_assoc]
      rw [ih j (by simpa using h)]

theorem flatten_dropWhile_isEmpty {α : Type} (bk : List (List α)) :
    (bk.dropWhile List.isEmpty).flatten = bk.flatten := by
  induction bk with
  | nil => simp
  | cons b t ih =>
    cases hb : b.isEmpty with
    | true =>
      have : b = [] := List.isEmpty_iff.mp hb
      subst this
      simpa [List.dropWhile_cons] using ih
    | false => simp [List.dropWhile_cons, hb]

theorem flatten_take_append_drop {α : Type} (bk : List (List α)) (k : Nat) :
    (bk.take k).flatten ++ (bk.drop k).flatten = bk.flatten := by
  rw [← List.flatten_append, List.take_append_drop]

theorem getLast?_mem_list {α : Type} : ∀ {l : List α} {m : α},
    l.getLast? = some m → m ∈ l
  | [], _, h => by simp at h
  | [a], m, h => by
    simp only [List.getLast?_singleton, Option.some.injEq] at h
    simp [h]
  | a :: b :: t, m, h => by
    rw [List.getLast?_cons_cons] at h
    exact List.mem_cons_of_mem a (getLast?_mem_list h)

theorem sorted_le_getLast {l : List Int} {a m : Int}
    (hs : List.Sorted (fun a b : Int => a ≤ b) l) (ha : a ∈ l)
    (hm : l.getLast? = some m) : a ≤ m := by
  induction l with
  | nil => simp at ha
  | cons b t ih =>
    cases t with
    | nil =>
      simp at ha hm
      omega
    | cons c u =>
      rw [List.getLast?_cons_cons] at hm
      rcases List.mem_cons.mp ha with h | h
      · subst h
        exact List.rel_of_sorted_cons hs m (getLast?_mem_list hm)
      · exact ih (List.Sorted.of_cons hs) h hm

theorem sorted_bucket {bk : List (List Int)} (tb : Nat)
    (hs : List.Sorted (fun a b : Int => a ≤ b) bk.flatten) (h : tb < bk.length) :
    List.Sorted (fun a b : Int => a ≤ b) (bk.getD tb []) := by
  have hmem : bk.getD tb [] ∈ bk := by
    rw [List.getD_eq_getElem bk [] h]
    exact List.getElem_mem h
  exact List.Pairwise.sublist (List.sublist_flatten_of_mem hmem) hs

theorem getD_set_self {α : Type} (l : List α) (i : Nat) (x d : α)
    (h : i < l.length) : (l.set i x).getD i d = x := by
  rw [List.getD_eq_getElem _ _ (by simpa using h)]
  simp [List.getElem_set_self]

theorem getD_set_other {α : Type} (l : List α) (i j : Nat) (x d : α)
    (h : j ≠ i) : (l.set i x).getD j d = l.getD j d := by
  by_cases hj : j < l.length
  · rw [List.getD_eq_getElem _ _ (by simpa using hj), List.getD_eq_getElem _ _ hj]
    rw [List.getElem_set]
    rw [if_neg (by omega)]
  · have hj2 : l.length ≤ j := not_lt.mp hj
    rw [List.getD_eq_default _ _ (by simpa using hj2), List.getD_eq_default _ _ hj2]

theorem insAt_getD_lt {α : Type} (l : List α) (i j : Nat) (x d : α)
    (h : j < i) (hle : i ≤ l.length) : (insAt l i x).getD j d = l.getD j d := by
  induction l generalizing i j with
  | nil =>
    have : i = 0 := by simpa using hle
    omega
  | cons a t ih =>
    cases i with
    | zero => omega
    | succ k =>
      cases j with
      | zero => simp [insAt]
      | succ m =>
        simp only [insAt, List.getD_cons_succ]
        exact ih k m (by omega) (by simpa using hle)

theorem insAt_getD_gt {α : Type} (l : List α) (i j : Nat) (x d : α)
    (h : i < j) (hle : i ≤ l.length) :
    (insAt l i x).getD j d = l.getD (j - 1) d := by
  induction l generalizing i j with
  | nil =>
    have : i = 0 := by simpa using hle
    subst this
    cases j with
    | zero => omega
    | succ m => simp [insAt]
  | cons a t ih =>
    cases i with
    | zero =>
      cases j with
      | zero => omega
      | succ m => simp [insAt]
    | succ k =>
      cases j with
      | zero => omega
      | succ m =>
        simp only [insAt, List.getD_cons_succ]
        rw [ih k m (by omega) (by simpa using hle)]
        cases m with
        | zero => omega
        | succ u => simp

theorem eraseIdx_getD_lt {α : Type} (l : List α) (i j : Nat) (d : α)
    (h : j < i) : (l.eraseIdx i).getD j d = l.getD j d := by
  induction l generalizing i j with
  | nil => simp
  | cons a t ih =>
    cases i with
    | zero => omega
    | succ k =>
      cases j with
      | zero => simp
      | succ m =>
        simp only [List.eraseIdx_cons_succ, List.getD_cons_succ]
        exact ih k m (by omega)

theorem eraseIdx_getD_ge {α : Type} (l : List α) (i j : Nat) (d : α)
    (h : i ≤ j) : (l.eraseIdx i).getD j d = l.getD (j + 1) d := by
  induction l generalizing i j with
  | nil => simp
  | cons a t ih =>
    cases i with
    | zero => simp
    | succ k =>
      cases j with
      | zero => omega
      | succ m =>
        simp only [List.eraseIdx_cons_succ, List.getD_cons_succ]
        exact ih k m (by omega)

theorem take_getD_lt {α : Type} (l : List α) (k j : Nat) (d : α)
    (h : j < k) : (l.take k).getD j d = l.getD j d := by
  by_cases hj : j < l.length
  · rw [List.getD_eq_getElem _ _ (by simp; omega), List.getD_eq_getElem _ _ hj]
    exact List.getElem_take ..
  · have hj2 : l.length ≤ j := not_lt.mp hj
    rw [List.getD_eq_default _ _ (by simp; omega), List.getD_eq_default _ _ hj2]

theorem getLastD_eq_getD {α : Type} (l : List α) (d : α) (h : l ≠ []) :
    l.getLastD d = l.getD (l.length - 1) d := by
  induction l with
  | nil => simp at h
  | cons a t ih =>
    cases t with
    | nil => simp
    | cons b u =>
      have h2 : (a :: b :: u).getLastD d = (b :: u).getLastD d := by
        simp [List.getLastD]
      rw [h2, ih (by simp)]
      simp

theorem flatten_take_at {α : Type} (bk : List (List α)) (tb i : Nat)
    (h : tb < bk.length) (hi : i ≤ (bk.getD tb []).length) :
    bk.flatten.take (lensum (bk.take tb) + i) =
      (bk.take tb).flatten ++ (bk.getD tb []).take i := by
  rw [flatten_decomp bk tb h, lensum_eq_length_flatten, List.append_assoc,
    List.take_append, List.take_append_of_le_length hi]

theorem flatten_drop_at {α : Type} (bk : List (List α)) (tb i : Nat)
    (h : tb < bk.length) (hi : i ≤ (bk.getD tb []).length) :
    bk.flatten.drop (lensum (bk.take tb) + i) =
      (bk.getD tb []).drop i ++ (bk.drop (tb + 1)).flatten := by
  rw [flatten_decomp bk tb h, lensum_eq_length_flatten, List.append_assoc,
    List.drop_append, List.drop_append_of_le_length hi]

theorem ubBG_false {n : Int} {b : List Int}
    (h : VV.ubBucketGreater intLt n b = false) :
    ∃ x, b.getLast? = some x ∧ x ≤ n := by
  cases hgl : b.getLast? with
  | none => simp [VV.ubBucketGreater, hgl] at h
  | some x =>
    refine ⟨x, rfl, ?_⟩
    simp [VV.ubBucketGreater, hgl, intLt] at h
    exact h

theorem ubBG_true {n : Int} {b : List Int}
    (h : VV.ubBucketGreater intLt n b = true) :
    b.getLast? = none ∨ ∃ x, b.getLast? = some x ∧ n < x := by
  cases hgl : b.getLast? with
  | none => exact Or.inl rfl
  | some x =>
    refine Or.inr ⟨x, rfl, ?_⟩
    simp [VV.ubBucketGreater, hgl, intLt] at h
    exact h

theorem lbBL_false {n : Int} {b : List Int}
    (h : VV.lbBucketLess intLt b n = false) :
    ∃ x, b.getLast? = some x ∧ n ≤ x := by
  cases hgl : b.getLast? with
  | none => simp [VV.lbBucketLess, hgl] at h
  | some x =>
    refine ⟨x, rfl, ?_⟩
    simp [VV.lbBucketLess, hgl, intLt] at h
    omega

theorem lbBL_true {n : Int} {b : List Int}
    (h : VV.lbBucketLess intLt b n = true) :
    b.getLast? = none ∨ ∃ x, b.getLast? = some x ∧ x < n := by
  cases hgl : b.getLast? with
  | none => exact Or.inl rfl
  | some x =>
    refine Or.inr ⟨x, rfl, ?_⟩
    simp [VV.lbBucketLess, hgl, intLt] at h
    exact h

theorem flatten_buckets_le {bk : List (List Int)} {tb : Nat} {n : Int}
    (hs : List.Sorted (fun a b : Int => a ≤ b) bk.flatten)
    (hback : ∀ j, j < tb → j < bk.length →
      ∃ x, (bk.getD j []).getLast? = some x ∧ x ≤ n) :
    ∀ a ∈ (bk.take tb).flatten, a ≤ n := by
  intro a ha
  rcases List.mem_flatten.mp ha with ⟨b, hb, hab⟩
  rcases List.mem_iff_getElem.mp hb with ⟨j, hj, hbj⟩
  have hjtb : j < tb := by
    have := hj
    simp at this
    omega
  have hjlen : j < bk.length := by
    have := hj
    simp at this
    omega
  have hbeq : b = bk.getD j [] := by
    rw [List.getD_eq_getElem _ _ hjlen, ← hbj]
    exact List.getElem_take ..
  rcases hback j hjtb hjlen with ⟨x, hx, hxn⟩
  have hsb := sorted_bucket j hs hjlen
  exact le_trans (sorted_le_getLast hsb (hbeq ▸ hab) hx) hxn

theorem findIdx_lt_len_of_mem {α : Type} {p : α → Bool} {l : List α} {x : α}
    (hx : x ∈ l) (hp : p x = true) : l.findIdx p < l.length := by
  induction l with
  | nil => simp at hx
  | cons a t ih =>
    rw [List.findIdx_cons]
    cases hpa : p a with
    | false =>
      rcases List.mem_cons.mp hx with h | h
      · exact absurd hp (by rw [h]; simp [hpa])
      · simpa using Nat.succ_lt_succ (ih h)
    | true => simp

theorem vv_upperBound_some (st : VV.St Int) (n : Int) (tb i : Nat)
    (hInv : VVInv st) (h : VV.upperBound intLt st n = some (tb, i)) :
    tb < st.buckets.length ∧ i < (st.buckets.getD tb []).length ∧
    (∀ a ∈ (VV.flatten st).take (lensum (st.buckets.take tb) + i), a ≤ n) ∧
    (∀ a ∈ (VV.flatten st).drop (lensum (st.buckets.take tb) + i), n ≤ a) := by
  obtain ⟨hne, hsort, hnem, _, _⟩ := hInv
  have hhead : ∃ b0, st.buckets.head? = some b0 := by
    cases hbk : st.buckets with
    | nil => exact absurd hbk hne
    | cons b0 rest => exact ⟨b0, by simp⟩
  obtain ⟨b0, hb0⟩ := hhead
  rw [VV.upperBound, hb0] at h
  dsimp only [] at h
  by_cases hemp : b0.isEmpty
  · rw [if_pos hemp] at h; cases h
  rw [if_neg hemp] at h
  set t0 := st.buckets.findIdx (fun b => VV.ubBucketGreater intLt n b) with ht0
  by_cases hlen : st.buckets.length ≤ t0
  · rw [if_pos hlen] at h; cases h
  rw [if_neg hlen] at h
  have ht0len : t0 < st.buckets.length := not_le.mp hlen
  set bkt := st.buckets.getD t0 [] with hbkt
  set i0 := bkt.findIdx (fun e => intLt n e) with hi0
  have hpred : VV.ubBucketGreater intLt n bkt = true :=
    findIdx_getD_true (fun b => VV.ubBucketGreater intLt n b) st.buckets [] ht0len
  have hprev : ∀ j, j < t0 → j < st.buckets.length →
      ∃ x, (st.buckets.getD j []).getLast? = some x ∧ x ≤ n := by
    intro j hj _
    have := findIdx_getD_false (fun b => VV.ubBucketGreater intLt n b)
      st.buckets [] j (ht0 ▸ hj)
    exact ubBG_false this
  by_cases hiend : i0 = bkt.length
  · rw [if_pos hiend] at h
    rcases ubBG_true hpred with hglnone | ⟨x, hgl, hx⟩
    · have hbktnil : bkt = [] := List.getLast?_eq_none_iff.mp hglnone
      have ht0last : ¬ (t0 + 1 < st.buckets.length) := by
        intro hcon
        exact (hnem t0 hcon) (hbkt ▸ hbktnil)
      have : t0 + 1 = st.buckets.length := by omega
      rw [if_pos this] at h; cases h
    · have hxmem : x ∈ bkt := getLast?_mem_list hgl
      have : i0 < bkt.length :=
        findIdx_lt_len_of_mem hxmem (by simpa [intLt] using hx)
      omega
  · rw [if_neg hiend] at h
    have hii : tb = t0 ∧ i = i0 := by
      have := h
      simp only [Option.some.injEq, Prod.mk.injEq] at this
      omega
    obtain ⟨rfl, rfl⟩ := hii
    have hilen : i0 < bkt.length :=
      lt_of_le_of_ne (hi0 ▸ findIdx_le_len _ bkt) hiend
    refine ⟨ht0len, hbkt ▸ hilen, ?_, ?_⟩
    · simp only [VV.flatten]
      rw [flatten_take_at st.buckets t0 i0 ht0len (by rw [← hbkt]; omega)]
      intro a ha
      rcases List.mem_append.mp ha with ha | ha
      · exact flatten_buckets_le hsort hprev a ha
      · rcases List.mem_iff_getElem.mp ha with ⟨k, hk, hak⟩
        have hki : k < i0 := by
          have := hk; simp at this; omega
        have hklen : k < bkt.length := by
          have := hk; simp at this; omega
        have hfalse := findIdx_getD_false (fun e => intLt n e) bkt 0 k (hi0 ▸ hki)
        have hae : a = bkt.getD k 0 := by
          rw [List.getD_eq_getElem _ _ hklen, ← hak]
          exact List.getElem_take ..
        simp only [intLt, decide_eq_false_iff_not] at hfalse
        rw [hae]
        omega
    · simp only [VV.flatten]
      rw [flatten_drop_at st.buckets t0 i0 ht0len (by rw [← hbkt]; omega)]
      have hdropc : bkt.drop i0 = bkt[i0] :: bkt.drop (i0 + 1) :=
        List.drop_eq_getElem_cons hilen
      rw [← hbkt, hdropc]
      have hni : n < bkt[i0] := by
        have := findIdx_getD_true (fun e => intLt n e) bkt 0 (hi0 ▸ hilen)
        rw [← hi0, List.getD_eq_getElem _ _ hilen] at this
        simpa [intLt] using this
      have hsfull : List.Sorted (fun a b : Int => a ≤ b)
          (bkt[i0] :: (bkt.drop (i0 + 1) ++ (st.buckets.drop (t0 + 1)).flatten)) := by
        have h1 := sorted_drop_of_sorted (lensum (st.buckets.take t0) + i0) hsort
        simp only [VV.flatten] at h1
        rw [flatten_drop_at st.buckets t0 i0 ht0len (by rw [← hbkt]; omega), ← hbkt,
          hdropc, List.cons_append] at h1
        exact h1
      intro a ha
      rcases List.mem_cons.mp ha with ha | ha
      · omega
      · have := List.rel_of_sorted_cons hsfull a ha
        omega

theorem vv_upperBound_none (st : VV.St Int) (n : Int) (hInv : VVInv st)
    (h : VV.upperBound intLt st n = none) :
    ∀ a ∈ VV.flatten st, a ≤ n := by
  obtain ⟨hne, hsort, hnem, _, _⟩ := hInv
  obtain ⟨b0, hb0⟩ : ∃ b0, st.buckets.head? = some b0 := by
    cases hbk : st.buckets with
    | nil => exact absurd hbk hne
    | cons c rest => exact ⟨c, by simp [hbk]⟩
  rw [VV.upperBound, hb0] at h
  dsimp only [] at h
  by_cases hemp : b0.isEmpty
  · have hb0e : b0 = [] := List.isEmpty_iff.mp hemp
    subst hb0e
    have hsingle : st.buckets = [[]] := by
      cases hbk : st.buckets with
      | nil => exact absurd hbk hne
      | cons c rest =>
        rw [hbk] at hb0
        simp only [List.head?_cons, Option.some.injEq] at hb0
        cases hrest : rest with
        | nil => rw [hb0]
        | cons d u =>
          exfalso
          have hlt : 0 + 1 < st.buckets.length := by simp [hbk, hrest]
          have h0 : st.buckets.getD 0 [] = c := by simp [hbk]
          exact (hnem 0 hlt) (h0.trans hb0)
    rw [VV.flatten, hsingle]
    simp
  · rw [if_neg hemp] at h
    set t0 := st.buckets.findIdx (fun b => VV.ubBucketGreater intLt n b) with ht0
    have hprev : ∀ j, j < t0 → j < st.buckets.length →
        ∃ x, (st.buckets.getD j []).getLast? = some x ∧ x ≤ n := by
      intro j hj _
      exact ubBG_false (findIdx_getD_false (fun b => VV.ubBucketGreater intLt n b)
        st.buckets [] j (ht0 ▸ hj))
    by_cases hlen : st.buckets.length ≤ t0
    · have hall := @flatten_buckets_le st.buckets st.buckets.length n hsort
        (fun j hj hjl => hprev j (by omega) hjl)
      rw [List.take_length] at hall
      exact hall
    · rw [if_neg hlen] at h
      have ht0len : t0 < st.buckets.length := not_le.mp hlen
      set bkt := st.buckets.getD t0 [] with hbkt
      set i0 := bkt.findIdx (fun e => intLt n e) with hi0
      have hpred : VV.ubBucketGreater intLt n bkt = true :=
        findIdx_getD_true (fun b => VV.ubBucketGreater intLt n b) st.buckets [] ht0len
      by_cases hiend : i0 = bkt.length
      · rw [if_pos hiend] at h
        rcases ubBG_true hpred with hglnone | ⟨x, hgl, hx⟩
        · have hbktnil : bkt = [] := List.getLast?_eq_none_iff.mp hglnone
          have hroll : t0 + 1 = st.buckets.length := by
            by_contra hc
            exact (hnem t0 (by omega)) (hbkt ▸ hbktnil)
          intro a ha
          rw [VV.flatten, flatten_decomp st.buckets t0 ht0len, ← hbkt, hbktnil,
            hroll, List.drop_length] at ha
          simp only [List.flatten_nil, List.append_nil] at ha
          exact flatten_buckets_le hsort (fun j hj hjl => hprev j hj hjl) a ha
        · have hxmem : x ∈ bkt := getLast?_mem_list hgl
          have : i0 < bkt.length :=
            findIdx_lt_len_of_mem hxmem (by simpa [intLt] using hx)
          omega
      · rw [if_neg hiend] at h
        cases h

theorem flatten_decomp2 {α : Type} (bk : List (List α)) (tb : Nat)
    (h : tb + 1 < bk.length) :
    bk.flatten = (bk.take tb).flatten ++ bk.getD tb [] ++ bk.getD (tb + 1) [] ++
      (bk.drop (tb + 2)).flatten := by
  induction bk generalizing tb with
  | nil => simp at h
  | cons b t ih =>
    cases tb with
    | zero =>
      have h0 : 0 < t.length := by simpa using h
      have hd := flatten_decomp t 0 h0
      simp only [List.take_zero, List.flatten_nil, List.nil_append] at hd
      simp [hd, List.append_assoc]
    | succ j =>
      simp [ih j (by simpa using h), List.append_assoc]

theorem flatten_split_bucket {α : Type} (bk : List (List α)) (tb : Nat)
    (l1 l2 : List α) (h : tb < bk.length) :
    (insAt (bk.set tb l1) (tb + 1) l2).flatten =
      (bk.take tb).flatten ++ l1 ++ l2 ++ (bk.drop (tb + 1)).flatten := by
  induction bk generalizing tb with
  | nil => simp at h
  | cons b t ih =>
    cases tb with
    | zero => simp [insAt, List.append_assoc]
    | succ j => simp [insAt, ih j (by simpa using h), List.append_assoc]

theorem flatten_set2 {α : Type} (bk : List (List α)) (tb : Nat) (l1 l2 : List α)
    (h : tb + 1 < bk.length) :
    ((bk.set tb l1).set (tb + 1) l2).flatten =
      (bk.take tb).flatten ++ l1 ++ l2 ++ (bk.drop (tb + 2)).flatten := by
  induction bk generalizing tb with
  | nil => simp at h
  | cons b t ih =>
    cases tb with
    | zero =>
      have h0 : 0 < t.length := by simpa using h
      have hs := flatten_set t 0 l2 h0
      simp only [List.take_zero, List.flatten_nil, List.nil_append] at hs
      simp [hs, List.append_assoc]
    | succ j =>
      simp [ih j (by simpa using h), List.append_assoc]

theorem flatten_merge {α : Type} (bk : List (List α)) (tb : Nat) (l : List α)
    (h : tb + 1 < bk.length) :
    ((bk.set (tb + 1) l).eraseIdx tb).flatten =
      (bk.take tb).flatten ++ l ++ (bk.drop (tb + 2)).flatten := by
  induction bk generalizing tb with
  | nil => simp at h
  | cons b t ih =>
    cases tb with
    | zero =>
      have h0 : 0 < t.length := by simpa using h
      have hs := flatten_set t 0 l h0
      simp only [List.take_zero, List.flatten_nil, List.nil_append] at hs
      simp [hs, List.append_assoc]
    | succ j =>
      simp [ih j (by simpa using h), List.append_assoc]

/-- `balance` never changes the concatenated contents of the buckets. -/
theorem balance_flatten {α : Type} (d : Nat) (bk : List (List α)) (tb : Nat)
    (targ : Option Nat) :
    ((VV.balance d bk tb targ).1).flatten = bk.flatten := by
  unfold VV.balance
  by_cases hlen : bk.length ≤ tb
  · rw [if_pos hlen]
  · rw [if_neg hlen]
    simp only []
    set bk1 := bk.take (tb + 1) ++ (bk.drop (tb + 1)).dropWhile List.isEmpty with hbk1
    have hfl1 : bk1.flatten = bk.flatten := by
      rw [hbk1, List.flatten_append, flatten_dropWhile_isEmpty, ← List.flatten_append,
        List.take_append_drop]
    have htb1 : tb < bk1.length := by
      have hlb : (tb + 1) ≤ bk1.length := by
        rw [hbk1, List.length_append, List.length_take]
        omega
      omega
    set tbl := bk1.getD tb [] with htbl
    by_cases hbig : d * 2 < tbl.length
    · rw [if_pos hbig]
      rw [flatten_split_bucket bk1 tb _ _ htb1, ← hfl1, flatten_decomp bk1 tb htb1]
      simp only [List.append_assoc]
      rw [← List.append_assoc (tbl.take d) (tbl.drop d), List.take_append_drop]
    · rw [if_neg hbig]
      by_cases hsmall : tbl.length < d / 2
      · rw [if_pos hsmall]
        by_cases hlast : tb + 1 = bk1.length
        · rw [if_pos hlast]
          exact hfl1
        · rw [if_neg hlast]
          set nxt := bk1.getD (tb + 1) [] with hnxt
          have htb2 : tb + 1 < bk1.length := lt_of_le_of_ne htb1 hlast
          by_cases hred : d * 2 < tbl.length + nxt.length
          · rw [if_pos hred]
            simp only []
            rw [flatten_set2 bk1 tb _ _ htb2, ← hfl1, flatten_decomp2 bk1 tb htb2]
            simp only [List.append_assoc]
            rw [← List.append_assoc (nxt.take ((nxt.length - tbl.length) / 2))
              (nxt.drop ((nxt.length - tbl.length) / 2)), List.take_append_drop]
          · rw [if_neg hred]
            rw [flatten_merge bk1 tb _ htb2, ← hfl1, flatten_decomp2 bk1 tb htb2]
            simp only [List.append_assoc]
      · rw [if_neg hsmall]
        exact hfl1

theorem insAt_getD_self {α : Type} (l : List α) (i : Nat) (x d : α)
    (hle : i ≤ l.length) : (insAt l i x).getD i d = x := by
  induction l generalizing i with
  | nil =>
    have : i = 0 := by simpa using hle
    subst this
    simp [insAt]
  | cons a t ih =>
    cases i with
    | zero => simp [insAt]
    | succ j =>
      simp only [insAt, List.getD_cons_succ]
      exact ih j (by simpa using hle)

/-- Under the only-last-may-be-empty discipline (away from the touched bucket),
the empty-bucket sweep at the start of `balance` is either a no-op or removes
exactly the final, empty bucket. -/
theorem bk1_cases {α : Type} (bk : List (List α)) (tb : Nat)
    (hne : ∀ j, j + 1 < bk.length → j ≠ tb → bk.getD j [] ≠ []) :
    bk.take (tb + 1) ++ (bk.drop (tb + 1)).dropWhile List.isEmpty = bk ∨
    (tb + 2 = bk.length ∧ bk.getD (tb + 1) [] = [] ∧
      bk.take (tb + 1) ++ (bk.drop (tb + 1)).dropWhile List.isEmpty =
        bk.take (tb + 1)) := by
  cases hs : bk.drop (tb + 1) with
  | nil =>
    left
    have hlen : bk.length ≤ tb + 1 := by
      have h2 := congrArg List.length hs
      simp only [List.length_drop, List.length_nil] at h2
      omega
    simp [List.take_of_length_le hlen]
  | cons c rest =>
    have htb1len : tb + 1 < bk.length := by
      have h2 := congrArg List.length hs
      simp only [List.length_drop, List.length_cons] at h2
      omega
    have hc : bk.getD (tb + 1) [] = c := by
      have h0 : (bk.drop (tb + 1))[0]? = some c := by rw [hs]; simp
      rw [List.getElem?_drop] at h0
      rw [List.getD_eq_getElem?_getD]
      simp only [Nat.add_zero] at h0
      simp [h0]
    cases hcE : c.isEmpty with
    | false =>
      left
      rw [List.dropWhile_cons_of_neg (by simp [hcE]), ← hs, List.take_append_drop]
    | true =>
      right
      have hcnil : c = [] := List.isEmpty_iff.mp hcE
      have hlast : tb + 2 = bk.length := by
        by_contra hcon
        exact hne (tb + 1) (by omega) (by omega) (hc.trans hcnil)
      have hrest : rest = [] := by
        have h2 := congrArg List.length hs
        simp only [List.length_drop, List.length_cons] at h2
        have : rest.length = 0 := by omega
        exact List.length_eq_zero.mp this
    
      refine ⟨hlast, hc.trans hcnil, ?_⟩
      rw [hcnil, hrest]
      simp

/-- When everything after the touched bucket is empty, `balance` behaves as on
the truncated bucket vector. -/
theorem balance_drop_tail {α : Type} (d : Nat) (bk : List (List α)) (tb : Nat)
    (targ : Option Nat) (htb : tb < bk.length)
    (h : bk.take (tb + 1) ++ (bk.drop (tb + 1)).dropWhile List.isEmpty =
      bk.take (tb + 1)) :
    VV.balance d bk tb targ = VV.balance d (bk.take (tb + 1)) tb targ := by
  unfold VV.balance
  have hlt : tb < (bk.take (tb + 1)).length := by
    rw [List.length_take]
    omega
  rw [if_neg (not_le.mpr htb), if_neg (not_le.mpr hlt)]
  simp only []
  rw [h]
  have h2 : (bk.take (tb + 1)).take (tb + 1) = bk.take (tb + 1) := by
    rw [List.take_take]
    simp
  have h3 : (bk.take (tb + 1)).drop (tb + 1) = [] :=
    List.drop_eq_nil_of_le (by rw [List.length_take]; omega)
  rw [h2, h3]
  simp

theorem balance_fst_split {α : Type} (d : Nat) (bk : List (List α)) (tb : Nat)
    (targ : Option Nat) (htb : tb < bk.length)
    (hclean : (bk.drop (tb + 1)).dropWhile List.isEmpty = bk.drop (tb + 1))
    (hbig : d * 2 < (bk.getD tb []).length) :
    (VV.balance d bk tb targ).1 =
      insAt (bk.set tb ((bk.getD tb []).take d)) (tb + 1)
        ((bk.getD tb []).drop d) := by
  unfold VV.balance
  rw [if_neg (not_le.mpr htb)]
  simp only []
  rw [hclean, List.take_append_drop, if_pos hbig]

theorem balance_fst_keep {α : Type} (d : Nat) (bk : List (List α)) (tb : Nat)
    (targ : Option Nat) (htb : tb < bk.length)
    (hclean : (bk.drop (tb + 1)).dropWhile List.isEmpty = bk.drop (tb + 1))
    (hbig : ¬ d * 2 < (bk.getD tb []).length)
    (hlast : (bk.getD tb []).length < d / 2 → tb + 1 = bk.length) :
    (VV.balance d bk tb targ).1 = bk := by
  unfold VV.balance
  rw [if_neg (not_le.mpr htb)]
  simp only []
  rw [hclean, List.take_append_drop, if_neg hbig]
  by_cases hsmall : (bk.getD tb []).length < d / 2
  · rw [if_pos hsmall, if_pos (hlast hsmall)]
  · rw [if_neg hsmall]

theorem balance_fst_redis {α : Type} (d : Nat) (bk : List (List α)) (tb : Nat)
    (targ : Option Nat) (htb : tb < bk.length)
    (hclean : (bk.drop (tb + 1)).dropWhile List.isEmpty = bk.drop (tb + 1))
    (hbig : ¬ d * 2 < (bk.getD tb []).length)
    (hsmall : (bk.getD tb []).length < d / 2)
    (hlast : ¬ tb + 1 = bk.length)
    (hred : d * 2 < (bk.getD tb []).length + (bk.getD (tb + 1) []).length) :
    (VV.balance d bk tb targ).1 =
      (bk.set tb (bk.getD tb [] ++
          (bk.getD (tb + 1) []).take
            (((bk.getD (tb + 1) []).length - (bk.getD tb []).length) / 2))).set
        (tb + 1)
        ((bk.getD (tb + 1) []).drop
          (((bk.getD (tb + 1) []).length - (bk.getD tb []).length) / 2)) := by
  unfold VV.balance
  rw [if_neg (not_le.mpr htb)]
  simp only []
  rw [hclean, List.take_append_drop, if_neg hbig, if_pos hsmall, if_neg hlast]
  rw [if_pos hred]

theorem balance_fst_merge {α : Type} (d : Nat) (bk : List (List α)) (tb : Nat)
    (targ : Option Nat) (htb : tb < bk.length)
    (hclean : (bk.drop (tb + 1)).dropWhile List.isEmpty = bk.drop (tb + 1))
    (hbig : ¬ d * 2 < (bk.getD tb []).length)
    (hsmall : (bk.getD tb []).length < d / 2)
    (hlast : ¬ tb + 1 = bk.length)
    (hred : ¬ d * 2 < (bk.getD tb []).length + (bk.getD (tb + 1) []).length) :
    (VV.balance d bk tb targ).1 =
      ((bk.set (tb + 1) (bk.getD tb [] ++ bk.getD (tb + 1) [])).eraseIdx tb) := by
  unfold VV.balance
  rw [if_neg (not_le.mpr htb)]
  simp only []
  rw [hclean, List.take_append_drop, if_neg hbig, if_pos hsmall, if_neg hlast]
  rw [if_neg hred]

/-- Bucket-size discipline restated for an untouched result vector. -/
theorem bucket_shape_keep (d : Nat) (hd : 2 ≤ d) (bk : List (List Int)) (tb : Nat)
    (htb : tb < bk.length)
    (hne : ∀ j, j + 1 < bk.length → j ≠ tb → bk.getD j [] ≠ [])
    (hlow : ∀ j, j + 1 < bk.length → j ≠ tb → d / 2 ≤ (bk.getD j []).length)
    (hhigh : ∀ j, j < bk.length → j ≠ tb → (bk.getD j []).length ≤ d * 2)
    (hbig : ¬ d * 2 < (bk.getD tb []).length)
    (htbok : tb + 1 < bk.length → d / 2 ≤ (bk.getD tb []).length) :
    bk ≠ [] ∧
    (∀ j, j + 1 < bk.length → bk.getD j [] ≠ []) ∧
    (∀ j, j + 1 < bk.length → d / 2 ≤ (bk.getD j []).length) ∧
    (∀ j, j < bk.length → (bk.getD j []).length ≤ d * 2) := by
  refine ⟨?_, ?_, ?_, ?_⟩
  · intro hcon
    rw [hcon] at htb
    simp at htb
  · intro j hj
    by_cases h2 : j = tb
    · subst h2
      apply List.length_pos.mp
      have := htbok hj
      omega
    · exact hne j hj h2
  · intro j hj
    by_cases h2 : j = tb
    · subst h2
      exact htbok hj
    · exact hlow j hj h2
  · intro j hj
    by_cases h2 : j = tb
    · subst h2
      omega
    · exact hhigh j hj h2

/-- After `balance` on a vector whose empty-bucket sweep is a no-op, with all
buckets other than the touched one within the discipline and the touched one
at most one over the split threshold, every non-last bucket of the result is
nonempty with at least `⌊d/2⌋` elements and every bucket has at most `2d`. -/
theorem balance_shape_clean (d : Nat) (hd : 2 ≤ d) (bk : List (List Int)) (tb : Nat)
    (targ : Option Nat) (htb : tb < bk.length)
    (hclean : (bk.drop (tb + 1)).dropWhile List.isEmpty = bk.drop (tb + 1))
    (hne : ∀ j, j + 1 < bk.length → j ≠ tb → bk.getD j [] ≠ [])
    (hlow : ∀ j, j + 1 < bk.length → j ≠ tb → d / 2 ≤ (bk.getD j []).length)
    (hhigh : ∀ j, j < bk.length → j ≠ tb → (bk.getD j []).length ≤ d * 2)
    (htbhigh : (bk.getD tb []).length ≤ d * 2 + 1) :
    (VV.balance d bk tb targ).1 ≠ [] ∧
    (∀ j, j + 1 < (VV.balance d bk tb targ).1.length →
      (VV.balance d bk tb targ).1.getD j [] ≠ []) ∧
    (∀ j, j + 1 < (VV.balance d bk tb targ).1.length →
      d / 2 ≤ ((VV.balance d bk tb targ).1.getD j []).length) ∧
    (∀ j, j < (VV.balance d bk tb targ).1.length →
      ((VV.balance d bk tb targ).1.getD j []).length ≤ d * 2) := by
  by_cases hbig : d * 2 < (bk.getD tb []).length
  · have hres := balance_fst_split d bk tb targ htb hclean hbig
    rw [hres]
    have hseq : (bk.getD tb []).length = d * 2 + 1 := by omega
    have hsetlen : (bk.set tb ((bk.getD tb []).take d)).length = bk.length := by
      simp
    have htb1le : tb + 1 ≤ (bk.set tb ((bk.getD tb []).take d)).length := by
      rw [hsetlen]
      omega
    set r := insAt (bk.set tb ((bk.getD tb []).take d)) (tb + 1)
      ((bk.getD tb []).drop d) with hrdef
    have hlen : r.length = bk.length + 1 := by
      rw [hrdef, insAt_length, hsetlen]
    have hglt : ∀ j, j < tb → r.getD j [] = bk.getD j [] := by
      intro j hj
      rw [hrdef, insAt_getD_lt _ _ _ _ _ (by omega) htb1le,
        getD_set_other _ _ _ _ _ (by omega)]
    have hgtb : r.getD tb [] = (bk.getD tb []).take d := by
      rw [hrdef, insAt_getD_lt _ _ _ _ _ (by omega) htb1le,
        getD_set_self _ _ _ _ htb]
    have hgtb1 : r.getD (tb + 1) [] = (bk.getD tb []).drop d :=
      insAt_getD_self _ _ _ _ htb1le
    have hggt : ∀ j, tb + 1 < j → r.getD j [] = bk.getD (j - 1) [] := by
      intro j hj
      rw [hrdef, insAt_getD_gt _ _ _ _ _ hj htb1le,
        getD_set_other _ _ _ _ _ (by omega)]
    refine ⟨List.length_pos.mp (by omega), ?_, ?_, ?_⟩
    · intro j hj
      rw [hlen] at hj
      by_cases h1 : j < tb
      · rw [hglt j h1]
        exact hne j (by omega) (by omega)
      · by_cases h2 : j = tb
        · subst h2
          rw [hgtb]
          apply List.length_pos.mp
          rw [List.length_take]
          omega
        · by_cases h3 : j = tb + 1
          · subst h3
            rw [hgtb1]
            apply List.length_pos.mp
            rw [List.length_drop]
            omega
          · rw [hggt j (by omega)]
            exact hne (j - 1) (by omega) (by omega)
    · intro j hj
      rw [hlen] at hj
      by_cases h1 : j < tb
      · rw [hglt j h1]
        exact hlow j (by omega) (by omega)
      · by_cases h2 : j = tb
        · subst h2
          rw [hgtb, List.length_take]
          omega
        · by_cases h3 : j = tb + 1
          · subst h3
            rw [hgtb1, List.length_drop]
            omega
          · rw [hggt j (by omega)]
            exact hlow (j - 1) (by omega) (by omega)
    · intro j hj
      rw [hlen] at hj
      by_cases h1 : j < tb
      · rw [hglt j h1]
        exact hhigh j (by omega) (by omega)
      · by_cases h2 : j = tb
        · subst h2
          rw [hgtb, List.length_take]
          omega
        · by_cases h3 : j = tb + 1
          · subst h3
            rw [hgtb1, List.length_drop]
            omega
          · rw [hggt j (by omega)]
            exact hhigh (j - 1) (by omega) (by omega)
  · by_cases hsmall : (bk.getD tb []).length < d / 2
    · by_cases hlast : tb + 1 = bk.length
      · have hres := balance_fst_keep d bk tb targ htb hclean hbig (fun _ => hlast)
        rw [hres]
        exact bucket_shape_keep d hd bk tb htb hne hlow hhigh hbig
          (fun hcon => absurd hlast (by omega))
      · have htb2 : tb + 1 < bk.length := by omega
        have hnl : (bk.getD (tb + 1) []).length ≤ d * 2 :=
          hhigh (tb + 1) htb2 (by omega)
        by_cases hred : d * 2 < (bk.getD tb []).length + (bk.getD (tb + 1) []).length
        · have hres := balance_fst_redis d bk tb targ htb hclean hbig hsmall hlast hred
          rw [hres]
          set q := ((bk.getD (tb + 1) []).length - (bk.getD tb []).length) / 2 with hq
          set r := (bk.set tb (bk.getD tb [] ++ (bk.getD (tb + 1) []).take q)).set
            (tb + 1) ((bk.getD (tb + 1) []).drop q) with hrdef
          have hlen : r.length = bk.length := by
            rw [hrdef]
            simp
          have hgoth : ∀ j, j ≠ tb → j ≠ tb + 1 → r.getD j [] = bk.getD j [] := by
            intro j h1 h2
            rw [hrdef, getD_set_other _ _ _ _ _ h2, getD_set_other _ _ _ _ _ h1]
          have hgtb : r.getD tb [] =
              bk.getD tb [] ++ (bk.getD (tb + 1) []).take q := by
            rw [hrdef, getD_set_other _ _ _ _ _ (by omega),
              getD_set_self _ _ _ _ (by simpa using htb)]
          have hgtb1 : r.getD (tb + 1) [] = (bk.getD (tb + 1) []).drop q := by
            rw [hrdef, getD_set_self _ _ _ _ (by simpa using htb2)]
          have hlen1 : (r.getD tb []).length =
              (bk.getD tb []).length + min q (bk.getD (tb + 1) []).length := by
            rw [hgtb, List.length_append, List.length_take]
          have hlen2 : (r.getD (tb + 1) []).length =
              (bk.getD (tb + 1) []).length - q := by
            rw [hgtb1, List.length_drop]
          refine ⟨List.length_pos.mp (by omega), ?_, ?_, ?_⟩
          · intro j hj
            rw [hlen] at hj
            by_cases h2 : j = tb
            · subst h2
              apply List.length_pos.mp
              omega
            · by_cases h3 : j = tb + 1
              · subst h3
                apply List.length_pos.mp
                omega
              · rw [hgoth j h2 h3]
                exact hne j hj h2
          · intro j hj
            rw [hlen] at hj
            by_cases h2 : j = tb
            · subst h2
              omega
            · by_cases h3 : j = tb + 1
              · subst h3
                omega
              · rw [hgoth j h2 h3]
                exact hlow j hj h2
          · intro j hj
            rw [hlen] at hj
            by_cases h2 : j = tb
            · subst h2
              omega
            · by_cases h3 : j = tb + 1
              · subst h3
                omega
              · rw [hgoth j h2 h3]
                exact hhigh j hj h2
        · have hres := balance_fst_merge d bk tb targ htb hclean hbig hsmall hlast hred
          rw [hres]
          set r := (bk.set (tb + 1) (bk.getD tb [] ++ bk.getD (tb + 1) [])).eraseIdx tb
            with hrdef
          have hlen : r.length = bk.length - 1 := by
            rw [hrdef, List.length_eraseIdx]
            simp [htb]
          have hglt : ∀ j, j < tb → r.getD j [] = bk.getD j [] := by
            intro j hj
            rw [hrdef, eraseIdx_getD_lt _ _ _ _ hj, getD_set_other _ _ _ _ _ (by omega)]
          have hgtb : r.getD tb [] = bk.getD tb [] ++ bk.getD (tb + 1) [] := by
            rw [hrdef, eraseIdx_getD_ge _ _ _ _ (le_refl tb),
              getD_set_self _ _ _ _ (by simpa using htb2)]
          have hggt : ∀ j, tb < j → r.getD j [] = bk.getD (j + 1) [] := by
            intro j hj
            rw [hrdef, eraseIdx_getD_ge _ _ _ _ (by omega),
              getD_set_other _ _ _ _ _ (by omega)]
          have hmlen : (r.getD tb []).length =
              (bk.getD tb []).length + (bk.getD (tb + 1) []).length := by
            rw [hgtb, List.length_append]
          refine ⟨List.length_pos.mp (by omega), ?_, ?_, ?_⟩
          · intro j hj
            rw [hlen] at hj
            by_cases h1 : j < tb
            · rw [hglt j h1]
              exact hne j (by omega) (by omega)
            · by_cases h2 : j = tb
              · have hnxtne : bk.getD (tb + 1) [] ≠ [] :=
                  hne (tb + 1) (by omega) (by omega)
                rw [h2, hgtb]
                intro hcon
                exact hnxtne (List.append_eq_nil.mp hcon).2
              · rw [hggt j (by omega)]
                exact hne (j + 1) (by omega) (by omega)
          · intro j hj
            rw [hlen] at hj
            by_cases h1 : j < tb
            · rw [hglt j h1]
              exact hlow j (by omega) (by omega)
            · by_cases h2 : j = tb
              · have := hlow (tb + 1) (by omega) (by omega)
                rw [h2]
                omega
              · rw [hggt j (by omega)]
                exact hlow (j + 1) (by omega) (by omega)
          · intro j hj
            rw [hlen] at hj
            by_cases h1 : j < tb
            · rw [hglt j h1]
              exact hhigh j (by omega) (by omega)
            · by_cases h2 : j = tb
              · subst h2
                omega
              · rw [hggt j (by omega)]
                exact hhigh (j + 1) (by omega) (by omega)
    · have hres := balance_fst_keep d bk tb targ htb hclean hbig
        (fun hs => absurd hs hsmall)
      rw [hres]
      exact bucket_shape_keep d hd bk tb htb hne hlow hhigh hbig (fun _ => by omega)

/-- Bucket-size discipline after `balance`, for any input vector in which all
buckets other than the touched one obey the discipline and the touched one is
at most one element over the split threshold. -/
theorem balance_shape (d : Nat) (hd : 2 ≤ d) (bk : List (List Int)) (tb : Nat)
    (targ : Option Nat) (htb : tb < bk.length)
    (hne : ∀ j, j + 1 < bk.length → j ≠ tb → bk.getD j [] ≠ [])
    (hlow : ∀ j, j + 1 < bk.length → j ≠ tb → d / 2 ≤ (bk.getD j []).length)
    (hhigh : ∀ j, j < bk.length → j ≠ tb → (bk.getD j []).length ≤ d * 2)
    (htbhigh : (bk.getD tb []).length ≤ d * 2 + 1) :
    (VV.balance d bk tb targ).1 ≠ [] ∧
    (∀ j, j + 1 < (VV.balance d bk tb targ).1.length →
      (VV.balance d bk tb targ).1.getD j [] ≠ []) ∧
    (∀ j, j + 1 < (VV.balance d bk tb targ).1.length →
      d / 2 ≤ ((VV.balance d bk tb targ).1.getD j []).length) ∧
    (∀ j, j < (VV.balance d bk tb targ).1.length →
      ((VV.balance d bk tb targ).1.getD j []).length ≤ d * 2) := by
  rcases bk1_cases bk tb hne with hA | ⟨hlast2, hempty, hB⟩
  · have hclean : (bk.drop (tb + 1)).dropWhile List.isEmpty = bk.drop (tb + 1) := by
      have h2 : bk.take (tb + 1) ++ (bk.drop (tb + 1)).dropWhile List.isEmpty =
          bk.take (tb + 1) ++ bk.drop (tb + 1) := by
        rw [hA, List.take_append_drop]
      exact List.append_cancel_left h2
    exact balance_shape_clean d hd bk tb targ htb hclean hne hlow hhigh htbhigh
  · rw [balance_drop_tail d bk tb targ htb hB]
    set B1 := bk.take (tb + 1) with hB1
    have hlenB : B1.length = tb + 1 := by
      rw [hB1, List.length_take]
      omega
    have hgB : ∀ j, j < tb + 1 → B1.getD j [] = bk.getD j [] := by
      intro j hj
      rw [hB1, take_getD_lt _ _ _ _ hj]
    have hcleanB : (B1.drop (tb + 1)).dropWhile List.isEmpty = B1.drop (tb + 1) := by
      have hnil : B1.drop (tb + 1) = [] := List.drop_eq_nil_of_le (by omega)
      rw [hnil]
      simp
    apply balance_shape_clean d hd B1 tb targ (by omega) hcleanB
    · intro j hj hjtb
      rw [hgB j (by omega)]
      exact hne j (by omega) hjtb
    · intro j hj hjtb
      rw [hgB j (by omega)]
      exact hlow j (by omega) hjtb
    · intro j hj hjtb
      rw [hgB j (by omega)]
      exact hhigh j (by omega) hjtb
    · rw [hgB tb (by omega)]
      exact htbhigh

/-- Core of the `insert` preservation argument: emplacing `n` at a position
`(tb, i)` whose prefix is `≤ n` and suffix is `≥ n`, then balancing, keeps the
representation invariant and adds exactly one copy of `n`. -/
theorem vv_insert_inv_core (st : VV.St Int) (n : Int) (tb i : Nat)
    (hd : 2 ≤ st.density)
    (hne : st.buckets ≠ [])
    (hsort : List.Sorted (fun a b : Int => a ≤ b) (VV.flatten st))
    (hnem : ∀ j, j + 1 < st.buckets.length → st.buckets.getD j [] ≠ [])
    (hlow : ∀ j, j + 1 < st.buckets.length →
      st.density / 2 ≤ (st.buckets.getD j []).length)
    (hhigh : ∀ j, j < st.buckets.length →
      (st.buckets.getD j []).length ≤ st.density * 2)
    (htb : tb < st.buckets.length)
    (hile : i ≤ (st.buckets.getD tb []).length)
    (htake : ∀ a ∈ (VV.flatten st).take (lensum (st.buckets.take tb) + i), a ≤ n)
    (hdrop : ∀ a ∈ (VV.flatten st).drop (lensum (st.buckets.take tb) + i), n ≤ a) :
    VVInv ⟨(VV.balance st.density
        (st.buckets.set tb (insAt (st.buckets.getD tb []) i n)) tb (some i)).1,
      st.sz + 1, st.density⟩ ∧
    List.Perm ((VV.balance st.density
        (st.buckets.set tb (insAt (st.buckets.getD tb []) i n)) tb (some i)).1.flatten)
      (n :: VV.flatten st) := by
  set bk1 := st.buckets.set tb (insAt (st.buckets.getD tb []) i n) with hbk1def
  set K := lensum (st.buckets.take tb) + i with hKdef
  have hlen1 : bk1.length = st.buckets.length := by
    rw [hbk1def]
    simp
  have hK : K ≤ (VV.flatten st).length := by
    have hdecomp := flatten_decomp st.buckets tb htb
    have : (VV.flatten st).length =
        lensum (st.buckets.take tb) + (st.buckets.getD tb []).length +
          ((st.buckets.drop (tb + 1)).flatten).length := by
      rw [VV.flatten, hdecomp, lensum_eq_length_flatten]
      simp only [List.length_append]
    omega
  have hflat1 : bk1.flatten = insAt (VV.flatten st) K n := by
    rw [hbk1def, flatten_set _ _ _ htb, insAt_eq_take_drop _ _ _ hile,
      insAt_eq_take_drop _ _ _ hK]
    rw [VV.flatten] at hK ⊢
    rw [flatten_take_at _ _ _ htb hile, flatten_drop_at _ _ _ htb hile]
    simp only [List.append_assoc, List.cons_append]
  have hne1 : ∀ j, j + 1 < bk1.length → j ≠ tb → bk1.getD j [] ≠ [] := by
    intro j hj hjtb
    rw [hlen1] at hj
    rw [hbk1def, getD_set_other _ _ _ _ _ hjtb]
    exact hnem j hj
  have hlow1 : ∀ j, j + 1 < bk1.length → j ≠ tb →
      st.density / 2 ≤ (bk1.getD j []).length := by
    intro j hj hjtb
    rw [hlen1] at hj
    rw [hbk1def, getD_set_other _ _ _ _ _ hjtb]
    exact hlow j hj
  have hhigh1 : ∀ j, j < bk1.length → j ≠ tb →
      (bk1.getD j []).length ≤ st.density * 2 := by
    intro j hj hjtb
    rw [hlen1] at hj
    rw [hbk1def, getD_set_other _ _ _ _ _ hjtb]
    exact hhigh j hj
  have htbh1 : (bk1.getD tb []).length ≤ st.density * 2 + 1 := by
    rw [hbk1def, getD_set_self _ _ _ _ htb, insAt_length]
    have := hhigh tb htb
    omega
  have htb1 : tb < bk1.length := by omega
  obtain ⟨hr_ne, hr_nem, hr_low, hr_high⟩ :=
    balance_shape st.density hd bk1 tb (some i) htb1 hne1 hlow1 hhigh1 htbh1
  have hrfl : (VV.balance st.density bk1 tb (some i)).1.flatten =
      insAt (VV.flatten st) K n := by
    rw [balance_flatten, hflat1]
  refine ⟨⟨hr_ne, ?_, hr_nem, hr_low, hr_high⟩, ?_⟩
  · show List.Sorted (fun a b : Int => a ≤ b)
      ((VV.balance st.density bk1 tb (some i)).1.flatten)
    rw [hrfl]
    exact sorted_insAt _ _ _ hsort hK htake hdrop
  · rw [hrfl]
    exact insAt_perm _ _ _

/-- `insert` preserves the vector-engine representation invariant and adds
exactly one copy of the key (density at least 2). -/
theorem vv_insert_inv (st : VV.St Int) (n : Int) (hd : 2 ≤ st.density)
    (hInv : VVInv st) :
    VVInv (VV.insert intLt st n).1 ∧
    List.Perm (VV.flatten (VV.insert intLt st n).1) (n :: VV.flatten st) := by
  obtain ⟨hne, hsort, hnem, hlow, hhigh⟩ := hInv
  cases hub : VV.upperBound intLt st n with
  | some p =>
    obtain ⟨tb, i⟩ := p
    obtain ⟨htb, hi, htake, hdrop⟩ :=
      vv_upperBound_some st n tb i ⟨hne, hsort, hnem, hlow, hhigh⟩ hub
    have hres : (VV.insert intLt st n).1 =
        ⟨(VV.balance st.density
            (st.buckets.set tb (insAt (st.buckets.getD tb []) i n)) tb (some i)).1,
          st.sz + 1, st.density⟩ := by
      unfold VV.insert
      rw [hub]
    rw [hres]
    exact vv_insert_inv_core st n tb i hd hne hsort hnem hlow hhigh htb
      (le_of_lt hi) htake hdrop
  | none =>
    have hlpos : 0 < st.buckets.length := by
      cases hbk : st.buckets with
      | nil => exact absurd hbk hne
      | cons c r => simp [hbk]
    have htb : st.buckets.length - 1 < st.buckets.length := by omega
    have hgl : st.buckets.getLastD [] =
        st.buckets.getD (st.buckets.length - 1) [] := getLastD_eq_getD _ _ hne
    have hdecomp := flatten_decomp st.buckets (st.buckets.length - 1) htb
    have hdropnil : st.buckets.drop (st.buckets.length - 1 + 1) = [] :=
      List.drop_eq_nil_of_le (by omega)
    have hKlen : lensum (st.buckets.take (st.buckets.length - 1)) +
        (st.buckets.getLastD []).length = (VV.flatten st).length := by
      rw [hgl, VV.flatten, hdecomp, hdropnil, lensum_eq_length_flatten]
      simp
    have htake : ∀ a ∈ (VV.flatten st).take
        (lensum (st.buckets.take (st.buckets.length - 1)) +
          (st.buckets.getLastD []).length), a ≤ n := by
      intro a ha
      exact vv_upperBound_none st n ⟨hne, hsort, hnem, hlow, hhigh⟩ hub a
        (List.mem_of_mem_take ha)
    have hdrop : ∀ a ∈ (VV.flatten st).drop
        (lensum (st.buckets.take (st.buckets.length - 1)) +
          (st.buckets.getLastD []).length), n ≤ a := by
      rw [hKlen]
      simp
    have hres : (VV.insert intLt st n).1 =
        ⟨(VV.balance st.density
            (st.buckets.set (st.buckets.length - 1)
              (insAt (st.buckets.getD (st.buckets.length - 1) [])
                (st.buckets.getLastD []).length n))
            (st.buckets.length - 1) (some (st.buckets.getLastD []).length)).1,
          st.sz + 1, st.density⟩ := by
      unfold VV.insert
      rw [hub]
    rw [hres]
    exact vv_insert_inv_core st n (st.buckets.length - 1)
      (st.buckets.getLastD []).length hd hne hsort hnem hlow hhigh htb
      (le_of_eq (congrArg List.length hgl)) htake hdrop

/-- Whenever `lowerBound` returns a bucket iterator, it is in range. -/
theorem vv_lowerBound_some_tb {α : Type} (less : α → α → Bool) (st : VV.St α)
    (n : α) (tb i : Nat) (h : VV.lowerBound less st n = some (tb, i)) :
    tb < st.buckets.length := by
  rw [VV.lowerBound] at h
  cases hh : st.buckets.head? with
  | none =>
    rw [hh] at h
    cases h
  | some b0 =>
    rw [hh] at h
    dsimp only [] at h
    by_cases hemp : b0.isEmpty
    · rw [if_pos hemp] at h
      cases h
    · rw [if_neg hemp] at h
      set t0 := st.buckets.findIdx (fun b => !VV.lbBucketLess less b n) with ht0
      by_cases hlen : st.buckets.length ≤ t0
      · rw [if_pos hlen] at h
        cases h
      · rw [if_neg hlen] at h
        by_cases hiend : (st.buckets.getD t0 []).findIdx (fun e => !less e n) =
            (st.buckets.getD t0 []).length
        · rw [if_pos hiend] at h
          by_cases hroll : t0 + 1 = st.buckets.length
          · rw [if_pos hroll] at h
            cases h
          · rw [if_neg hroll] at h
            simp only [Option.some.injEq, Prod.mk.injEq] at h
            omega
        · rw [if_neg hiend] at h
          simp only [Option.some.injEq, Prod.mk.injEq] at h
          omega

/-- `erase` preserves the vector-engine representation invariant (density at
least 2). -/
theorem vv_erase_inv (st : VV.St Int) (n : Int) (hd : 2 ≤ st.density)
    (hInv : VVInv st) : VVInv (VV.erase intLt st n).1 := by
  obtain ⟨hne, hsort, hnem, hlow, hhigh⟩ := hInv
  cases hlb : VV.lowerBound intLt st n with
  | none =>
    have hres : (VV.erase intLt st n).1 = st := by
      unfold VV.erase
      rw [hlb]
    rw [hres]
    exact ⟨hne, hsort, hnem, hlow, hhigh⟩
  | some p =>
    obtain ⟨tb, i⟩ := p
    have htb : tb < st.buckets.length := vv_lowerBound_some_tb intLt st n tb i hlb
    by_cases hiend : i = (st.buckets.getD tb []).length
    · have hres : (VV.erase intLt st n).1 = st := by
        unfold VV.erase
        rw [hlb]
        dsimp only []
        rw [if_pos hiend]
      rw [hres]
      exact ⟨hne, hsort, hnem, hlow, hhigh⟩
    · have hres : (VV.erase intLt st n).1 =
          ⟨(VV.balance st.density
              (st.buckets.set tb ((st.buckets.getD tb []).eraseIdx i)) tb none).1,
            st.sz - 1, st.density⟩ := by
        unfold VV.erase
        rw [hlb]
        dsimp only []
        rw [if_neg hiend]
      rw [hres]
      set bk1 := st.buckets.set tb ((st.buckets.getD tb []).eraseIdx i) with hbk1def
      have hlen1 : bk1.length = st.buckets.length := by
        rw [hbk1def]
        simp
      have hne1 : ∀ j, j + 1 < bk1.length → j ≠ tb → bk1.getD j [] ≠ [] := by
        intro j hj hjtb
        rw [hlen1] at hj
        rw [hbk1def, getD_set_other _ _ _ _ _ hjtb]
        exact hnem j hj
      have hlow1 : ∀ j, j + 1 < bk1.length → j ≠ tb →
          st.density / 2 ≤ (bk1.getD j []).length := by
        intro j hj hjtb
        rw [hlen1] at hj
        rw [hbk1def, getD_set_other _ _ _ _ _ hjtb]
        exact hlow j hj
      have hhigh1 : ∀ j, j < bk1.length → j ≠ tb →
          (bk1.getD j []).length ≤ st.density * 2 := by
        intro j hj hjtb
        rw [hlen1] at hj
        rw [hbk1def, getD_set_other _ _ _ _ _ hjtb]
        exact hhigh j hj
      have htbh1 : (bk1.getD tb []).length ≤ st.density * 2 + 1 := by
        rw [hbk1def, getD_set_self _ _ _ _ htb, List.length_eraseIdx]
        have := hhigh tb htb
        split
        · omega
        · omega
      have htb1 : tb < bk1.length := by omega
      obtain ⟨hr_ne, hr_nem, hr_low, hr_high⟩ :=
        balance_shape st.density hd bk1 tb none htb1 hne1 hlow1 hhigh1 htbh1
      refine ⟨hr_ne, ?_, hr_nem, hr_low, hr_high⟩
      show List.Sorted (fun a b : Int => a ≤ b)
        ((VV.balance st.density bk1 tb none).1.flatten)
      rw [balance_flatten]
      have hsub : bk1.flatten.Sublist (VV.flatten st) := by
        rw [hbk1def, flatten_set _ _ _ htb, VV.flatten, flatten_decomp st.buckets tb htb]
        exact ((List.Sublist.refl _).append
          (List.eraseIdx_sublist _ i)).append (List.Sublist.refl _)
      exact List.Pairwise.sublist hsub hsort

/-- The list engine's `balance` performs the same bucket transformations as
the vector engine's; they differ only in the returned `shiftRight` flag. -/
theorem ll_balance_fst_eq_vv {α : Type} (d : Nat) (bk : List (List α)) (tb : Nat)
    (targ : Option Nat) :
    (LL.balance d bk tb targ).1 = (VV.balance d bk tb targ).1 := by
  unfold LL.balance VV.balance
  by_cases hlen : bk.length ≤ tb
  · rw [if_pos hlen, if_pos hlen]
  · rw [if_neg hlen, if_neg hlen]
    simp only []
    set bk1 := bk.take (tb + 1) ++ (bk.drop (tb + 1)).dropWhile List.isEmpty with hbk1
    by_cases hbig : d * 2 < (bk1.getD tb []).length
    · rw [if_pos hbig, if_pos hbig]
    · rw [if_neg hbig, if_neg hbig]

theorem vv_init_inv (d : Nat) : VVInv (VV.initSt Int d) := by
  refine ⟨by simp [VV.initSt], by simp [VV.flatten, VV.initSt], ?_, ?_, ?_⟩
  · intro j hj
    simp [VV.initSt] at hj
  · intro j hj
    simp [VV.initSt] at hj
  · intro j hj
    simp [VV.initSt] at hj
    subst hj
    simp [VV.initSt]

/-- Every reachable state of the vector engine (density at least 2) satisfies
the representation invariant and keeps its configured density. -/
theorem vv_reach_inv (d : Nat) (hd : 2 ≤ d) (st : VV.St Int)
    (h : VVReach d st) : VVInv st ∧ st.density = d := by
  induction h with
  | init => exact ⟨vv_init_inv d, rfl⟩
  | ins st0 n _ ih =>
    have hd0 : 2 ≤ st0.density := by omega
    refine ⟨(vv_insert_inv st0 n hd0 ih.1).1, ?_⟩
    have : (VV.insert intLt st0 n).1.density = st0.density := by
      unfold VV.insert
      cases VV.upperBound intLt st0 n <;> rfl
    omega
  | ers st0 n _ ih =>
    have hd0 : 2 ≤ st0.density := by omega
    refine ⟨vv_erase_inv st0 n hd0 ih.1, ?_⟩
    have : (VV.erase intLt st0 n).1.density = st0.density := by
      unfold VV.erase
      cases hlb : VV.lowerBound intLt st0 n with
      | none => rfl
      | some p =>
        dsimp only []
        by_cases hi : p.2 = (st0.buckets.getD p.1 []).length
        · rw [if_pos hi]
        · rw [if_neg hi]
    omega

/-- Folded insertion into the vector engine: invariant, density and contents
(as a multiset) after inserting a whole sequence. -/
theorem vv_fold_inv (d : Nat) (hd : 2 ≤ d) (xs : List Int) :
    ∀ st : VV.St Int, VVInv st → st.density = d →
    VVInv (xs.foldl (fun s x => (VV.insert intLt s x).1) st) ∧
    (xs.foldl (fun s x => (VV.insert intLt s x).1) st).density = d ∧
    List.Perm (VV.flatten (xs.foldl (fun s x => (VV.insert intLt s x).1) st))
      (xs ++ VV.flatten st) := by
  induction xs with
  | nil =>
    intro st h1 h2
    exact ⟨h1, h2, by simp⟩
  | cons x t ih =>
    intro st h1 h2
    have hd0 : 2 ≤ st.density := by omega
    have hins := vv_insert_inv st x hd0 h1
    have hdens : (VV.insert intLt st x).1.density = st.density := by
      unfold VV.insert
      cases VV.upperBound intLt st x <;> rfl
    have hrec := ih (VV.insert intLt st x).1 hins.1 (by omega)
    refine ⟨hrec.1, hrec.2.1, ?_⟩
    simp only [List.foldl_cons]
    refine (hrec.2.2).trans ?_
    exact ((hins.2).append_left t).trans List.perm_middle

/-- The vector engine built by an insert-only sequence holds exactly the
stable sort of the sequence. -/
theorem vv_flatten_eq_stableSort (d : Nat) (hd : 2 ≤ d) (xs : List Int) :
    VV.flatten (vvOf xs d) = stableSort xs := by
  have h := vv_fold_inv d hd xs (VV.initSt Int d) (vv_init_inv d) rfl
  apply eq_stableSort_of_perm_of_sorted
  · have hp := h.2.2
    simpa [VV.flatten, VV.initSt] using hp
  · exact h.1.2.1

theorem scanIn_none_eq_takeWhile {α : Type} (q : α → Bool) (l : List α) :
    LL.scanIn q l none = (l.takeWhile q).length := by
  induction l with
  | nil => rfl
  | cons a t ih =>
    cases hq : q a
    · simp [LL.scanIn, hq, List.takeWhile_cons]
    · simp [LL.scanIn, hq, List.takeWhile_cons, ih]

theorem scanIn_some_eq {α : Type} (q : α → Bool) (l : List α) (k : Nat) :
    LL.scanIn q l (some k) = min (l.takeWhile q).length k := by
  induction l generalizing k with
  | nil => simp [LL.scanIn]
  | cons a t ih =>
    cases k with
    | zero => simp [LL.scanIn]
    | succ k =>
      cases hq : q a
      · simp [LL.scanIn, hq, List.takeWhile_cons]
      · simp only [LL.scanIn, hq, if_pos, List.takeWhile_cons, List.length_cons, ih k]
        omega

theorem takeWhile_getD_true {α : Type} (q : α → Bool) (l : List α) (d : α)
    (j : Nat) (hj : j < (l.takeWhile q).length) : q (l.getD j d) = true := by
  induction l generalizing j with
  | nil => simp at hj
  | cons a t ih =>
    cases hq : q a
    · rw [List.takeWhile_cons, hq] at hj
      simp at hj
    · cases j with
      | zero => simpa using hq
      | succ j =>
        rw [List.getD_cons_succ]
        apply ih
        rw [List.takeWhile_cons, hq] at hj
        simpa using hj

theorem takeWhile_getD_false {α : Type} (q : α → Bool) (l : List α) (d : α)
    (h : (l.takeWhile q).length < l.length) :
    q (l.getD (l.takeWhile q).length d) = false := by
  induction l with
  | nil => simp at h
  | cons a t ih =>
    cases hq : q a
    · simp [List.takeWhile_cons, hq]
    · rw [List.takeWhile_cons, hq] at h ⊢
      simp only [List.length_cons, List.getD_cons_succ]
      apply ih
      simpa using h

theorem takeWhile_len_le {α : Type} (q : α → Bool) (l : List α) :
    (l.takeWhile q).length ≤ l.length :=
  List.Sublist.length_le (List.takeWhile_sublist q)

theorem pickBucketUB_spec {α : Type} (less : α → α → Bool) (dfl : α)
    (st : LL.St α) (n : α) (hne : st.buckets ≠ []) :
    (LL.pickBucketUB less dfl st n = st.buckets.length - 1 ∧
      ∀ j, j < st.buckets.length - 1 →
        less n ((st.buckets.getD j []).getLastD dfl) = false) ∨
    (LL.pickBucketUB less dfl st n < st.buckets.length - 1 ∧
      less n ((st.buckets.getD (LL.pickBucketUB less dfl st n) []).getLastD dfl)
        = true ∧
      ∀ j, j < LL.pickBucketUB less dfl st n →
        less n ((st.buckets.getD j []).getLastD dfl) = false) := by
  have hlpos : 0 < st.buckets.length := by
    cases hbk : st.buckets with
    | nil => exact absurd hbk hne
    | cons c r => simp [hbk]
  unfold LL.pickBucketUB
  by_cases h1 : 1 < st.buckets.length
  · rw [if_pos h1]
    simp only []
    set sentB := st.buckets.length - 1 with hsent
    set t0 := (st.buckets.take sentB).findIdx
      (fun b => less n (b.getLastD dfl)) with ht0
    have htklen : (st.buckets.take sentB).length = sentB := by
      rw [List.length_take]
      omega
    have ht0le : t0 ≤ sentB :=
      le_trans (findIdx_le_len _ _) (le_of_eq htklen)
    have hprev : ∀ j, j < t0 →
        less n ((st.buckets.getD j []).getLastD dfl) = false := by
      intro j hj
      have hfalse := findIdx_getD_false (fun b => less n (b.getLastD dfl))
        (st.buckets.take sentB) [] j (ht0 ▸ hj)
      rwa [take_getD_lt _ _ _ _ (by omega)] at hfalse
    by_cases hfound : t0 < sentB
    · have hptrue : less n ((st.buckets.getD t0 []).getLastD dfl) = true := by
        have htrue := findIdx_getD_true (fun b => less n (b.getLastD dfl))
          (st.buckets.take sentB) [] (by omega)
        rw [take_getD_lt _ _ _ _ (by rw [← ht0, htklen] at *; omega)] at htrue
        exact htrue
      rw [hptrue]
      simp only [Bool.not_true, Bool.false_eq_true, if_false]
      exact Or.inr ⟨hfound, hptrue, hprev⟩
    · have ht0eq : t0 = sentB := by omega
      left
      constructor
      · rw [ht0eq]
        split
        · rfl
        · rfl
      · intro j hj
        exact hprev j (by omega)
  · rw [if_neg h1]
    left
    constructor
    · omega
    · intro j hj
      omega

theorem pickBucketLB_spec {α : Type} (less : α → α → Bool) (dfl : α)
    (st : LL.St α) (n : α) (hne : st.buckets ≠ []) :
    (LL.pickBucketLB less dfl st n = st.buckets.length - 1 ∧
      ∀ j, j < st.buckets.length - 1 →
        less ((st.buckets.getD j []).getLastD dfl) n = true) ∨
    (LL.pickBucketLB less dfl st n < st.buckets.length - 1 ∧
      less ((st.buckets.getD (LL.pickBucketLB less dfl st n) []).getLastD dfl) n
        = false ∧
      ∀ j, j < LL.pickBucketLB less dfl st n →
        less ((st.buckets.getD j []).getLastD dfl) n = true) := by
  have hlpos : 0 < st.buckets.length := by
    cases hbk : st.buckets with
    | nil => exact absurd hbk hne
    | cons c r => simp [hbk]
  unfold LL.pickBucketLB
  by_cases h1 : 1 < st.buckets.length
  · rw [if_pos h1]
    simp only []
    set sentB := st.buckets.length - 1 with hsent
    set t0 := (st.buckets.take sentB).findIdx
      (fun b => !less (b.getLastD dfl) n) with ht0
    have htklen : (st.buckets.take sentB).length = sentB := by
      rw [List.length_take]
      omega
    have ht0le : t0 ≤ sentB :=
      le_trans (findIdx_le_len _ _) (le_of_eq htklen)
    have hprev : ∀ j, j < t0 →
        less ((st.buckets.getD j []).getLastD dfl) n = true := by
      intro j hj
      have hfalse := findIdx_getD_false (fun b => !less (b.getLastD dfl) n)
        (st.buckets.take sentB) [] j (ht0 ▸ hj)
      rw [take_getD_lt _ _ _ _ (by omega)] at hfalse
      simpa using hfalse
    by_cases hfound : t0 < sentB
    · have hpfalse : less ((st.buckets.getD t0 []).getLastD dfl) n = false := by
        have htrue := findIdx_getD_true (fun b => !less (b.getLastD dfl) n)
          (st.buckets.take sentB) [] (by omega)
        rw [take_getD_lt _ _ _ _ (by rw [← ht0, htklen] at *; omega)] at htrue
        simp only [Bool.not_eq_true'] at htrue
        exact htrue
      rw [hpfalse]
      simp only [Bool.false_eq_true, if_false]
      exact Or.inr ⟨hfound, hpfalse, hprev⟩
    · have ht0eq : t0 = sentB := by omega
      left
      constructor
      · rw [ht0eq]
        split
        · rfl
        · rfl
      · intro j hj
        exact hprev j (by omega)
  · rw [if_neg h1]
    left
    constructor
    · omega
    · intro j hj
      omega

/-- When every bucket that the discipline requires to be nonempty is nonempty
and the last bucket is nonempty, `balance` keeps the last bucket nonempty. -/
theorem balance_last_ne {α : Type} (d : Nat) (bk : List (List α)) (tb : Nat)
    (targ : Option Nat) (htb : tb < bk.length)
    (hne : ∀ j, j + 1 < bk.length → j ≠ tb → bk.getD j [] ≠ [])
    (hlastne : bk.getD (bk.length - 1) [] ≠ []) :
    (VV.balance d bk tb targ).1.getD ((VV.balance d bk tb targ).1.length - 1) []
      ≠ [] := by
  rcases bk1_cases bk tb hne with hA | ⟨hlast2, hempty, hB⟩
  · have hclean : (bk.drop (tb + 1)).dropWhile List.isEmpty = bk.drop (tb + 1) := by
      have h2 : bk.take (tb + 1) ++ (bk.drop (tb + 1)).dropWhile List.isEmpty =
          bk.take (tb + 1) ++ bk.drop (tb + 1) := by
        rw [hA, List.take_append_drop]
      exact List.append_cancel_left h2
    by_cases hbig : d * 2 < (bk.getD tb []).length
    · rw [balance_fst_split d bk tb targ htb hclean hbig]
      have hsetlen : (bk.set tb ((bk.getD tb []).take d)).length = bk.length := by
        simp
      have htb1le : tb + 1 ≤ (bk.set tb ((bk.getD tb []).take d)).length := by
        rw [hsetlen]
        omega
      have hlen : (insAt (bk.set tb ((bk.getD tb []).take d)) (tb + 1)
          ((bk.getD tb []).drop d)).length = bk.length + 1 := by
        rw [insAt_length, hsetlen]
      rw [hlen]
      by_cases hend : tb + 1 = bk.length
      · have : bk.length + 1 - 1 = tb + 1 := by omega
        rw [this, insAt_getD_self _ _ _ _ htb1le]
        intro hcon
        have := congrArg List.length hcon
        rw [List.length_drop] at this
        simp only [List.length_nil] at this
        omega
      · have hgt : tb + 1 < bk.length + 1 - 1 := by omega
        rw [insAt_getD_gt _ _ _ _ _ hgt htb1le,
          getD_set_other _ _ _ _ _ (by omega)]
        have : bk.length + 1 - 1 - 1 = bk.length - 1 := by omega
        rw [this]
        exact hlastne
    · by_cases hsmall : (bk.getD tb []).length < d / 2
      · by_cases hend : tb + 1 = bk.length
        · rw [balance_fst_keep d bk tb targ htb hclean hbig (fun _ => hend)]
          exact hlastne
        · have htb2 : tb + 1 < bk.length := by omega
          by_cases hred : d * 2 <
              (bk.getD tb []).length + (bk.getD (tb + 1) []).length
          · rw [balance_fst_redis d bk tb targ htb hclean hbig hsmall hend hred]
            have hlen : ((bk.set tb (bk.getD tb [] ++
                (bk.getD (tb + 1) []).take
                  (((bk.getD (tb + 1) []).length - (bk.getD tb []).length) / 2))).set
                (tb + 1)
                ((bk.getD (tb + 1) []).drop
                  (((bk.getD (tb + 1) []).length - (bk.getD tb []).length) / 2))).length
                = bk.length := by
              simp
            rw [hlen]
            by_cases hend2 : tb + 2 = bk.length
            · have h1 : bk.length - 1 = tb + 1 := by omega
              rw [h1, getD_set_self _ _ _ _ (by simpa using htb2)]
              have hnl : bk.getD (tb + 1) [] ≠ [] := by
                have : tb + 1 = bk.length - 1 := by omega
                rw [this] at *
                exact hlastne
              intro hcon
              have hc2 := congrArg List.length hcon
              rw [List.length_drop] at hc2
              simp only [List.length_nil] at hc2
              have hnlpos : 0 < (bk.getD (tb + 1) []).length := by
                cases hx : bk.getD (tb + 1) [] with
                | nil => exact absurd hx hnl
                | cons c r => simp [hx]
              omega
            · rw [getD_set_other _ _ _ _ _ (by omega),
                getD_set_other _ _ _ _ _ (by omega)]
              exact hlastne
          · rw [balance_fst_merge d bk tb targ htb hclean hbig hsmall hend hred]
            have hlen : ((bk.set (tb + 1)
                (bk.getD tb [] ++ bk.getD (tb + 1) [])).eraseIdx tb).length =
                bk.length - 1 := by
              rw [List.length_eraseIdx]
              simp [htb]
            rw [hlen]
            by_cases hend2 : tb + 2 = bk.length
            · have h1 : bk.length - 1 - 1 = tb := by omega
              rw [h1, eraseIdx_getD_ge _ _ _ _ (le_refl tb),
                getD_set_self _ _ _ _ (by simpa using htb2)]
              have hnl : bk.getD (tb + 1) [] ≠ [] := by
                have : tb + 1 = bk.length - 1 := by omega
                rw [this] at *
                exact hlastne
              intro hcon
              exact hnl (List.append_eq_nil.mp hcon).2
            · have hgt : tb < bk.length - 1 - 1 := by omega
              rw [eraseIdx_getD_ge _ _ _ _ (by omega),
                getD_set_other _ _ _ _ _ (by omega)]
              have h2 : bk.length - 1 - 1 + 1 = bk.length - 1 := by omega
              rw [h2]
              exact hlastne
      · rw [balance_fst_keep d bk tb targ htb hclean hbig
          (fun hs => absurd hs hsmall)]
        exact hlastne
  · exfalso
    have : tb + 1 = bk.length - 1 := by omega
    rw [this] at hempty
    exact hlastne hempty

theorem getLast?_eq_getLastD {α : Type} (l : List α) (d : α) (h : l ≠ []) :
    l.getLast? = some (l.getLastD d) := by
  induction l with
  | nil => exact absurd rfl h
  | cons a t ih =>
    cases t with
    | nil => simp [List.getLastD]
    | cons b u =>
      rw [List.getLast?_cons_cons]
      rw [ih (by simp)]
      simp [List.getLastD]

theorem flatten_getD_at {α : Type} (bk : List (List α)) (tb i : Nat) (d : α)
    (htb : tb < bk.length) (hi : i < (bk.getD tb []).length) :
    bk.flatten.getD (lensum (bk.take tb) + i) d = (bk.getD tb []).getD i d := by
  have hd := flatten_drop_at bk tb i htb (le_of_lt hi)
  have h0 : bk.flatten.getD (lensum (bk.take tb) + i) d =
      (bk.flatten.drop (lensum (bk.take tb) + i)).getD 0 d := by
    rw [List.getD_eq_getElem?_getD, List.getD_eq_getElem?_getD, List.getElem?_drop,
      Nat.add_zero]
  rw [h0, hd]
  have hne : 0 < ((bk.getD tb []).drop i).length := by
    rw [List.length_drop]
    omega
  rw [List.getD_eq_getElem?_getD, List.getElem?_append_left hne,
    List.getElem?_drop, Nat.add_zero, ← List.getD_eq_getElem?_getD]

theorem lensum_take_le {α : Type} (bk : List (List α)) (m : Nat) :
    lensum (bk.take m) ≤ lensum bk := by
  induction bk generalizing m with
  | nil => simp [lensum]
  | cons b t ih =>
    cases m with
    | zero => simp [lensum]
    | succ m =>
      simp only [List.take_succ_cons, lensum, List.map_cons, List.sum_cons]
      exact Nat.add_le_add_left (ih m) _

theorem lensum_take_mono {α : Type} (bk : List (List α)) (m j : Nat)
    (h : m ≤ j) : lensum (bk.take m) ≤ lensum (bk.take j) := by
  have heq : bk.take m = (bk.take j).take m := by
    rw [List.take_take]
    congr 1
    omega
  rw [heq]
  exact lensum_take_le (bk.take j) m

theorem lensum_take_succ {α : Type} (bk : List (List α)) (tb : Nat)
    (htb : tb < bk.length) :
    lensum (bk.take (tb + 1)) = lensum (bk.take tb) + (bk.getD tb []).length := by
  induction bk generalizing tb with
  | nil => simp at htb
  | cons b t ih =>
    cases tb with
    | zero => simp [lensum]
    | succ j =>
      simp only [List.take_succ_cons, lensum, List.map_cons, List.sum_cons,
        List.getD_cons_succ]
      have := ih j (by simpa using htb)
      unfold lensum at this
      omega

theorem lensum_take_add_getD_le {α : Type} (bk : List (List α)) (m j : Nat)
    (hmj : m ≤ j) (hj : j < bk.length) :
    lensum (bk.take m) + (bk.getD j []).length ≤ lensum bk := by
  have h1 : lensum (bk.take m) ≤ lensum (bk.take j) := lensum_take_mono bk m j hmj
  have h2 : lensum (bk.take (j + 1)) = lensum (bk.take j) + (bk.getD j []).length :=
    lensum_take_succ bk j hj
  have h3 : lensum (bk.take (j + 1)) ≤ lensum bk := lensum_take_le bk (j + 1)
  omega

theorem dropLast_take_eq {α : Type} (l : List α) (K : Nat)
    (h : K ≤ l.length - 1) : l.dropLast.take K = l.take K := by
  rw [List.dropLast_eq_take, List.take_take]
  congr 1
  omega

theorem dropLast_getD_eq {α : Type} (l : List α) (K : Nat) (d : α)
    (h : K < l.length - 1) : l.dropLast.getD K d = l.getD K d := by
  rw [List.dropLast_eq_take]
  exact take_getD_lt _ _ _ _ h

theorem sorted_drop_ge {S : List Int} {K : Nat} {n : Int}
    (hs : List.Sorted (fun a b : Int => a ≤ b) S) (hK : K < S.length)
    (hn : n ≤ S.getD K 0) : ∀ a ∈ S.drop K, n ≤ a := by
  intro a ha
  have hdrop : S.drop K = S.getD K 0 :: S.drop (K + 1) := by
    rw [List.getD_eq_getElem _ _ hK]
    exact List.drop_eq_getElem_cons hK
  rw [hdrop] at ha
  rcases List.mem_cons.mp ha with h | h
  · omega
  · have hsd : List.Sorted (fun a b : Int => a ≤ b) (S.drop K) :=
      sorted_drop_of_sorted K hs
    rw [hdrop] at hsd
    have := List.rel_of_sorted_cons hsd a h
    omega

theorem mem_take_getD {α : Type} {l : List α} {K : Nat} {a : α} (d : α)
    (ha : a ∈ l.take K) :
    ∃ idx, idx < K ∧ idx < l.length ∧ l.getD idx d = a := by
  rcases List.mem_iff_getElem.mp ha with ⟨idx, hidx, hval⟩
  rw [List.length_take] at hidx
  refine ⟨idx, by omega, by omega, ?_⟩
  rw [List.getD_eq_getElem _ _ (by omega)]
  rw [← hval]
  exact (List.getElem_take ..).symm

theorem sorted_bucket_of_dropLast {bk : List (List Int)} (j : Nat)
    (hj : j + 1 < bk.length)
    (hlastne : bk.getD (bk.length - 1) [] ≠ [])
    (hs : List.Sorted (fun a b : Int => a ≤ b) bk.flatten.dropLast) :
    List.Sorted (fun a b : Int => a ≤ b) (bk.getD j []) := by
  have hdecomp := flatten_decomp bk j (by omega)
  have hdne : (bk.drop (j + 1)).flatten ≠ [] := by
    intro hcon
    obtain ⟨x, hx⟩ : ∃ x, x ∈ bk.getD (bk.length - 1) [] := by
      cases hb : bk.getD (bk.length - 1) [] with
      | nil => exact absurd hb hlastne
      | cons c r => exact ⟨c, by simp [hb]⟩
    have hmem : bk.getD (bk.length - 1) [] ∈ bk.drop (j + 1) := by
      rw [List.getD_eq_getElem _ _ (by omega), List.mem_iff_getElem]
      refine ⟨bk.length - 1 - (j + 1), by rw [List.length_drop]; omega, ?_⟩
      rw [List.getElem_drop ..]
      congr 1
      omega
    have hxin : x ∈ (bk.drop (j + 1)).flatten := List.mem_flatten.mpr ⟨_, hmem, hx⟩
    rw [hcon] at hxin
    simp at hxin
  have hDL : bk.flatten.dropLast =
      (bk.take j).flatten ++ (bk.getD j [] ++
        ((bk.drop (j + 1)).flatten).dropLast) := by
    have hdne2 : bk.getD j [] ++ (bk.drop (j + 1)).flatten ≠ [] := by
      intro hcon
      exact hdne (List.append_eq_nil.mp hcon).2
    rw [hdecomp, List.append_assoc, List.dropLast_append_of_ne_nil _ hdne2,
      List.dropLast_append_of_ne_nil _ hdne]
  rw [hDL] at hs
  exact List.Pairwise.sublist
    ((List.sublist_append_left _ _).trans (List.sublist_append_right _ _)) hs

theorem getD_irrel {α : Type} : ∀ (l : List α) (j : Nat) (d1 d2 : α),
    j < l.length → l.getD j d1 = l.getD j d2
  | [], j, _, _, h => by simp at h
  | _ :: _, 0, _, _, _ => rfl
  | _ :: t, j + 1, d1, d2, h => by
    simp only [List.getD_cons_succ]
    exact getD_irrel t j d1 d2 (by simpa using h)

/-- Characterization of the list engine's `upperBound` on an invariant-holding
state: it returns an in-range position, at or before the sentinel position,
whose stored prefix is `≤ n` and whose stored suffix is `≥ n`. -/
theorem ll_upperBound_char (dfl : Int) (st : LL.St Int) (n : Int)
    (hne : st.buckets ≠ [])
    (hallne : ∀ j, j < st.buckets.length → st.buckets.getD j [] ≠ [])
    (hsorted : List.Sorted (fun a b : Int => a ≤ b) ((LL.flatten st).dropLast)) :
    (LL.upperBound intLt dfl st n).1 < st.buckets.length ∧
    (LL.upperBound intLt dfl st n).2 <
      (st.buckets.getD (LL.upperBound intLt dfl st n).1 []).length ∧
    lensum (st.buckets.take (LL.upperBound intLt dfl st n).1) +
        (LL.upperBound intLt dfl st n).2 ≤ ((LL.flatten st).dropLast).length ∧
    (∀ a ∈ ((LL.flatten st).dropLast).take
        (lensum (st.buckets.take (LL.upperBound intLt dfl st n).1) +
          (LL.upperBound intLt dfl st n).2), a ≤ n) ∧
    (∀ a ∈ ((LL.flatten st).dropLast).drop
        (lensum (st.buckets.take (LL.upperBound intLt dfl st n).1) +
          (LL.upperBound intLt dfl st n).2), n ≤ a) := by
  have hlpos : 0 < st.buckets.length := by
    cases hbk : st.buckets with
    | nil => exact absurd hbk hne
    | cons c r => simp [hbk]
  set sentB := st.buckets.length - 1 with hsentdef
  have hsentne : st.buckets.getD sentB [] ≠ [] := hallne sentB (by omega)
  have hsentlen : 1 ≤ (st.buckets.getD sentB []).length := by
    cases hb : st.buckets.getD sentB [] with
    | nil => exact absurd hb hsentne
    | cons c r => simp [hb]
  have hFlen : (LL.flatten st).length = lensum st.buckets :=
    (lensum_eq_length_flatten _).symm
  have hSlen : ((LL.flatten st).dropLast).length = lensum st.buckets - 1 := by
    rw [List.length_dropLast, hFlen]
  have htot : lensum (st.buckets.take sentB) + (st.buckets.getD sentB []).length
      = lensum st.buckets := by
    have h1 := lensum_take_succ st.buckets sentB (by omega)
    have h2 : sentB + 1 = st.buckets.length := by omega
    rw [h2, List.take_length] at h1
    omega
  set tb := LL.pickBucketUB intLt dfl st n with htbdef
  set bkt := st.buckets.getD tb [] with hbktdef
  set stop : Option Nat :=
    if tb = sentB then some (bkt.length - 1) else none with hstopdef
  set i := LL.scanIn (fun e => !intLt n e) bkt stop with hidef
  have hub : LL.upperBound intLt dfl st n =
      if i = bkt.length then (tb + 1, 0) else (tb, i) := by
    rw [LL.upperBound]
  rcases pickBucketUB_spec intLt dfl st n hne with ⟨htbS, hall⟩ | ⟨htblt, htbtrue, hprev⟩
  · -- the target is the sentinel bucket
    have htbS2 : tb = sentB := by
      rw [htbdef, hsentdef]
      exact htbS
    have htbB : tb < st.buckets.length := by omega
    have hstop2 : stop = some (bkt.length - 1) := by
      rw [hstopdef, if_pos htbS2]
    have hi2 : i = min ((bkt.takeWhile (fun e => !intLt n e)).length)
        (bkt.length - 1) := by
      rw [hidef, hstop2, scanIn_some_eq]
    set R := (bkt.takeWhile (fun e => !intLt n e)).length with hRdef
    have hbl : bkt.length = (st.buckets.getD sentB []).length := by
      rw [hbktdef, htbS2]
    have hbktlen : 1 ≤ bkt.length := by omega
    have hnoroll : i ≠ bkt.length := by omega
    rw [hub, if_neg hnoroll]
    dsimp only
    have hKle : lensum (st.buckets.take tb) + i ≤
        ((LL.flatten st).dropLast).length := by
      rw [hSlen, htbS2]
      omega
    refine ⟨by omega, by rw [← hbktdef]; omega, hKle, ?_, ?_⟩
    · intro a ha
      rw [dropLast_take_eq _ _ (by omega)] at ha
      rw [LL.flatten] at ha
      rw [flatten_take_at st.buckets tb i htbB (by rw [← hbktdef]; omega)] at ha
      rcases List.mem_append.mp ha with hmem | hmem
      · rcases List.mem_flatten.mp hmem with ⟨b, hb, hab⟩
        rcases List.mem_iff_getElem.mp hb with ⟨j, hj, hbj⟩
        rw [List.length_take] at hj
        have hjlt : j < tb := by omega
        have hbeq : b = st.buckets.getD j [] := by
          rw [← hbj, List.getD_eq_getElem _ _ (by omega)]
          exact (List.getElem_take ..)
        have hsb := sorted_bucket_of_dropLast j (by omega)
          (by rw [← hsentdef]; exact hsentne) hsorted
        have hglb : (st.buckets.getD j []).getLast? =
            some ((st.buckets.getD j []).getLastD dfl) :=
          getLast?_eq_getLastD _ _ (hallne j (by omega))
        have hle := sorted_le_getLast hsb (hbeq ▸ hab) hglb
        have hback := hall j (by omega)
        simp only [intLt, decide_eq_false_iff_not] at hback
        omega
      · rcases mem_take_getD 0 hmem with ⟨idx, hidxi, hidxlen, hval⟩
        have hq := takeWhile_getD_true (fun e => !intLt n e) bkt 0 idx (by omega)
        rw [hval] at hq
        simp only [intLt, Bool.not_eq_true', decide_eq_false_iff_not] at hq
        omega
    · intro a ha
      by_cases hKS : lensum (st.buckets.take tb) + i =
          ((LL.flatten st).dropLast).length
      · rw [hKS, List.drop_length] at ha
        simp at ha
      · have hiR : i = R := by
          rw [hSlen, htbS2] at hKS
          omega
        have hKlt : lensum (st.buckets.take tb) + i <
            ((LL.flatten st).dropLast).length := by omega
        have hq := takeWhile_getD_false (fun e => !intLt n e) bkt 0 (by omega)
        have hval : ((LL.flatten st).dropLast).getD
            (lensum (st.buckets.take tb) + i) 0 = bkt.getD i 0 := by
          rw [dropLast_getD_eq _ _ _ (by omega)]
          rw [hbktdef]
          exact flatten_getD_at st.buckets tb i 0 htbB (by rw [← hbktdef]; omega)
        refine sorted_drop_ge hsorted hKlt ?_ a ha
        rw [hval, hiR]
        rw [← hRdef] at hq
        simp only [intLt, Bool.not_eq_false', decide_eq_true_eq] at hq
        omega
  · -- the target is a non-sentinel bucket with back greater than n
    rw [← htbdef] at htblt htbtrue hprev
    have htbB : tb < st.buckets.length := by omega
    have htbS2 : tb ≠ sentB := by omega
    have hbktne : bkt ≠ [] := by
      rw [hbktdef]
      exact hallne tb htbB
    have hbktlen : 1 ≤ bkt.length := by
      cases hb : bkt with
      | nil => exact absurd hb hbktne
      | cons c r => simp [hb]
    have hstop2 : stop = none := by
      rw [hstopdef, if_neg htbS2]
    have hi2 : i = (bkt.takeWhile (fun e => !intLt n e)).length := by
      rw [hidef, hstop2, scanIn_none_eq_takeWhile]
    set R := (bkt.takeWhile (fun e => !intLt n e)).length with hRdef
    rw [← hbktdef] at htbtrue
    have hlastidx : bkt.getLastD dfl = bkt.getD (bkt.length - 1) 0 :=
      (getLastD_eq_getD _ _ hbktne).trans (getD_irrel _ _ _ _ (by omega))
    have hRlt : R < bkt.length := by
      by_contra hcon
      have hR : bkt.length - 1 < R := by omega
      have hq := takeWhile_getD_true (fun e => !intLt n e) bkt 0
        (bkt.length - 1) hR
      rw [← hlastidx] at hq
      simp only [] at hq
      rw [htbtrue] at hq
      simp at hq
    have hnoroll : i ≠ bkt.length := by omega
    rw [hub, if_neg hnoroll]
    dsimp only
    have hrem := lensum_take_add_getD_le st.buckets (tb + 1) sentB (by omega)
      (by omega)
    have hsucc := lensum_take_succ st.buckets tb htbB
    have hKlt : lensum (st.buckets.take tb) + i <
        ((LL.flatten st).dropLast).length := by
      rw [hSlen]
      rw [← hbktdef] at hsucc
      omega
    refine ⟨by omega, by rw [← hbktdef]; omega, by omega, ?_, ?_⟩
    · intro a ha
      rw [dropLast_take_eq _ _ (by omega)] at ha
      rw [LL.flatten] at ha
      rw [flatten_take_at st.buckets tb i htbB (by rw [← hbktdef]; omega)] at ha
      rcases List.mem_append.mp ha with hmem | hmem
      · rcases List.mem_flatten.mp hmem with ⟨b, hb, hab⟩
        rcases List.mem_iff_getElem.mp hb with ⟨j, hj, hbj⟩
        rw [List.length_take] at hj
        have hjlt : j < tb := by omega
        have hbeq : b = st.buckets.getD j [] := by
          rw [← hbj, List.getD_eq_getElem _ _ (by omega)]
          exact (List.getElem_take ..)
        have hsb := sorted_bucket_of_dropLast j (by omega)
          (by rw [← hsentdef]; exact hsentne) hsorted
        have hglb : (st.buckets.getD j []).getLast? =
            some ((st.buckets.getD j []).getLastD dfl) :=
          getLast?_eq_getLastD _ _ (hallne j (by omega))
        have hle := sorted_le_getLast hsb (hbeq ▸ hab) hglb
        have hback := hprev j (by omega)
        simp only [intLt, decide_eq_false_iff_not] at hback
        omega
      · rcases mem_take_getD 0 hmem with ⟨idx, hidxi, hidxlen, hval⟩
        have hq := takeWhile_getD_true (fun e => !intLt n e) bkt 0 idx (by omega)
        rw [hval] at hq
        simp only [intLt, Bool.not_eq_true', decide_eq_false_iff_not] at hq
        omega
    · intro a ha
      have hq := takeWhile_getD_false (fun e => !intLt n e) bkt 0 (by omega)
      have hval : ((LL.flatten st).dropLast).getD
          (lensum (st.buckets.take tb) + i) 0 = bkt.getD i 0 := by
        rw [dropLast_getD_eq _ _ _ (by omega)]
        rw [hbktdef]
        exact flatten_getD_at st.buckets tb i 0 htbB (by rw [← hbktdef]; omega)
      refine sorted_drop_ge hsorted hKlt ?_ a ha
      rw [hval, hi2]
      rw [← hRdef] at hq
      simp only [intLt, Bool.not_eq_false', decide_eq_true_eq] at hq
      omega

/-- Emplacing into bucket `tb` at offset `i` inserts into the flattened
contents at the corresponding global position. -/
theorem flatten_set_insAt {α : Type} (bk : List (List α)) (tb i : Nat) (n : α)
    (htb : tb < bk.length) (hi : i ≤ (bk.getD tb []).length) :
    (bk.set tb (insAt (bk.getD tb []) i n)).flatten =
      insAt bk.flatten (lensum (bk.take tb) + i) n := by
  have hK : lensum (bk.take tb) + i ≤ bk.flatten.length := by
    have h1 := lensum_take_add_getD_le bk tb tb (le_refl tb) htb
    rw [← lensum_eq_length_flatten]
    omega
  rw [flatten_set _ _ _ htb, insAt_eq_take_drop _ _ _ hi,
    insAt_eq_take_drop _ _ _ hK, flatten_take_at _ _ _ htb hi,
    flatten_drop_at _ _ _ htb hi]
  simp only [List.append_assoc, List.cons_append]

theorem insAt_append_last {α : Type} (S : List α) (c : α) (K : Nat) (x : α)
    (hK : K ≤ S.length) :
    insAt (S ++ [c]) K x = insAt S K x ++ [c] := by
  rw [insAt_eq_take_drop _ _ _ (by rw [List.length_append]; omega),
    insAt_eq_take_drop _ _ _ hK,
    List.take_append_of_le_length hK, List.drop_append_of_le_length hK]
  simp [List.append_assoc]

/-- `insert` preserves the list-engine representation invariant and adds one
copy of the key to the stored contents (density at least 2). -/
theorem ll_insert_inv (st : LL.St Int) (n : Int) (hd : 2 ≤ st.density)
    (hInv : LLInv st) :
    LLInv (LL.insert intLt 0 st n).1 ∧
    List.Perm ((LL.flatten (LL.insert intLt 0 st n).1).dropLast)
      (n :: (LL.flatten st).dropLast) := by
  obtain ⟨hne, hallne, hsorted, hsent, hlow, hhigh, hsz⟩ := hInv
  obtain ⟨htb, hi, hKle, htake, hdrop⟩ := ll_upperBound_char 0 st n hne hallne hsorted
  set tb := (LL.upperBound intLt 0 st n).1 with htbdef
  set i := (LL.upperBound intLt 0 st n).2 with hidef
  set bk1 := st.buckets.set tb (insAt (st.buckets.getD tb []) i n) with hbk1def
  have hres : (LL.insert intLt 0 st n).1 =
      ⟨(LL.balance st.density bk1 tb (some i)).1, st.sz + 1, st.density⟩ := by
    rw [LL.insert]
  have hFne : LL.flatten st ≠ [] := by
    intro hcon
    rw [hcon] at hsent
    simp at hsent
  have hFsplit : (LL.flatten st).dropLast ++ [LL.svInt] = LL.flatten st := by
    have h1 := List.dropLast_append_getLast hFne
    have h2 := List.getLast?_eq_getLast (LL.flatten st) hFne
    rw [hsent] at h2
    rw [← Option.some.inj h2] at h1
    exact h1
  have hSlen : ((LL.flatten st).dropLast).length = (LL.flatten st).length - 1 :=
    List.length_dropLast _
  have hFlen1 : 1 ≤ (LL.flatten st).length := by
    cases hb : LL.flatten st with
    | nil => exact absurd hb hFne
    | cons c r => simp [hb]
  -- the flattened contents after emplacement
  have hfl1 : bk1.flatten = insAt ((LL.flatten st).dropLast)
      (lensum (st.buckets.take tb) + i) n ++ [LL.svInt] := by
    rw [hbk1def, flatten_set_insAt st.buckets tb i n htb (le_of_lt hi)]
    have : (st.buckets.flatten : List Int) = LL.flatten st := rfl
    rw [this, ← hFsplit, insAt_append_last _ _ _ _ hKle, List.dropLast_concat]
  -- shape hypotheses for balance
  have hlen1 : bk1.length = st.buckets.length := by
    rw [hbk1def]
    simp
  have htb1 : tb < bk1.length := by omega
  have hne1 : ∀ j, j + 1 < bk1.length → j ≠ tb → bk1.getD j [] ≠ [] := by
    intro j hj hjtb
    rw [hbk1def, getD_set_other _ _ _ _ _ hjtb]
    exact hallne j (by omega)
  have hlow1 : ∀ j, j + 1 < bk1.length → j ≠ tb →
      st.density / 2 ≤ (bk1.getD j []).length := by
    intro j hj hjtb
    rw [hbk1def, getD_set_other _ _ _ _ _ hjtb]
    exact hlow j (by omega)
  have hhigh1 : ∀ j, j < bk1.length → j ≠ tb →
      (bk1.getD j []).length ≤ st.density * 2 := by
    intro j hj hjtb
    rw [hbk1def, getD_set_other _ _ _ _ _ hjtb]
    exact hhigh j (by omega)
  have htbh1 : (bk1.getD tb []).length ≤ st.density * 2 + 1 := by
    rw [hbk1def, getD_set_self _ _ _ _ htb, insAt_length]
    have := hhigh tb htb
    omega
  have hlastne1 : bk1.getD (bk1.length - 1) [] ≠ [] := by
    rw [hlen1]
    by_cases hlast : st.buckets.length - 1 = tb
    · rw [hbk1def, hlast, getD_set_self _ _ _ _ htb]
      intro hcon
      have hc := congrArg List.length hcon
      rw [insAt_length] at hc
      simp at hc
    · rw [hbk1def, getD_set_other _ _ _ _ _ hlast]
      exact hallne (st.buckets.length - 1) (by omega)
  obtain ⟨hr_ne, hr_nem, hr_low, hr_high⟩ :=
    balance_shape st.density hd bk1 tb (some i) htb1 hne1 hlow1 hhigh1 htbh1
  have hr_last := balance_last_ne st.density bk1 tb (some i) htb1 hne1 hlastne1
  have hrfl : (LL.balance st.density bk1 tb (some i)).1.flatten =
      insAt ((LL.flatten st).dropLast) (lensum (st.buckets.take tb) + i) n ++
        [LL.svInt] := by
    rw [ll_balance_fst_eq_vv, balance_flatten, hfl1]
  rw [hres]
  have hfl2 : LL.flatten (⟨(LL.balance st.density bk1 tb (some i)).1,
      st.sz + 1, st.density⟩ : LL.St Int) =
      insAt ((LL.flatten st).dropLast) (lensum (st.buckets.take tb) + i) n ++
        [LL.svInt] := hrfl
  refine ⟨⟨?_, ?_, ?_, ?_, ?_, ?_, ?_⟩, ?_⟩
  · show (LL.balance st.density bk1 tb (some i)).1 ≠ []
    rw [ll_balance_fst_eq_vv]
    exact hr_ne
  · show ∀ j, j < (LL.balance st.density bk1 tb (some i)).1.length →
      (LL.balance st.density bk1 tb (some i)).1.getD j [] ≠ []
    intro j hj
    rw [ll_balance_fst_eq_vv] at hj ⊢
    by_cases hjl : j + 1 < (VV.balance st.density bk1 tb (some i)).1.length
    · exact hr_nem j hjl
    · have : j = (VV.balance st.density bk1 tb (some i)).1.length - 1 := by omega
      rw [this]
      exact hr_last
  · show List.Sorted (fun a b : Int => a ≤ b)
      ((LL.flatten (⟨(LL.balance st.density bk1 tb (some i)).1,
        st.sz + 1, st.density⟩ : LL.St Int)).dropLast)
    rw [hfl2, List.dropLast_concat]
    exact sorted_insAt _ _ _ hsorted hKle htake hdrop
  · show (LL.flatten (⟨(LL.balance st.density bk1 tb (some i)).1,
        st.sz + 1, st.density⟩ : LL.St Int)).getLast? = some LL.svInt
    rw [hfl2]
    exact List.getLast?_concat _
  · show ∀ j, j + 1 < (LL.balance st.density bk1 tb (some i)).1.length →
      st.density / 2 ≤ ((LL.balance st.density bk1 tb (some i)).1.getD j []).length
    intro j hj
    rw [ll_balance_fst_eq_vv] at hj ⊢
    exact hr_low j hj
  · show ∀ j, j < (LL.balance st.density bk1 tb (some i)).1.length →
      ((LL.balance st.density bk1 tb (some i)).1.getD j []).length ≤ st.density * 2
    intro j hj
    rw [ll_balance_fst_eq_vv] at hj ⊢
    exact hr_high j hj
  · show st.sz + 1 = (LL.flatten (⟨(LL.balance st.density bk1 tb (some i)).1,
        st.sz + 1, st.density⟩ : LL.St Int)).length - 1
    rw [hfl2, List.length_append, insAt_length]
    rw [hSlen] at hKle
    simp only [List.length_singleton]
    omega
  · rw [hfl2, List.dropLast_concat]
    exact insAt_perm _ _ _

/-- Erasing inside bucket `tb` removes the corresponding global position of
the flattened contents. -/
theorem flatten_set_eraseIdx {α : Type} (bk : List (List α)) (tb i : Nat)
    (htb : tb < bk.length) (hi : i < (bk.getD tb []).length) :
    (bk.set tb ((bk.getD tb []).eraseIdx i)).flatten =
      bk.flatten.eraseIdx (lensum (bk.take tb) + i) := by
  rw [flatten_set _ _ _ htb, List.eraseIdx_eq_take_drop_succ,
    List.eraseIdx_eq_take_drop_succ, flatten_take_at _ _ _ htb (le_of_lt hi)]
  have hK1 : lensum (bk.take tb) + i + 1 = lensum (bk.take tb) + (i + 1) := by
    omega
  rw [hK1, flatten_drop_at _ _ _ htb (by omega)]
  simp only [List.append_assoc]

theorem eraseIdx_append_last {α : Type} (S : List α) (c : α) (K : Nat)
    (hK : K < S.length) :
    (S ++ [c]).eraseIdx K = S.eraseIdx K ++ [c] := by
  rw [List.eraseIdx_eq_take_drop_succ, List.eraseIdx_eq_take_drop_succ,
    List.take_append_of_le_length (by omega), List.drop_append_of_le_length (by omega)]
  simp [List.append_assoc]

/-- `find` on the list engine either returns the end position or a valid
non-sentinel element position. -/
theorem ll_find_valid (beq : Int → Int → Bool) (dfl : Int) (st : LL.St Int)
    (n : Int) (hne : st.buckets ≠ [])
    (hallne : ∀ j, j < st.buckets.length → st.buckets.getD j [] ≠ []) :
    LL.find intLt beq dfl st n = LL.endPos st ∨
    ((LL.find intLt beq dfl st n).1 < st.buckets.length ∧
     (LL.find intLt beq dfl st n).2 <
       (st.buckets.getD (LL.find intLt beq dfl st n).1 []).length ∧
     ¬((LL.find intLt beq dfl st n).1 = st.buckets.length - 1 ∧
       (LL.find intLt beq dfl st n).2 =
         (st.buckets.getD (st.buckets.length - 1) []).length - 1)) := by
  have hlpos : 0 < st.buckets.length := by
    cases hbk : st.buckets with
    | nil => exact absurd hbk hne
    | cons c r => simp [hbk]
  set sentB := st.buckets.length - 1 with hsentdef
  set tb := LL.pickBucketLB intLt dfl st n with htbdef
  set bkt := st.buckets.getD tb [] with hbktdef
  set stop : Option Nat :=
    if tb = sentB then some (bkt.length - 1) else none with hstopdef
  set i0 := LL.scanIn (fun e => intLt e n) bkt stop with hidef
  have hvalid : tb < st.buckets.length ∧ i0 < bkt.length := by
    rcases pickBucketLB_spec intLt dfl st n hne with ⟨htbS, hall⟩ | ⟨htblt, htbfalse, hprev⟩
    · have htbS2 : tb = sentB := by
        rw [htbdef, hsentdef]
        exact htbS
      have hbktne : bkt ≠ [] := by
        rw [hbktdef]
        exact hallne tb (by omega)
      have hbktlen : 0 < bkt.length := List.length_pos.mpr hbktne
      have hstop2 : stop = some (bkt.length - 1) := by
        rw [hstopdef, if_pos htbS2]
      have hi2 : i0 = min ((bkt.takeWhile (fun e => intLt e n)).length)
          (bkt.length - 1) := by
        rw [hidef, hstop2, scanIn_some_eq]
      exact ⟨by omega, by omega⟩
    · rw [← htbdef] at htblt htbfalse hprev
      have htbB : tb < st.buckets.length := by omega
      have hbktne : bkt ≠ [] := by
        rw [hbktdef]
        exact hallne tb htbB
      have hbktlen : 0 < bkt.length := List.length_pos.mpr hbktne
      have htbS2 : ¬ tb = sentB := by omega
      have hstop2 : stop = none := by
        rw [hstopdef, if_neg htbS2]
      have hi2 : i0 = (bkt.takeWhile (fun e => intLt e n)).length := by
        rw [hidef, hstop2, scanIn_none_eq_takeWhile]
      rw [← hbktdef] at htbfalse
      have hlastidx : bkt.getLastD dfl = bkt.getD (bkt.length - 1) 0 :=
        (getLastD_eq_getD _ _ hbktne).trans (getD_irrel _ _ _ _ (by omega))
      have hRlt : (bkt.takeWhile (fun e => intLt e n)).length < bkt.length := by
        by_contra hcon
        have hq := takeWhile_getD_true (fun e => intLt e n) bkt 0
          (bkt.length - 1) (by omega)
        rw [← hlastidx] at hq
        simp only [] at hq
        rw [htbfalse] at hq
        simp at hq
      exact ⟨htbB, by omega⟩
  obtain ⟨htbB, hi0⟩ := hvalid
  have hpeq : (if i0 = bkt.length then (tb + 1, 0) else (tb, i0)) = (tb, i0) :=
    if_neg (by omega)
  rw [LL.find, LL.findWithDistance]
  rw [hpeq]
  dsimp only
  split
  · left
    rfl
  · rename_i hcond
    push_neg at hcond
    right
    refine ⟨htbB, hi0, ?_⟩
    intro hcon
    obtain ⟨h1, h2⟩ := hcon
    exact hcond.1 h1 h2

/-- `erase` preserves the list-engine representation invariant (density at
least 2). -/
theorem ll_erase_inv (st : LL.St Int) (n : Int) (hd : 2 ≤ st.density)
    (hInv : LLInv st) : LLInv (LL.erase intLt intEq 0 st n).1 := by
  obtain ⟨hne, hallne, hsorted, hsent, hlow, hhigh, hsz⟩ := hInv
  rcases ll_find_valid intEq 0 st n hne hallne with hend | ⟨htbB, hi0, hnsent⟩
  · have hres : (LL.erase intLt intEq 0 st n).1 = st := by
      rw [LL.erase, hend, if_pos rfl]
    rw [hres]
    exact ⟨hne, hallne, hsorted, hsent, hlow, hhigh, hsz⟩
  · set p := LL.find intLt intEq 0 st n with hpdef
    have hpne : ¬ p = LL.endPos st := by
      intro hcon
      rw [LL.endPos] at hcon
      have h1 : p.1 = st.buckets.length - 1 := by rw [hcon]
      have h2 : p.2 = (st.buckets.getLastD []).length - 1 := by rw [hcon]
      refine hnsent ⟨h1, ?_⟩
      rw [h2, getLastD_eq_getD _ _ hne]
    have hres : (LL.erase intLt intEq 0 st n).1 =
        ⟨(LL.balance st.density
            (st.buckets.set p.1 ((st.buckets.getD p.1 []).eraseIdx p.2)) p.1
            none).1, st.sz - 1, st.density⟩ := by
      rw [LL.erase, ← hpdef, if_neg hpne]
    have hFne : LL.flatten st ≠ [] := by
      intro hcon
      rw [hcon] at hsent
      simp at hsent
    have hFsplit : (LL.flatten st).dropLast ++ [LL.svInt] = LL.flatten st := by
      have h1 := List.dropLast_append_getLast hFne
      have h2 := List.getLast?_eq_getLast (LL.flatten st) hFne
      rw [hsent] at h2
      rw [← Option.some.inj h2] at h1
      exact h1
    have hSlen : ((LL.flatten st).dropLast).length = lensum st.buckets - 1 := by
      rw [List.length_dropLast]
      have : (LL.flatten st).length = lensum st.buckets :=
        (lensum_eq_length_flatten _).symm
      omega
    have hlpos : 0 < st.buckets.length := by
      cases hbk : st.buckets with
      | nil => exact absurd hbk hne
      | cons c r => simp [hbk]
    have hKltS : lensum (st.buckets.take p.1) + p.2 <
        ((LL.flatten st).dropLast).length := by
      have htot := lensum_take_succ st.buckets (st.buckets.length - 1) (by omega)
      have hto2 : st.buckets.length - 1 + 1 = st.buckets.length := by omega
      rw [hto2, List.take_length] at htot
      by_cases hts : p.1 = st.buckets.length - 1
      · have hi2 : p.2 < (st.buckets.getD (st.buckets.length - 1) []).length - 1 := by
          rcases Nat.lt_or_ge p.2
            ((st.buckets.getD (st.buckets.length - 1) []).length - 1) with h | h
          · exact h
          · exfalso
            apply hnsent
            refine ⟨hts, ?_⟩
            rw [hts] at hi0
            omega
        rw [hts, hSlen]
        omega
      · have hrem := lensum_take_add_getD_le st.buckets (p.1 + 1)
          (st.buckets.length - 1) (by omega) (by omega)
        have hsucc := lensum_take_succ st.buckets p.1 htbB
        have hsentlen : 1 ≤ (st.buckets.getD (st.buckets.length - 1) []).length :=
          List.length_pos.mpr (hallne _ (by omega))
        rw [hSlen]
        omega
    set bk1 := st.buckets.set p.1 ((st.buckets.getD p.1 []).eraseIdx p.2)
      with hbk1def
    have hfl1 : bk1.flatten =
        ((LL.flatten st).dropLast).eraseIdx (lensum (st.buckets.take p.1) + p.2)
          ++ [LL.svInt] := by
      rw [hbk1def, flatten_set_eraseIdx st.buckets p.1 p.2 htbB hi0]
      have hFs : (st.buckets.flatten : List Int) = LL.flatten st := rfl
      rw [hFs, ← hFsplit, eraseIdx_append_last _ _ _ hKltS, List.dropLast_concat]
    have hlen1 : bk1.length = st.buckets.length := by
      rw [hbk1def]
      simp
    have htb1 : p.1 < bk1.length := by omega
    have hne1 : ∀ j, j + 1 < bk1.length → j ≠ p.1 → bk1.getD j [] ≠ [] := by
      intro j hj hjtb
      rw [hbk1def, getD_set_other _ _ _ _ _ hjtb]
      exact hallne j (by omega)
    have hlow1 : ∀ j, j + 1 < bk1.length → j ≠ p.1 →
        st.density / 2 ≤ (bk1.getD j []).length := by
      intro j hj hjtb
      rw [hbk1def, getD_set_other _ _ _ _ _ hjtb]
      exact hlow j (by omega)
    have hhigh1 : ∀ j, j < bk1.length → j ≠ p.1 →
        (bk1.getD j []).length ≤ st.density * 2 := by
      intro j hj hjtb
      rw [hbk1def, getD_set_other _ _ _ _ _ hjtb]
      exact hhigh j (by omega)
    have htbh1 : (bk1.getD p.1 []).length ≤ st.density * 2 + 1 := by
      rw [hbk1def, getD_set_self _ _ _ _ htbB, List.length_eraseIdx]
      have := hhigh p.1 htbB
      split
      · omega
      · omega
    have hlastne1 : bk1.getD (bk1.length - 1) [] ≠ [] := by
      rw [hlen1]
      by_cases hlast : st.buckets.length - 1 = p.1
      · rw [hbk1def, hlast, getD_set_self _ _ _ _ htbB]
        intro hcon
        have hc := congrArg List.length hcon
        rw [List.length_eraseIdx, if_pos hi0] at hc
        simp only [List.length_nil] at hc
        apply hnsent
        refine ⟨hlast.symm, ?_⟩
        rw [hlast]
        omega
      · rw [hbk1def, getD_set_other _ _ _ _ _ hlast]
        exact hallne _ (by omega)
    obtain ⟨hr_ne, hr_nem, hr_low, hr_high⟩ :=
      balance_shape st.density hd bk1 p.1 none htb1 hne1 hlow1 hhigh1 htbh1
    have hr_last := balance_last_ne st.density bk1 p.1 none htb1 hne1 hlastne1
    have hrfl : (LL.balance st.density bk1 p.1 none).1.flatten =
        ((LL.flatten st).dropLast).eraseIdx (lensum (st.buckets.take p.1) + p.2)
          ++ [LL.svInt] := by
      rw [ll_balance_fst_eq_vv, balance_flatten, hfl1]
    rw [hres]
    have hfl2 : LL.flatten (⟨(LL.balance st.density bk1 p.1 none).1,
        st.sz - 1, st.density⟩ : LL.St Int) =
        ((LL.flatten st).dropLast).eraseIdx (lensum (st.buckets.take p.1) + p.2)
          ++ [LL.svInt] := hrfl
    refine ⟨?_, ?_, ?_, ?_, ?_, ?_, ?_⟩
    · show (LL.balance st.density bk1 p.1 none).1 ≠ []
      rw [ll_balance_fst_eq_vv]
      exact hr_ne
    · show ∀ j, j < (LL.balance st.density bk1 p.1 none).1.length →
        (LL.balance st.density bk1 p.1 none).1.getD j [] ≠ []
      intro j hj
      rw [ll_balance_fst_eq_vv] at hj ⊢
      by_cases hjl : j + 1 < (VV.balance st.density bk1 p.1 none).1.length
      · exact hr_nem j hjl
      · have : j = (VV.balance st.density bk1 p.1 none).1.length - 1 := by omega
        rw [this]
        exact hr_last
    · show List.Sorted (fun a b : Int => a ≤ b)
        ((LL.flatten (⟨(LL.balance st.density bk1 p.1 none).1,
          st.sz - 1, st.density⟩ : LL.St Int)).dropLast)
      rw [hfl2, List.dropLast_concat]
      exact sorted_eraseIdx _ hsorted
    · show (LL.flatten (⟨(LL.balance st.density bk1 p.1 none).1,
          st.sz - 1, st.density⟩ : LL.St Int)).getLast? = some LL.svInt
      rw [hfl2]
      exact List.getLast?_concat _
    · show ∀ j, j + 1 < (LL.balance st.density bk1 p.1 none).1.length →
        st.density / 2 ≤ ((LL.balance st.density bk1 p.1 none).1.getD j []).length
      intro j hj
      rw [ll_balance_fst_eq_vv] at hj ⊢
      exact hr_low j hj
    · show ∀ j, j < (LL.balance st.density bk1 p.1 none).1.length →
        ((LL.balance st.density bk1 p.1 none).1.getD j []).length ≤ st.density * 2
      intro j hj
      rw [ll_balance_fst_eq_vv] at hj ⊢
      exact hr_high j hj
    · show st.sz - 1 = (LL.flatten (⟨(LL.balance st.density bk1 p.1 none).1,
          st.sz - 1, st.density⟩ : LL.St Int)).length - 1
      rw [hfl2, List.length_append, List.length_eraseIdx, if_pos hKltS]
      simp only [List.length_singleton]
      have hFlen : (LL.flatten st).length = lensum st.buckets :=
        (lensum_eq_length_flatten _).symm
      omega

theorem ll_init_inv (d : Nat) (hd : 1 ≤ d) : LLInv (LL.initSt LL.svInt d) := by
  refine ⟨by simp [LL.initSt], ?_, ?_, ?_, ?_, ?_, ?_⟩
  · intro j hj
    simp only [LL.initSt, List.length_singleton] at hj
    have : j = 0 := by omega
    subst this
    simp [LL.initSt]
  · simp [LL.flatten, LL.initSt]
  · simp [LL.flatten, LL.initSt]
  · intro j hj
    simp [LL.initSt] at hj
  · intro j hj
    simp only [LL.initSt, List.length_singleton] at hj
    have : j = 0 := by omega
    subst this
    simp only [LL.initSt]
    simp
    omega
  · simp [LL.flatten, LL.initSt]

/-- Every reachable state of the list engine (density at least 2) satisfies
the representation invariant and keeps its configured density. -/
theorem ll_reach_inv (d : Nat) (hd : 2 ≤ d) (st : LL.St Int)
    (h : LLReach d st) : LLInv st ∧ st.density = d := by
  induction h with
  | init => exact ⟨ll_init_inv d (by omega), rfl⟩
  | ins st0 n _ ih =>
    have hd0 : 2 ≤ st0.density := by omega
    refine ⟨(ll_insert_inv st0 n hd0 ih.1).1, ?_⟩
    have : (LL.insert intLt 0 st0 n).1.density = st0.density := by
      rw [LL.insert]
    omega
  | ers st0 n _ ih =>
    have hd0 : 2 ≤ st0.density := by omega
    refine ⟨ll_erase_inv st0 n hd0 ih.1, ?_⟩
    have : (LL.erase intLt intEq 0 st0 n).1.density = st0.density := by
      rw [LL.erase]
      split
      · rfl
      · rfl
    omega

/-- Folded insertion into the list engine: invariant, density and stored
contents after inserting a whole sequence. -/
theorem ll_fold_inv (d : Nat) (hd : 2 ≤ d) (xs : List Int) :
    ∀ st : LL.St Int, LLInv st → st.density = d →
    LLInv (xs.foldl (fun s x => (LL.insert intLt 0 s x).1) st) ∧
    (xs.foldl (fun s x => (LL.insert intLt 0 s x).1) st).density = d ∧
    List.Perm
      ((LL.flatten (xs.foldl (fun s x => (LL.insert intLt 0 s x).1) st)).dropLast)
      (xs ++ (LL.flatten st).dropLast) := by
  induction xs with
  | nil =>
    intro st h1 h2
    exact ⟨h1, h2, by simp⟩
  | cons x t ih =>
    intro st h1 h2
    have hd0 : 2 ≤ st.density := by omega
    have hins := ll_insert_inv st x hd0 h1
    have hdens : (LL.insert intLt 0 st x).1.density = st.density := by
      rw [LL.insert]
    have hrec := ih (LL.insert intLt 0 st x).1 hins.1 (by omega)
    refine ⟨hrec.1, hrec.2.1, ?_⟩
    simp only [List.foldl_cons]
    refine (hrec.2.2).trans ?_
    exact ((hins.2).append_left t).trans List.perm_middle

/-- The list engine built by an insert-only sequence stores exactly the
stable sort of the sequence (before the sentinel). -/
theorem ll_stored_eq_stableSort (d : Nat) (hd : 2 ≤ d) (xs : List Int) :
    (LL.flatten (llOf xs d)).dropLast = stableSort xs := by
  have h := ll_fold_inv d hd xs (LL.initSt LL.svInt d) (ll_init_inv d (by omega)) rfl
  apply eq_stableSort_of_perm_of_sorted
  · have hp := h.2.2
    simpa [LL.flatten, LL.initSt] using hp
  · exact h.1.2.2.1

/-- The forward walk from a valid element position yields exactly the stored
suffix from that position (the walk stops at the sentinel). -/
theorem ll_traverseGo_eq (dfl : Int) (st : LL.St Int)
    (hne : st.buckets ≠ [])
    (hallne : ∀ j, j < st.buckets.length → st.buckets.getD j [] ≠ []) :
    ∀ fuel tb i, tb < st.buckets.length → i < (st.buckets.getD tb []).length →
    ((LL.flatten st).dropLast).length - (lensum (st.buckets.take tb) + i) < fuel →
    LL.traverseGo dfl st fuel (tb, i) =
      ((LL.flatten st).dropLast).drop (lensum (st.buckets.take tb) + i) := by
  have hlpos : 0 < st.buckets.length := by
    cases hbk : st.buckets with
    | nil => exact absurd hbk hne
    | cons c r => simp [hbk]
  have hFlen : (LL.flatten st).length = lensum st.buckets :=
    (lensum_eq_length_flatten _).symm
  have hSlen : ((LL.flatten st).dropLast).length = lensum st.buckets - 1 := by
    rw [List.length_dropLast]
    omega
  have htot : lensum (st.buckets.take (st.buckets.length - 1)) +
      (st.buckets.getD (st.buckets.length - 1) []).length = lensum st.buckets := by
    have h1 := lensum_take_succ st.buckets (st.buckets.length - 1) (by omega)
    have h2 : st.buckets.length - 1 + 1 = st.buckets.length := by omega
    rw [h2, List.take_length] at h1
    omega
  intro fuel
  induction fuel with
  | zero =>
    intro tb i _ _ hf
    omega
  | succ fuel ih =>
    intro tb i htb hi hf
    rw [LL.traverseGo]
    by_cases hend : ((tb, i) : Nat × Nat) = LL.endPos st
    · rw [if_pos hend]
      rw [LL.endPos] at hend
      have h1 : tb = st.buckets.length - 1 := congrArg Prod.fst hend
      have h2 : i = (st.buckets.getLastD []).length - 1 := congrArg Prod.snd hend
      rw [getLastD_eq_getD _ _ hne] at h2
      have hKeq : lensum (st.buckets.take tb) + i =
          ((LL.flatten st).dropLast).length := by
        subst h1
        have hgl : 1 ≤ (st.buckets.getD (st.buckets.length - 1) []).length :=
          List.length_pos.mpr (hallne _ (by omega))
        omega
      rw [hKeq, List.drop_length]
    · rw [if_neg hend]
      have hKlt : lensum (st.buckets.take tb) + i <
          ((LL.flatten st).dropLast).length := by
        by_cases h2 : tb + 1 < st.buckets.length
        · have h3 := lensum_take_add_getD_le st.buckets (tb + 1) (tb + 1)
            (le_refl _) h2
          have hsucc := lensum_take_succ st.buckets tb htb
          have h4 : 1 ≤ (st.buckets.getD (tb + 1) []).length :=
            List.length_pos.mpr (hallne _ h2)
          omega
        · have htb2 : tb = st.buckets.length - 1 := by omega
          have hilt : i < (st.buckets.getD tb []).length - 1 := by
            rcases Nat.lt_or_ge i ((st.buckets.getD tb []).length - 1) with h | h
            · exact h
            · exfalso
              apply hend
              have hieq : i = (st.buckets.getD tb []).length - 1 := by omega
              have hgl : (st.buckets.getLastD []).length - 1 = i := by
                rw [getLastD_eq_getD _ _ hne, ← htb2]
                omega
              rw [LL.endPos, ← hgl, htb2]
          subst htb2
          omega
      have hval : ((LL.flatten st).dropLast).getD
          (lensum (st.buckets.take tb) + i) dfl =
          (st.buckets.getD tb []).getD i dfl := by
        rw [dropLast_getD_eq _ _ _ (by omega)]
        exact flatten_getD_at st.buckets tb i dfl htb hi
      have hdropS : ((LL.flatten st).dropLast).drop
          (lensum (st.buckets.take tb) + i) =
          ((LL.flatten st).dropLast).getD (lensum (st.buckets.take tb) + i) dfl ::
          ((LL.flatten st).dropLast).drop (lensum (st.buckets.take tb) + i + 1) := by
        rw [List.getD_eq_getElem _ _ hKlt]
        exact List.drop_eq_getElem_cons hKlt
      by_cases hroll : i + 1 = (st.buckets.getD tb []).length
      · have hnext : LL.nextPos st (tb, i) = (tb + 1, 0) := by
          rw [LL.nextPos]
          exact if_pos hroll
        have htb2 : tb + 1 < st.buckets.length := by
          by_contra h2
          apply hend
          have htb3 : tb = st.buckets.length - 1 := by omega
          have hgl : (st.buckets.getLastD []).length - 1 = i := by
            rw [getLastD_eq_getD _ _ hne, ← htb3]
            omega
          rw [LL.endPos, ← hgl, htb3]
        have hK1 : lensum (st.buckets.take (tb + 1)) + 0 =
            lensum (st.buckets.take tb) + i + 1 := by
          rw [lensum_take_succ st.buckets tb htb]
          omega
        rw [hnext, ih (tb + 1) 0 htb2 (List.length_pos.mpr (hallne _ htb2))
          (by rw [hK1]; omega)]
        rw [hK1, hdropS, hval]
      · have hnext : LL.nextPos st (tb, i) = (tb, i + 1) := by
          rw [LL.nextPos]
          exact if_neg hroll
        rw [hnext, ih tb (i + 1) htb (by omega) (by omega)]
        have hK1 : lensum (st.buckets.take tb) + (i + 1) =
            lensum (st.buckets.take tb) + i + 1 := by omega
        rw [hK1, hdropS, hval]

/-- The full forward traversal of the list engine yields exactly the stored
contents, sentinel excluded. -/
theorem ll_traverse_eq (dfl : Int) (st : LL.St Int)
    (hne : st.buckets ≠ [])
    (hallne : ∀ j, j < st.buckets.length → st.buckets.getD j [] ≠ []) :
    LL.traverse dfl st = (LL.flatten st).dropLast := by
  have hlpos : 0 < st.buckets.length := by
    cases hbk : st.buckets with
    | nil => exact absurd hbk hne
    | cons c r => simp [hbk]
  have h0 : 0 < (st.buckets.getD 0 []).length :=
    List.length_pos.mpr (hallne 0 hlpos)
  have hFlen : (LL.flatten st).length = lensum st.buckets :=
    (lensum_eq_length_flatten _).symm
  have hlen : ((LL.flatten st).dropLast).length ≤ lensum st.buckets := by
    rw [List.length_dropLast]
    omega
  have hsum : (st.buckets.map List.length).sum = lensum st.buckets := rfl
  have htk0 : lensum (st.buckets.take 0) = 0 := by
    simp [lensum]
  rw [LL.traverse, LL.beginPos]
  rw [ll_traverseGo_eq dfl st hne hallne _ 0 0 hlpos h0 (by omega)]
  rw [htk0]
  simp

theorem entries_upOne (t : RBT.T Int) (f : RBT.Frame Int) :
    entries (RBT.upOne t f) =
      match f.dir with
      | .left => entries t ++ [(f.v, f.copies, f.sent)] ++ entries f.other
      | .right => entries f.other ++ [(f.v, f.copies, f.sent)] ++ entries t := by
  cases hd : f.dir with
  | left => simp [RBT.upOne, hd, entries]
  | right => simp [RBT.upOne, hd, entries]

theorem entries_plug : ∀ (p : RBT.Path Int) (t : RBT.T Int),
    entries (RBT.plug t p) = entriesCtx p (entries t) := by
  intro p
  induction p with
  | nil => intro t; rfl
  | cons f ps ih =>
    intro t
    rw [RBT.plug, ih, entriesCtx, entries_upOne]

theorem entries_withColor (t : RBT.T Int) (c : Nat) :
    entries (RBT.withColor t c) = entries t := by
  cases t with
  | nil => rfl
  | node l v cp m c0 s r => rfl

theorem entries_leftRotate (t : RBT.T Int) :
    entries (RBT.leftRotate t) = entries t := by
  cases t with
  | nil => rfl
  | node a x cpx mx cx sx rr =>
    cases rr with
    | nil => rfl
    | node b y cpy my cy sy c =>
      simp [RBT.leftRotate, entries, List.append_assoc]

theorem entries_rightRotate (t : RBT.T Int) :
    entries (RBT.rightRotate t) = entries t := by
  cases t with
  | nil => rfl
  | node ll x cpx mx cx sx c =>
    cases ll with
    | nil => rfl
    | node a y cpy my cy sy b =>
      simp [RBT.rightRotate, entries, List.append_assoc]

theorem entries_plugRootBlack (t : RBT.T Int) (p : RBT.Path Int) :
    entries (RBT.plugRootBlack t p) = entriesCtx p (entries t) := by
  rw [RBT.plugRootBlack, entries_withColor, entries_plug]

/-- Unfolding equations for `balanceDoubleRed` (its recursion matches on
projections, so they are stated manually). -/
theorem bdr_nil (ct : RBT.T Int) :
    RBT.bdr ct [] =
      (if RBT.colorOf ct = 1 then RBT.plug ct [] else RBT.plugRootBlack ct []) :=
  rfl

theorem bdr_one (ct : RBT.T Int) (f1 : RBT.Frame Int) :
    RBT.bdr ct [f1] =
      (if RBT.colorOf ct = 1 then RBT.plug ct [f1]
       else if f1.c = 1 then RBT.plugRootBlack ct [f1]
       else RBT.plugRootBlack ct [f1]) :=
  rfl

theorem bdr_cons (ct : RBT.T Int) (f1 f2 : RBT.Frame Int)
    (rest : RBT.Path Int) :
    RBT.bdr ct (f1 :: f2 :: rest) =
      (if RBT.colorOf ct = 1 then RBT.plug ct (f1 :: f2 :: rest)
       else if f1.c = 1 then RBT.plugRootBlack ct (f1 :: f2 :: rest)
       else if f2.dir = RBT.Dir.left then
         if f1.dir = RBT.Dir.left then
           let par := RBT.upOne (RBT.withColor ct 1) f1
           RBT.bdr (RBT.rightRotate (RBT.upOne par f2)) rest
         else
           match ct with
           | .nil => RBT.plugRootBlack ct (f1 :: f2 :: rest)
           | .node cl vC cpC _ cC sC cr =>
             let pl := f1.other
             let gu := f2.other
             let parMass := f1.copies + RBT.massOf pl + RBT.massOf cl
             let grandMass := f2.copies + RBT.massOf cr + RBT.massOf gu
             let par2 : RBT.T Int := .node pl f1.v f1.copies parMass 1 f1.sent cl
             let grand2 : RBT.T Int :=
               .node cr f2.v f2.copies grandMass f2.c f2.sent gu
             RBT.bdr (.node par2 vC cpC (cpC + grandMass + parMass) cC sC grand2)
               rest
       else
         if f1.dir = RBT.Dir.right then
           let par := RBT.upOne (RBT.withColor ct 1) f1
           RBT.bdr (RBT.leftRotate (RBT.upOne par f2)) rest
         else
           match ct with
           | .nil => RBT.plugRootBlack ct (f1 :: f2 :: rest)
           | .node cl vC cpC _ cC sC cr =>
             let pr := f1.other
             let gu := f2.other
             let parMass := f1.copies + RBT.massOf cr + RBT.massOf pr
             let grandMass := f2.copies + RBT.massOf gu + RBT.massOf cl
             let par2 : RBT.T Int := .node cr f1.v f1.copies parMass 1 f1.sent pr
             let grand2 : RBT.T Int :=
               .node gu f2.v f2.copies grandMass f2.c f2.sent cl
             RBT.bdr (.node grand2 vC cpC (cpC + grandMass + parMass) cC sC par2)
               rest) := by
  rw [RBT.bdr.eq_def]
  dsimp only
  cases ct <;> rfl

/-- `balanceDoubleRed` only restructures: the in-order entries of the rebuilt
tree are those of the original position. -/
theorem bdr_entries : ∀ (k : Nat) (path : RBT.Path Int), path.length ≤ k →
    ∀ ct : RBT.T Int, entries (RBT.bdr ct path) = entriesCtx path (entries ct) := by
  intro k
  induction k with
  | zero =>
    intro path hlen ct
    have hpe : path = [] := List.length_eq_zero.mp (by omega)
    subst hpe
    rw [bdr_nil]
    split
    · rw [entries_plug]
    · rw [entries_plugRootBlack]
  | succ k ih =>
    intro path hlen ct
    match path with
    | [] =>
      rw [bdr_nil]
      split
      · rw [entries_plug]
      · rw [entries_plugRootBlack]
    | [f1] =>
      rw [bdr_one]
      split
      · rw [entries_plug]
      · split
        · rw [entries_plugRootBlack]
        · rw [entries_plugRootBlack]
    | f1 :: f2 :: rest =>
      have hrest : rest.length ≤ k := by
        simp only [List.length_cons] at hlen
        omega
      rw [bdr_cons]
      split
      · rw [entries_plug]
      · split
        · rw [entries_plugRootBlack]
        · split
          · -- grandparent hole on the left
            split
            · -- straight line left-left
              rename_i hd2 hd1
              dsimp only
              rw [ih rest hrest, entries_rightRotate, entries_upOne, entries_upOne,
                entries_withColor]
              simp only [entriesCtx, hd2, hd1]
            · -- bent left-right
              rename_i hd2 hd1
              have hd1R : f1.dir = RBT.Dir.right := by
                cases hdd : f1.dir with
                | left => exact absurd hdd hd1
                | right => rfl
              cases ct with
              | nil => rw [entries_plugRootBlack]
              | node cl vC cpC mC cC sC cr =>
                dsimp only
                rw [ih rest hrest]
                simp only [entriesCtx, entries, hd2, hd1R]
                simp [List.append_assoc]
          · -- grandparent hole on the right
            rename_i hd2
            have hd2R : f2.dir = RBT.Dir.right := by
              cases hdd : f2.dir with
              | left => exact absurd hdd hd2
              | right => rfl
            split
            · -- straight line right-right
              rename_i hd1
              dsimp only
              rw [ih rest hrest, entries_leftRotate, entries_upOne, entries_upOne,
                entries_withColor]
              simp only [entriesCtx, hd2R, hd1]
            · -- bent right-left
              rename_i hd1
              have hd1L : f1.dir = RBT.Dir.left := by
                cases hdd : f1.dir with
                | left => rfl
                | right => exact absurd hdd hd1
              cases ct with
              | nil => rw [entries_plugRootBlack]
              | node cl vC cpC mC cC sC cr =>
                dsimp only
                rw [ih rest hrest]
                simp only [entriesCtx, entries, hd2R, hd1L]
                simp [List.append_assoc]

theorem insEntries_append_stop (n cps : Int) (e : Int × Int × Bool)
    (he : e.2.2 = true ∨ n < e.1) :
    ∀ (A B : List (Int × Int × Bool)),
    insEntries n cps (A ++ e :: B) = insEntries n cps A ++ e :: B := by
  intro A
  induction A with
  | nil =>
    intro B
    rcases he with hs | hlt
    · simp [insEntries, hs]
    · rw [List.nil_append, insEntries]
      by_cases hs : e.2.2
      · simp [hs, insEntries]
      · have hne : ¬ n = e.1 := by omega
        simp [hs, hne, hlt, insEntries]
  | cons a A ih =>
    intro B
    rw [List.cons_append, insEntries, insEntries]
    by_cases hs : a.2.2
    · simp [hs]
    · simp only [hs, if_false, Bool.false_eq_true]
      by_cases hne : n = a.1
      · simp [hne]
      · simp only [hne, if_false]
        by_cases hlt : n < a.1
        · simp [hlt]
        · simp only [hlt, if_false]
          rw [ih B]
          simp

theorem insEntries_append_pass (n cps : Int) :
    ∀ (A B : List (Int × Int × Bool)),
    (∀ a ∈ A, a.2.2 = false ∧ a.1 < n) →
    insEntries n cps (A ++ B) = A ++ insEntries n cps B := by
  intro A
  induction A with
  | nil =>
    intro B _
    simp
  | cons a A ih =>
    intro B hA
    have ha := hA a (by simp)
    rw [List.cons_append, insEntries]
    have hs : a.2.2 = false := ha.1
    have hlt : a.1 < n := ha.2
    have hne : ¬ n = a.1 := by omega
    have hnlt : ¬ n < a.1 := by omega
    simp only [hs, Bool.false_eq_true, if_false, hne, hnlt]
    rw [ih B (fun x hx => hA x (by simp [hx]))]
    simp

/-- The insertion descent realizes exactly the entry-list insertion: the new
copies join an equal stored key, or a fresh node lands immediately before the
first sentinel-or-greater entry. -/
theorem insertGo_entries (n cps : Int) :
    ∀ (t : RBT.T Int), t ≠ .nil → List.Pairwise relE (entries t) →
    ∀ path, entries (RBT.insertGo RBT.intOps n cps t path) =
      entriesCtx path (insEntries n cps (entries t)) := by
  intro t
  induction t with
  | nil =>
    intro h
    exact absurd rfl h
  | node l v cp m c s r ihl ihr =>
    intro _ hpw path
    have hE : entries (RBT.T.node l v cp m c s r) =
        entries l ++ (v, cp, s) :: entries r := by
      simp [entries]
    have hpw2 : List.Pairwise relE (entries l ++ (v, cp, s) :: entries r) := by
      rw [← hE]
      exact hpw
    rw [List.pairwise_append] at hpw2
    have hpwl : List.Pairwise relE (entries l) := hpw2.1
    have hpwr : List.Pairwise relE ((v, cp, s) :: entries r) := hpw2.2.1
    have hcross := hpw2.2.2
    rw [RBT.insertGo.eq_def]
    dsimp only
    cases hs : s with
    | true =>
      rw [if_pos rfl]
      have hstop : insEntries n cps (entries l ++ (v, cp, true) :: entries r) =
          insEntries n cps (entries l) ++ (v, cp, true) :: entries r :=
        insEntries_append_stop n cps (v, cp, true) (Or.inl rfl) _ _
      cases hl : l with
      | nil =>
        dsimp only
        rw [bdr_entries ((⟨.left, v, cp, m + cps, c, true, r⟩ : RBT.Frame Int)
          :: path).length _ (le_refl _)]
        rw [hs, hl] at hE
        rw [hE]
        simp [entries, entriesCtx, insEntries]
      | node a b c1 d1 e1 f1 g =>
        dsimp only
        rw [← hl]
        rw [ihl (by rw [hl]; intro hcon; cases hcon) hpwl]
        rw [hs] at hE
        rw [hE]
        simp only [entriesCtx]
        rw [hstop]
        simp
    | false =>
      rw [if_neg (by simp)]
      by_cases hnv : n = v
      · have heqb : RBT.intOps.equal n v = true := by
          simp [RBT.intOps, hnv]
        rw [heqb, if_pos rfl]
        rw [entries_plug]
        rw [hs] at hE
        rw [hE]
        have hpassl : ∀ a ∈ entries l, a.2.2 = false ∧ a.1 < n := by
          intro a ha
          have hrel := hcross a ha (v, cp, false) (by simp [hs])
          rw [relE] at hrel
          rcases hrel.2 with h1 | h1
          · simp at h1
          · exact ⟨hrel.1, by omega⟩
        rw [insEntries_append_pass n cps _ _ hpassl, insEntries]
        simp only [if_false, Bool.false_eq_true]
        rw [if_pos hnv]
        simp [entries, hnv]
      · have heqb : RBT.intOps.equal n v = false := by
          simp [RBT.intOps, hnv]
        rw [heqb, if_neg (by simp)]
        by_cases hlt : n < v
        · have hcmpb : RBT.intOps.comp n v = true := by
            simp [RBT.intOps, hlt]
          rw [hcmpb, if_pos rfl]
          have hstop : insEntries n cps
              (entries l ++ (v, cp, false) :: entries r) =
              insEntries n cps (entries l) ++ (v, cp, false) :: entries r :=
            insEntries_append_stop n cps (v, cp, false) (Or.inr hlt) _ _
          cases hl : l with
          | nil =>
            dsimp only
            rw [bdr_entries ((⟨.left, v, cp, m + cps, c, false, r⟩ : RBT.Frame Int)
              :: path).length _ (le_refl _)]
            rw [hs, hl] at hE
            rw [hE]
            simp [entries, entriesCtx, insEntries, hnv, hlt]
          | node a b c1 d1 e1 f1 g =>
            dsimp only
            rw [← hl]
            rw [ihl (by rw [hl]; intro hcon; cases hcon) hpwl]
            rw [hs] at hE
            rw [hE]
            simp only [entriesCtx]
            rw [hstop]
            simp
        · have hcmpb : RBT.intOps.comp n v = false := by
            simp [RBT.intOps, hlt]
          rw [hcmpb, if_neg (by simp)]
          have hpassl : ∀ a ∈ entries l, a.2.2 = false ∧ a.1 < n := by
            intro a ha
            have hrel := hcross a ha (v, cp, false) (by simp [hs])
            rw [relE] at hrel
            rcases hrel.2 with h1 | h1
            · simp at h1
            · exact ⟨hrel.1, by omega⟩
          have hmid : insEntries n cps ((v, cp, false) :: entries r) =
              (v, cp, false) :: insEntries n cps (entries r) := by
            rw [insEntries]
            simp only [if_false, Bool.false_eq_true]
            rw [if_neg hnv, if_neg hlt]
          cases hr : r with
          | nil =>
            dsimp only
            rw [bdr_entries ((⟨.right, v, cp, m + cps, c, false, l⟩ : RBT.Frame Int)
              :: path).length _ (le_refl _)]
            rw [hs, hr] at hE
            rw [hE]
            rw [insEntries_append_pass n cps _ _ hpassl]
            simp [entries, entriesCtx, insEntries, hnv, hlt]
          | node a b c1 d1 e1 f1 g =>
            dsimp only
            rw [← hr]
            have hpwr2 : List.Pairwise relE (entries r) := by
              rw [List.pairwise_cons] at hpwr
              exact hpwr.2
            rw [ihr (by rw [hr]; intro hcon; cases hcon) hpwr2]
            rw [hs] at hE
            rw [hE]
            simp only [entriesCtx]
            rw [insEntries_append_pass n cps _ _ hpassl, hmid]
            simp

theorem ubInsert_append_pass (x : Int) :
    ∀ (A B : List Int), (∀ a ∈ A, ¬ x < a) →
    ubInsert x (A ++ B) = A ++ ubInsert x B := by
  intro A
  induction A with
  | nil => intro B _; simp
  | cons a A ih =>
    intro B hA
    have ha := hA a (by simp)
    rw [List.cons_append, ubInsert, if_neg ha, ih B (fun y hy => hA y (by simp [hy]))]
    simp

theorem ubInsert_stop (x : Int) (L : List Int) (h : ∀ a ∈ L, x < a) :
    ubInsert x L = x :: L := by
  cases L with
  | nil => rfl
  | cons a l => rw [ubInsert, if_pos (h a (by simp))]

theorem sent_forces_nil (e : Int × Int × Bool) (es : List (Int × Int × Bool))
    (hpw : List.Pairwise relE (e :: es)) (hs : e.2.2 = true) : es = [] := by
  rw [List.pairwise_cons] at hpw
  cases es with
  | nil => rfl
  | cons f fs =>
    have := hpw.1 f (by simp)
    rw [relE] at this
    rw [this.1] at hs
    cases hs

theorem insEntries_mem (n cps : Int) :
    ∀ (E : List (Int × Int × Bool)) (f : Int × Int × Bool),
    f ∈ insEntries n cps E →
    (f.1 = n ∧ f.2.2 = false) ∨ ∃ g ∈ E, f.1 = g.1 ∧ f.2.2 = g.2.2 := by
  intro E
  induction E with
  | nil =>
    intro f hf
    simp [insEntries] at hf
    left
    simp [hf]
  | cons e es ih =>
    intro f hf
    rw [insEntries] at hf
    by_cases hs : e.2.2 = true
    · rw [if_pos hs] at hf
      rcases List.mem_cons.mp hf with h | h
      · left; simp [h]
      · right; exact ⟨f, h, rfl, rfl⟩
    · rw [if_neg hs] at hf
      by_cases hne : n = e.1
      · rw [if_pos hne] at hf
        rcases List.mem_cons.mp hf with h | h
        · right; exact ⟨e, by simp, by simp [h]⟩
        · right; exact ⟨f, by simp [h], rfl, rfl⟩
      · rw [if_neg hne] at hf
        by_cases hlt : n < e.1
        · rw [if_pos hlt] at hf
          rcases List.mem_cons.mp hf with h | h
          · left; simp [h]
          · right; exact ⟨f, h, rfl, rfl⟩
        · rw [if_neg hlt] at hf
          rcases List.mem_cons.mp hf with h | h
          · right; exact ⟨e, by simp, by simp [h]⟩
          · rcases ih f h with h2 | ⟨g, hg, hg2⟩
            · left; exact h2
            · right; exact ⟨g, by simp [hg], hg2⟩

theorem insEntries_pairwise (n cps : Int) :
    ∀ (E : List (Int × Int × Bool)), List.Pairwise relE E →
    List.Pairwise relE (insEntries n cps E) := by
  intro E
  induction E with
  | nil =>
    intro
    simp [insEntries, List.pairwise_cons]
  | cons e es ih =>
    intro hpw
    have hpwes : List.Pairwise relE es := (List.pairwise_cons.mp hpw).2
    have hrest := (List.pairwise_cons.mp hpw).1
    rw [insEntries]
    by_cases hs : e.2.2 = true
    · have hnil : es = [] := sent_forces_nil e es hpw hs
      subst hnil
      rw [if_pos hs]
      refine List.pairwise_cons.mpr ⟨?_, hpw⟩
      intro f hf
      rcases List.mem_cons.mp hf with h | h
      · subst h
        exact ⟨rfl, Or.inl hs⟩
      · simp at h
    · rw [if_neg hs]
      have hsf : e.2.2 = false := by revert hs; cases e.2.2 <;> simp
      by_cases hne : n = e.1
      · rw [if_pos hne]
        refine List.pairwise_cons.mpr ⟨?_, hpwes⟩
        intro f hf
        have := hrest f hf
        rw [relE] at this
        rw [relE]
        exact this
      · rw [if_neg hne]
        by_cases hlt : n < e.1
        · rw [if_pos hlt]
          refine List.pairwise_cons.mpr ⟨?_, hpw⟩
          intro f hf
          rcases List.mem_cons.mp hf with h | h
          · subst h
            exact ⟨rfl, Or.inr hlt⟩
          · have := hrest f h
            rw [relE] at this
            rcases this.2 with h2 | h2
            · exact ⟨rfl, Or.inl h2⟩
            · exact ⟨rfl, Or.inr (by omega)⟩
        · rw [if_neg hlt]
          refine List.pairwise_cons.mpr ⟨?_, ih hpwes⟩
          intro f hf
          rcases insEntries_mem n cps es f hf with h | ⟨g, hg, hg2⟩
          · refine ⟨hsf, Or.inr ?_⟩
            rw [h.1]
            omega
          · have := hrest g hg
            rw [relE] at this
            refine ⟨hsf, ?_⟩
            rcases this.2 with h2 | h2
            · exact Or.inl (by rw [hg2.2]; exact h2)
            · exact Or.inr (by rw [hg2.1]; exact h2)

theorem insEntries_sent_copies (n cps : Int) :
    ∀ (E : List (Int × Int × Bool)),
    (∀ e ∈ E, e.2.2 = true → e.2.1 = 0) →
    ∀ f ∈ insEntries n cps E, f.2.2 = true → f.2.1 = 0 := by
  intro E
  induction E with
  | nil =>
    intro _ f hf
    simp [insEntries] at hf
    simp [hf]
  | cons e es ih =>
    intro hE f hf
    rw [insEntries] at hf
    by_cases hs : e.2.2 = true
    · rw [if_pos hs] at hf
      rcases List.mem_cons.mp hf with h | h
      · simp [h]
      · exact hE f h
    · rw [if_neg hs] at hf
      have hsf : e.2.2 = false := by revert hs; cases e.2.2 <;> simp
      by_cases hne : n = e.1
      · rw [if_pos hne] at hf
        rcases List.mem_cons.mp hf with h | h
        · subst h
          intro hcon
          rw [hsf] at hcon
          cases hcon
        · exact hE f (by simp [h])
      · rw [if_neg hne] at hf
        by_cases hlt : n < e.1
        · rw [if_pos hlt] at hf
          rcases List.mem_cons.mp hf with h | h
          · simp [h]
          · exact hE f h
        · rw [if_neg hlt] at hf
          rcases List.mem_cons.mp hf with h | h
          · subst h
            exact hE f (by simp)
          · exact ih (fun g hg => hE g (by simp [hg])) f h

theorem insEntries_stored_copies (n cps : Int) (hcps : 1 ≤ cps) :
    ∀ (E : List (Int × Int × Bool)),
    (∀ e ∈ E, e.2.2 = false → 1 ≤ e.2.1) →
    ∀ f ∈ insEntries n cps E, f.2.2 = false → 1 ≤ f.2.1 := by
  intro E
  induction E with
  | nil =>
    intro _ f hf
    simp [insEntries] at hf
    simp [hf]
    omega
  | cons e es ih =>
    intro hE f hf
    rw [insEntries] at hf
    by_cases hs : e.2.2 = true
    · rw [if_pos hs] at hf
      rcases List.mem_cons.mp hf with h | h
      · intro _; rw [h]; exact hcps
      · exact hE f h
    · rw [if_neg hs] at hf
      have hsf : e.2.2 = false := by revert hs; cases e.2.2 <;> simp
      by_cases hne : n = e.1
      · rw [if_pos hne] at hf
        rcases List.mem_cons.mp hf with h | h
        · subst h
          intro _
          have := hE e (by simp) hsf
          have h2 : (e.1, e.2.1 + cps, e.2.2).2.1 = e.2.1 + cps := rfl
          omega
        · exact hE f (by simp [h])
      · rw [if_neg hne] at hf
        by_cases hlt : n < e.1
        · rw [if_pos hlt] at hf
          rcases List.mem_cons.mp hf with h | h
          · intro _; rw [h]; exact hcps
          · exact hE f h
        · rw [if_neg hlt] at hf
          rcases List.mem_cons.mp hf with h | h
          · subst h
            exact hE f (by simp)
          · exact ih (fun g hg => hE g (by simp [hg])) f h

theorem insEntries_ne_nil (n cps : Int) (E : List (Int × Int × Bool)) :
    insEntries n cps E ≠ [] := by
  cases E with
  | nil => simp [insEntries]
  | cons e es =>
    rw [insEntries]
    by_cases hs : e.2.2 = true
    · rw [if_pos hs]; simp
    · rw [if_neg hs]
      by_cases hne : n = e.1
      · rw [if_pos hne]; simp
      · rw [if_neg hne]
        by_cases hlt : n < e.1
        · rw [if_pos hlt]; simp
        · rw [if_neg hlt]; simp

theorem expandE_append : ∀ (A B : List (Int × Int × Bool)),
    expandE (A ++ B) = expandE A ++ expandE B := by
  intro A
  induction A with
  | nil => intro B; simp [expandE]
  | cons a A ih => intro B; simp [expandE, ih]

theorem nodesOfE_append : ∀ (A B : List (Int × Int × Bool)),
    nodesOfE (A ++ B) = nodesOfE A ++ nodesOfE B := by
  intro A
  induction A with
  | nil => intro B; simp [nodesOfE]
  | cons a A ih => intro B; simp [nodesOfE, ih]

theorem expandE_all_gt (n : Int) :
    ∀ (E : List (Int × Int × Bool)),
    (∀ e ∈ E, e.2.2 = true → e.2.1 = 0) →
    (∀ e ∈ E, e.2.2 = false → n < e.1) →
    ∀ y ∈ expandE E, n < y := by
  intro E
  induction E with
  | nil => intro _ _ y hy; simp [expandE] at hy
  | cons e es ih =>
    intro h0 hgt y hy
    rw [expandE] at hy
    rcases List.mem_append.mp hy with h | h
    · have hy2 := List.eq_of_mem_replicate h
      subst hy2
      by_cases hs : e.2.2 = true
      · have := h0 e (by simp) hs
        rw [this] at h
        simp at h
      · exact hgt e (by simp) (by revert hs; cases e.2.2 <;> simp)
    · exact ih (fun g hg => h0 g (by simp [hg])) (fun g hg => hgt g (by simp [hg])) y h

theorem expandE_insEntries (n : Int) :
    ∀ (E : List (Int × Int × Bool)), List.Pairwise relE E →
    (∀ e ∈ E, e.2.2 = true → e.2.1 = 0) →
    (∀ e ∈ E, e.2.2 = false → 1 ≤ e.2.1) →
    expandE (insEntries n 1 E) = ubInsert n (expandE E) := by
  intro E
  induction E with
  | nil =>
    intro _ _ _
    simp [insEntries, expandE, ubInsert]
  | cons e es ih =>
    intro hpw h0 h1
    have hpwes : List.Pairwise relE es := (List.pairwise_cons.mp hpw).2
    have hrest := (List.pairwise_cons.mp hpw).1
    rw [insEntries]
    by_cases hs : e.2.2 = true
    · have hnil : es = [] := sent_forces_nil e es hpw hs
      subst hnil
      have hc0 : e.2.1 = 0 := h0 e (by simp) hs
      rw [if_pos hs]
      simp [expandE, hc0, ubInsert]
    · rw [if_neg hs]
      have hsf : e.2.2 = false := by revert hs; cases e.2.2 <;> simp
      have hc1 : 1 ≤ e.2.1 := h1 e (by simp) hsf
      have hgt : ∀ y ∈ expandE es, e.1 < y := by
        apply expandE_all_gt
        · intro g hg; exact h0 g (by simp [hg])
        · intro g hg hgf
          have := hrest g hg
          rw [relE] at this
          rcases this.2 with h2 | h2
          · rw [h2] at hgf; cases hgf
          · exact h2
      by_cases hne : n = e.1
      · rw [if_pos hne]
        simp only [expandE]
        have hrep : (e.2.1 + 1).toNat = e.2.1.toNat + 1 := by omega
        have h2 : ((e.1, e.2.1 + 1, e.2.2) : Int × Int × Bool).2.1 = e.2.1 + 1 := rfl
        rw [show ((e.1, e.2.1 + 1, e.2.2) : Int × Int × Bool).2.1.toNat =
          e.2.1.toNat + 1 from by rw [h2]; omega]
        rw [ubInsert_append_pass n _ _ (by
          intro a ha
          have := List.eq_of_mem_replicate ha
          omega)]
        rw [ubInsert_stop n _ (by intro a ha; rw [hne]; exact hgt a ha)]
        rw [List.replicate_succ']
        simp [hne]
      · rw [if_neg hne]
        by_cases hlt : n < e.1
        · rw [if_pos hlt]
          simp only [expandE]
          have hrep : ∃ k, e.2.1.toNat = k + 1 := ⟨e.2.1.toNat - 1, by omega⟩
          rcases hrep with ⟨k, hk⟩
          rw [hk, List.replicate_succ, List.cons_append, ubInsert, if_pos hlt]
          simp [List.replicate_succ]
        · rw [if_neg hlt]
          simp only [expandE]
          rw [ih hpwes (fun g hg => h0 g (by simp [hg]))
            (fun g hg => h1 g (by simp [hg]))]
          rw [ubInsert_append_pass n _ _ (by
            intro a ha
            have := List.eq_of_mem_replicate ha
            omega)]

theorem dedup_replicate_append (a : Int) (L : List Int) (hnm : a ∉ L) :
    ∀ k, 1 ≤ k → (List.replicate k a ++ L).dedup = a :: L.dedup := by
  intro k
  induction k with
  | zero => intro h; omega
  | succ k ih =>
    intro _
    by_cases hk : k = 0
    · subst hk
      simp only [List.replicate_succ, List.replicate_zero, List.cons_append,
        List.nil_append]
      exact List.dedup_cons_of_not_mem hnm
    · rw [List.replicate_succ, List.cons_append]
      rw [List.dedup_cons_of_mem (by
        apply List.mem_append_left
        exact List.mem_replicate.mpr ⟨hk, rfl⟩)]
      exact ih (by omega)

theorem dedup_expandE :
    ∀ (E : List (Int × Int × Bool)), List.Pairwise relE E →
    (∀ e ∈ E, e.2.2 = true → e.2.1 = 0) →
    (∀ e ∈ E, e.2.2 = false → 1 ≤ e.2.1) →
    (expandE E).dedup = nodesOfE E := by
  intro E
  induction E with
  | nil => intro _ _ _; simp [expandE, nodesOfE]
  | cons e es ih =>
    intro hpw h0 h1
    have hpwes : List.Pairwise relE es := (List.pairwise_cons.mp hpw).2
    have hrest := (List.pairwise_cons.mp hpw).1
    rw [expandE, nodesOfE]
    by_cases hs : e.2.2 = true
    · have hnil : es = [] := sent_forces_nil e es hpw hs
      subst hnil
      have hc0 : e.2.1 = 0 := h0 e (by simp) hs
      simp [hs, hc0, expandE, nodesOfE]
    · have hsf : e.2.2 = false := by revert hs; cases e.2.2 <;> simp
      have hc1 : 1 ≤ e.2.1 := h1 e (by simp) hsf
      have hgt : ∀ y ∈ expandE es, e.1 < y := by
        apply expandE_all_gt
        · intro g hg; exact h0 g (by simp [hg])
        · intro g hg hgf
          have := hrest g hg
          rw [relE] at this
          rcases this.2 with h2 | h2
          · rw [h2] at hgf; cases hgf
          · exact h2
      have hnm : e.1 ∉ expandE es := by
        intro hcon
        have := hgt e.1 hcon
        omega
      rw [dedup_replicate_append e.1 (expandE es) hnm e.2.1.toNat (by omega)]
      rw [ih hpwes (fun g hg => h0 g (by simp [hg])) (fun g hg => h1 g (by simp [hg]))]
      simp [hsf]

theorem insEntries_leftmost (n cps : Int) :
    ∀ (E : List (Int × Int × Bool)), List.Pairwise relE E →
    (nodesOfE (insEntries n cps E)).head? =
      ((nodesOfE E).head?).elim (some n)
        (fun lv => if n < lv then some n else some lv) := by
  intro E
  induction E with
  | nil =>
    intro _
    simp [insEntries, nodesOfE]
  | cons e es ih =>
    intro hpw
    rw [insEntries]
    by_cases hs : e.2.2 = true
    · have hnil : es = [] := sent_forces_nil e es hpw hs
      subst hnil
      rw [if_pos hs]
      simp [hs, nodesOfE]
    · rw [if_neg hs]
      have hsf : e.2.2 = false := by revert hs; cases e.2.2 <;> simp
      by_cases hne : n = e.1
      · rw [if_pos hne]
        simp [nodesOfE, hsf, hne]
      · rw [if_neg hne]
        by_cases hlt : n < e.1
        · rw [if_pos hlt]
          simp [nodesOfE, hsf, hlt]
        · rw [if_neg hlt]
          simp [nodesOfE, hsf, hlt]

theorem entries_nil_iff (t : RBT.T Int) : entries t = [] ↔ t = RBT.T.nil := by
  cases t with
  | nil => simp [entries]
  | node l v cp m c s r =>
    simp [entries]

theorem entries_len_eq_size (t : RBT.T Int) :
    (entries t).length = RBT.sizeT t := by
  induction t with
  | nil => simp [entries, RBT.sizeT]
  | node l v cp m c s r ihl ihr =>
    simp [entries, RBT.sizeT, ihl, ihr]
    omega

theorem leftmostPos_spec : ∀ (t : RBT.T Int) (path : RBT.Path Int),
    t ≠ RBT.T.nil →
    ∃ v2 cp2 m2 c2 s2 r2 path2,
      RBT.leftmostPos t path =
        some (RBT.T.node RBT.T.nil v2 cp2 m2 c2 s2 r2, path2) ∧
      (v2, cp2, s2) :: (entries r2 ++ rightCtx path2) =
        entries t ++ rightCtx path := by
  intro t
  induction t with
  | nil => intro path h; exact absurd rfl h
  | node l v cp m c s r ihl _ =>
    intro path _
    cases l with
    | nil =>
      refine ⟨v, cp, m, c, s, r, path, rfl, ?_⟩
      simp [entries]
    | node a b c1 d1 e1 f1 g =>
      rcases ihl (⟨.left, v, cp, m, c, s, r⟩ :: path) (by intro h; cases h)
        with ⟨v2, cp2, m2, c2, s2, r2, path2, heq, hlist⟩
      refine ⟨v2, cp2, m2, c2, s2, r2, path2, ?_, ?_⟩
      · rw [RBT.leftmostPos]
        exact heq
      · rw [hlist]
        simp [entries, rightCtx]

theorem climb_spec : ∀ (path : RBT.Path Int) (t : RBT.T Int),
    (RBT.climb t path = none → rightCtx path = []) ∧
    (∀ t2 path2, RBT.climb t path = some (t2, path2) →
      ∃ l2 v2 cp2 m2 c2 s2 r2,
        t2 = RBT.T.node l2 v2 cp2 m2 c2 s2 r2 ∧
        (v2, cp2, s2) :: (entries r2 ++ rightCtx path2) = rightCtx path) := by
  intro path
  induction path with
  | nil =>
    intro t
    constructor
    · intro _; rfl
    · intro t2 path2 h
      rw [RBT.climb] at h
      cases h
  | cons f ps ih =>
    intro t
    constructor
    · intro h
      rw [RBT.climb] at h
      rw [rightCtx]
      cases hd : f.dir with
      | right =>
        rw [hd] at h
        simp only [hd]
        exact (ih (RBT.upOne t f)).1 h
      | left =>
        rw [hd] at h
        cases h
    · intro t2 path2 h
      rw [RBT.climb] at h
      rw [rightCtx]
      cases hd : f.dir with
      | right =>
        rw [hd] at h
        simp only [hd]
        exact (ih (RBT.upOne t f)).2 t2 path2 h
      | left =>
        rw [hd] at h
        simp only [hd]
        refine ⟨t, f.v, f.copies, f.mass, f.c, f.sent, f.other, ?_, ?_⟩
        · cases h
          rw [RBT.upOne, hd]
        · cases h
          rfl

theorem iterNext_spec (l : RBT.T Int) (v : Int) (cp m : Int) (c : Nat)
    (s : Bool) (r : RBT.T Int) (path : RBT.Path Int) :
    (RBT.iterNext (RBT.T.node l v cp m c s r) path = none →
      entries r ++ rightCtx path = []) ∧
    (∀ t2 path2,
      RBT.iterNext (RBT.T.node l v cp m c s r) path = some (t2, path2) →
      ∃ l2 v2 cp2 m2 c2 s2 r2,
        t2 = RBT.T.node l2 v2 cp2 m2 c2 s2 r2 ∧
        (v2, cp2, s2) :: (entries r2 ++ rightCtx path2) =
          entries r ++ rightCtx path) := by
  constructor
  · intro h
    cases hr : r with
    | nil =>
      rw [hr] at h
      rw [RBT.iterNext.eq_def] at h
      dsimp only at h
      have := (climb_spec path (RBT.T.node l v cp m c s RBT.T.nil)).1 h
      simp [hr, entries, this]
    | node a b c1 d1 e1 f1 g =>
      rw [hr] at h
      rw [RBT.iterNext.eq_def] at h
      dsimp only at h
      rcases leftmostPos_spec (RBT.T.node a b c1 d1 e1 f1 g)
        (⟨.right, v, cp, m, c, s, l⟩ :: path) (by intro hc; cases hc)
        with ⟨v2, cp2, m2, c2, s2, r2, path2, heq, _⟩
      rw [heq] at h
      cases h
  · intro t2 path2 h
    cases hr : r with
    | nil =>
      rw [hr] at h
      rw [RBT.iterNext.eq_def] at h
      dsimp only at h
      rcases (climb_spec path (RBT.T.node l v cp m c s RBT.T.nil)).2 t2 path2 h
        with ⟨l2, v2, cp2, m2, c2, s2, r2, ht2, hlist⟩
      exact ⟨l2, v2, cp2, m2, c2, s2, r2, ht2, by simp [hr, entries, hlist]⟩
    | node a b c1 d1 e1 f1 g =>
      rw [hr] at h
      rw [RBT.iterNext.eq_def] at h
      dsimp only at h
      rcases leftmostPos_spec (RBT.T.node a b c1 d1 e1 f1 g)
        (⟨.right, v, cp, m, c, s, l⟩ :: path) (by intro hc; cases hc)
        with ⟨v2, cp2, m2, c2, s2, r2, path2b, heq, hlist⟩
      rw [heq] at h
      cases h
      refine ⟨RBT.T.nil, v2, cp2, m2, c2, s2, r2, rfl, ?_⟩
      rw [hlist]
      simp [rightCtx]

theorem sent_head_nil (v : Int) (cp : Int)
    (rest : List (Int × Int × Bool))
    (hpw : List.Pairwise relE ((v, cp, true) :: rest)) : rest = [] := by
  rw [List.pairwise_cons] at hpw
  cases rest with
  | nil => rfl
  | cons f fs =>
    have := hpw.1 f (by simp)
    rw [relE] at this
    simp at this

theorem traverseGo_eq : ∀ (fuel : Nat) (l : RBT.T Int) (v : Int)
    (cp m : Int) (c : Nat) (s : Bool) (r : RBT.T Int) (path : RBT.Path Int),
    List.Pairwise relE ((v, cp, s) :: (entries r ++ rightCtx path)) →
    ((v, cp, s) :: (entries r ++ rightCtx path)).length ≤ fuel →
    RBT.traverseGo fuel (RBT.T.node l v cp m c s r) path =
      nodesOfE ((v, cp, s) :: (entries r ++ rightCtx path)) := by
  intro fuel
  induction fuel with
  | zero =>
    intro l v cp m c s r path _ hlen
    simp at hlen
  | succ fuel ih =>
    intro l v cp m c s r path hpw hlen
    rw [RBT.traverseGo]
    cases hs : s with
    | true =>
      rw [if_pos rfl]
      have hrest : entries r ++ rightCtx path = [] := by
        apply sent_head_nil v cp
        rw [← hs]
        exact hpw
      rw [hrest]
      simp [nodesOfE]
    | false =>
      rw [if_neg (by simp)]
      rw [nodesOfE]
      simp only [Bool.false_eq_true, if_false, List.nil_append]
      congr 1
      cases hnx : RBT.iterNext (RBT.T.node l v cp m c false r) path with
      | none =>
        have := (iterNext_spec l v cp m c false r path).1 hnx
        rw [this]
        simp [nodesOfE]
      | some p2 =>
        rcases (iterNext_spec l v cp m c false r path).2 p2.1 p2.2
          (by rw [hnx]) with ⟨l2, v2, cp2, m2, c2, s2, r2, ht2, hlist⟩
        simp only []
        rw [ht2]
        rw [ih l2 v2 cp2 m2 c2 s2 r2 p2.2 (by
            rw [hlist]
            rw [hs] at hpw
            exact (List.pairwise_cons.mp hpw).2)
          (by
            have h2 : ((v2, cp2, s2) :: (entries r2 ++ rightCtx p2.2)).length =
                (entries r ++ rightCtx path).length := by rw [hlist]
            simp at hlen h2 ⊢
            omega)]
        rw [hlist]
        simp

theorem posOfVal_none (lv : Int) : ∀ (t : RBT.T Int) (path : RBT.Path Int),
    (∀ a ∈ entries t, a.1 ≠ lv) →
    RBT.posOfVal RBT.intOps lv t path = none := by
  intro t
  induction t with
  | nil => intro path _; rfl
  | node l v cp m c s r ihl ihr =>
    intro path hno
    rw [RBT.posOfVal]
    rw [ihl _ (fun a ha => hno a (by simp [entries, ha]))]
    simp only []
    have hv : RBT.intOps.rawEq v lv = false := by
      have := hno (v, cp, s) (by simp [entries])
      simp [RBT.intOps]
      simpa using this
    rw [hv]
    simp only [Bool.false_eq_true, if_false]
    exact ihr _ (fun a ha => hno a (by simp [entries, ha]))

theorem posOfVal_found (lv : Int) : ∀ (t : RBT.T Int) (path : RBT.Path Int)
    (e : Int × Int × Bool) (B : List (Int × Int × Bool)),
    entries t = e :: B → e.1 = lv →
    ∃ l2 cp2 m2 c2 s2 r2 path2,
      RBT.posOfVal RBT.intOps lv t path =
        some (RBT.T.node l2 lv cp2 m2 c2 s2 r2, path2) ∧
      (lv, cp2, s2) :: (entries r2 ++ rightCtx path2) =
        e :: (B ++ rightCtx path) := by
  intro t
  induction t with
  | nil =>
    intro path e B hE _
    rw [entries] at hE
    cases hE
  | node l v cp m c s r ihl _ =>
    intro path e B hE hlv
    rw [RBT.posOfVal]
    cases hl : entries l with
    | nil =>
      rw [posOfVal_none lv l _ (by rw [hl]; intro a ha; cases ha)]
      simp only []
      have hE2 : (v, cp, s) :: entries r = e :: B := by
        rw [entries, hl] at hE
        simpa using hE
      obtain ⟨hve, hBr⟩ := List.cons.inj hE2
      have hveq : v = lv := by
        rw [← hve] at hlv
        simpa using hlv
      have hreq : RBT.intOps.rawEq v lv = true := by
        simp [RBT.intOps, hveq]
      rw [hreq, if_pos rfl]
      refine ⟨l, cp, m, c, s, r, path, by rw [hveq], ?_⟩
      rw [← hve, ← hBr, ← hveq]
    | cons f L =>
      have hE2 : f :: (L ++ [(v, cp, s)] ++ entries r) = e :: B := by
        rw [entries, hl] at hE
        simpa using hE
      obtain ⟨hfe, hBL⟩ := List.cons.inj hE2
      rcases ihl (⟨.left, v, cp, m, c, s, r⟩ :: path) e L (by rw [hl, hfe]) hlv
        with ⟨l2, cp2, m2, c2, s2, r2, path2, heq, hlist⟩
      rw [heq]
      refine ⟨l2, cp2, m2, c2, s2, r2, path2, rfl, ?_⟩
      rw [hlist, ← hBL]
      simp [rightCtx]

theorem traverse_eq_nodes (st : RBT.St Int)
    (hg : List.Pairwise relE (entries st.tree))
    (hlm : st.leftmost = (nodesOfE (entries st.tree)).head?) :
    RBT.traverse RBT.intOps st = nodesOfE (entries st.tree) := by
  rw [RBT.traverse]
  cases hl : st.leftmost with
  | none =>
    rw [hl] at hlm
    have hnil : nodesOfE (entries st.tree) = [] := by
      cases hh : nodesOfE (entries st.tree) with
      | nil => rfl
      | cons a L =>
        rw [hh] at hlm
        cases hlm
    rw [hnil]
  | some lv =>
    rw [hl] at hlm
    simp only []
    cases hE : entries st.tree with
    | nil =>
      rw [hE] at hlm
      simp [nodesOfE] at hlm
    | cons e B =>
      rw [hE] at hlm
      by_cases hs : e.2.2 = true
      · exfalso
        have hB : B = [] := by
          rw [hE] at hg
          rw [List.pairwise_cons] at hg
          cases B with
          | nil => rfl
          | cons f fs =>
            have := hg.1 f (by simp)
            rw [relE] at this
            rw [this.1] at hs
            cases hs
        rw [hB, nodesOfE] at hlm
        rw [if_pos hs] at hlm
        simp [nodesOfE] at hlm
      · have hsf : e.2.2 = false := by revert hs; cases e.2.2 <;> simp
        have hlv : e.1 = lv := by
          rw [nodesOfE, if_neg hs] at hlm
          simp at hlm
          omega
        rcases posOfVal_found lv st.tree [] e B hE hlv
          with ⟨l2, cp2, m2, c2, s2, r2, path2, heq, hlist⟩
        rw [heq]
        simp only []
        have hlist2 : (lv, cp2, s2) :: (entries r2 ++ rightCtx path2) = e :: B := by
          rw [hlist]
          simp [rightCtx]
        rw [traverseGo_eq (RBT.sizeT st.tree + 1) l2 lv cp2 m2 c2 s2 r2 path2
          (by rw [hlist2, ← hE]; exact hg)
          (by
            have := congrArg List.length hlist2
            simp at this
            have hsz := entries_len_eq_size st.tree
            rw [hE] at hsz
            simp at hsz
            simp
            omega)]
        rw [hlist2]


theorem rbt_insert_entries (st : RBT.St Int) (n cps : Int) (hg : GoodT st.tree) :
    entries (RBT.insert RBT.intOps st n cps).tree =
      insEntries n cps (entries st.tree) := by
  have h1 : (RBT.insert RBT.intOps st n cps).tree =
      RBT.insertGo RBT.intOps n cps st.tree [] := rfl
  have hne : st.tree ≠ RBT.T.nil := by
    intro hcon
    exact hg.2.2.2 ((entries_nil_iff st.tree).mpr hcon)
  rw [h1, insertGo_entries n cps st.tree hne hg.1]
  rfl

theorem rbt_insert_good (st : RBT.St Int) (n cps : Int) (hcps : 1 ≤ cps)
    (hg : GoodRBT st) : GoodRBT (RBT.insert RBT.intOps st n cps) := by
  obtain ⟨⟨hpw, h0, h1, hne⟩, hlm⟩ := hg
  constructor
  · rw [GoodT, rbt_insert_entries st n cps ⟨hpw, h0, h1, hne⟩]
    exact ⟨insEntries_pairwise n cps _ hpw,
      insEntries_sent_copies n cps _ h0,
      insEntries_stored_copies n cps hcps _ h1,
      insEntries_ne_nil n cps _⟩
  · rw [rbt_insert_entries st n cps ⟨hpw, h0, h1, hne⟩,
      insEntries_leftmost n cps _ hpw, ← hlm]
    obtain ⟨t, sz, lm⟩ := st
    cases lm with
    | none => rfl
    | some lv =>
      by_cases hx : n < lv <;> simp [RBT.insert, RBT.intOps, hx]

theorem rbt_init_good : GoodRBT RBT.init0 := by
  constructor
  · refine ⟨?_, ?_, ?_, ?_⟩
    · simp [RBT.init0, RBT.initSt, entries]
    · intro e he
      simp [RBT.init0, RBT.initSt, entries] at he
      simp [he]
    · intro e he
      simp [RBT.init0, RBT.initSt, entries] at he
      simp [he]
    · simp [RBT.init0, RBT.initSt, entries]
  · rfl

theorem rbt_fold (xs : List Int) : ∀ st : RBT.St Int, GoodRBT st →
    GoodRBT (xs.foldl (fun s x => RBT.insert RBT.intOps s x 1) st) ∧
    expandE (entries (xs.foldl (fun s x => RBT.insert RBT.intOps s x 1) st).tree) =
      xs.foldl (fun acc x => ubInsert x acc) (expandE (entries st.tree)) := by
  induction xs with
  | nil => intro st hg; exact ⟨hg, rfl⟩
  | cons x t ih =>
    intro st hg
    have hg2 := rbt_insert_good st x 1 (le_refl 1) hg
    have hrec := ih (RBT.insert RBT.intOps st x 1) hg2
    refine ⟨hrec.1, ?_⟩
    simp only [List.foldl_cons]
    rw [hrec.2]
    have he : expandE (entries (RBT.insert RBT.intOps st x 1).tree) =
        ubInsert x (expandE (entries st.tree)) := by
      rw [rbt_insert_entries st x 1 hg.1]
      exact expandE_insEntries x _ hg.1.1 hg.1.2.1 hg.1.2.2.1
    rw [he]

theorem rbt_goodOf (xs : List Int) : GoodRBT (rbtOf xs) := by
  rw [rbtOf]
  exact (rbt_fold xs RBT.init0 rbt_init_good).1

theorem rbt_expand_eq_stableSort (xs : List Int) :
    expandE (entries (rbtOf xs).tree) = stableSort xs := by
  have h := rbt_fold xs RBT.init0 rbt_init_good
  have h0 : expandE (entries RBT.init0.tree) = [] := rfl
  rw [rbtOf, h.2, h0, stableSort]

theorem inorderCopies_eq (t : RBT.T Int) :
    RBT.inorderCopies t = expandE (entries t) := by
  induction t with
  | nil => rfl
  | node l v cp m c s r ihl ihr =>
    rw [RBT.inorderCopies, entries, ihl, ihr, expandE_append, expandE_append]
    simp [expandE]

/-- C1 (amended): after any insert-only history, the array engine flattens to
the reference stable sort; the list engine traversal yields the stable sort;
the tree engine traversal yields each distinct inserted key once, in
increasing order (the de-duplicated stable sort), with the per-key multiset
carried in the node multiplicities, whose in-order expansion is the stable
sort. -/
theorem c1_amended_traversal_is_stable_sort (xs : List Int) :
    VV.flatten (vvOf xs 500) = stableSort xs ∧
    LL.traverse 0 (llOf xs 500) = stableSort xs ∧
    RBT.traverse RBT.intOps (rbtOf xs) = (stableSort xs).dedup ∧
    RBT.inorderCopies (rbtOf xs).tree = stableSort xs := by
  have hvv := vv_flatten_eq_stableSort 500 (by norm_num) xs
  have hllst := ll_stored_eq_stableSort 500 (by norm_num) xs
  have hll : LL.traverse 0 (llOf xs 500) = stableSort xs := by
    have h := ll_fold_inv 500 (by norm_num) xs (LL.initSt LL.svInt 500)
      (ll_init_inv 500 (by norm_num)) rfl
    have hinv : LLInv (llOf xs 500) := h.1
    rw [ll_traverse_eq 0 (llOf xs 500) hinv.1 hinv.2.1]
    exact hllst
  have hgood := rbt_goodOf xs
  have hexp := rbt_expand_eq_stableSort xs
  have htrav : RBT.traverse RBT.intOps (rbtOf xs) =
      nodesOfE (entries (rbtOf xs).tree) :=
    traverse_eq_nodes (rbtOf xs) hgood.1.1 hgood.2
  have hded := dedup_expandE (entries (rbtOf xs).tree) hgood.1.1
    hgood.1.2.1 hgood.1.2.2.1
  refine ⟨hvv, hll, ?_, ?_⟩
  · rw [htrav, ← hded, hexp]
  · rw [inorderCopies_eq, hexp]

theorem eraseIdx_getLast2 {α : Type} (l : List α) (i : Nat)
    (h : i + 1 < l.length) : (l.eraseIdx i).getLast? = l.getLast? := by
  rw [List.eraseIdx_eq_take_drop_succ]
  have hdne : l.drop (i + 1) ≠ [] := by
    intro hcon
    have := List.drop_eq_nil_iff.mp hcon
    omega
  rw [List.getLast?_append_of_ne_nil _ hdne]
  conv_rhs => rw [← List.take_append_drop (i + 1) l]
  rw [List.getLast?_append_of_ne_nil _ hdne]

theorem eraseScan_sent {α : Type} (beq : α → α → Bool) (n : α) (sv : α) :
    ∀ (fuel : Nat) (bk : List (List α)) (tb i ct : Nat),
    bk ≠ [] →
    (bk.getD (bk.length - 1) []).getLast? = some sv →
    ∀ bk2 tb2 ct2,
    LL.eraseScan beq n (bk.length - 1) fuel bk tb i ct = some (bk2, tb2, ct2) →
    bk2.length = bk.length ∧
      (bk2.getD (bk2.length - 1) []).getLast? = some sv := by
  intro fuel
  induction fuel with
  | zero =>
    intro bk tb i ct _ _ bk2 tb2 ct2 hres
    rw [LL.eraseScan] at hres
    cases hres
  | succ fuel ih =>
    intro bk tb i ct hne hsent bk2 tb2 ct2 hres
    rw [LL.eraseScan] at hres
    by_cases hstop : tb = bk.length - 1 ∧ i = (bk.getD (bk.length - 1) []).length - 1
    · rw [if_pos hstop] at hres
      cases hres
      exact ⟨rfl, hsent⟩
    · rw [if_neg hstop] at hres
      cases hv : (bk.getD tb [])[i]? with
      | none =>
        rw [hv] at hres
        cases hres
      | some v =>
        rw [hv] at hres
        simp only [] at hres
        by_cases hbeq : beq v n = true
        · rw [if_pos hbeq] at hres
          have hilt : i < (bk.getD tb []).length := by
            rcases List.getElem?_eq_some.mp hv with ⟨h2, _⟩
            exact h2
          have hlen1 : (bk.set tb ((bk.getD tb []).eraseIdx i)).length = bk.length :=
            List.length_set bk tb _
          have hne1 : bk.set tb ((bk.getD tb []).eraseIdx i) ≠ [] := by
            intro hcon
            rw [hcon] at hlen1
            exact hne (List.length_eq_zero.mp hlen1.symm)
          have hsent1 :
              ((bk.set tb ((bk.getD tb []).eraseIdx i)).getD
                ((bk.set tb ((bk.getD tb []).eraseIdx i)).length - 1) []).getLast?
                = some sv := by
            rw [hlen1]
            by_cases htb : tb = bk.length - 1
            · have hinot : ¬ i = (bk.getD (bk.length - 1) []).length - 1 := by
                intro hcon
                exact hstop ⟨htb, hcon⟩
              have hi1 : i + 1 < (bk.getD tb []).length := by
                rw [htb] at hilt ⊢
                omega
              rw [← htb]
              rw [getD_set_self bk tb _ [] (by
                have hlp : 0 < bk.length := List.length_pos.mpr hne
                omega)]
              rw [eraseIdx_getLast2 _ _ hi1]
              rw [htb]
              exact hsent
            · rw [getD_set_other bk tb (bk.length - 1) _ [] (by omega)]
              exact hsent
          by_cases hiend : i = ((bk.getD tb []).eraseIdx i).length
          · rw [if_pos hiend] at hres
            by_cases hnxt : tb + 1 = (bk.set tb ((bk.getD tb []).eraseIdx i)).length
            · rw [if_pos hnxt] at hres
              cases hres
            · rw [if_neg hnxt] at hres
              have hres2 := hres
              rw [show bk.length - 1 =
                  (bk.set tb ((bk.getD tb []).eraseIdx i)).length - 1 from by
                rw [hlen1]] at hres2
              have hr := ih (bk.set tb ((bk.getD tb []).eraseIdx i)) (tb + 1) 0
                (ct + 1) hne1 hsent1 bk2 tb2 ct2 hres2
              exact ⟨by rw [hr.1, hlen1], hr.2⟩
          · rw [if_neg hiend] at hres
            have hres2 := hres
            rw [show bk.length - 1 =
                (bk.set tb ((bk.getD tb []).eraseIdx i)).length - 1 from by
              rw [hlen1]] at hres2
            have hr := ih (bk.set tb ((bk.getD tb []).eraseIdx i)) tb i
              (ct + 1) hne1 hsent1 bk2 tb2 ct2 hres2
            exact ⟨by rw [hr.1, hlen1], hr.2⟩
        · rw [if_neg hbeq] at hres
          cases hres
          exact ⟨rfl, hsent⟩

theorem flatten_getLast_bucket {α : Type} :
    ∀ (bk : List (List α)), bk ≠ [] →
    bk.getD (bk.length - 1) [] ≠ [] →
    (bk.flatten).getLast? = (bk.getD (bk.length - 1) []).getLast? := by
  intro bk
  induction bk with
  | nil => intro h _; exact absurd rfl h
  | cons b t ih =>
    intro _ hlast
    cases ht : t with
    | nil =>
      subst ht
      simp
    | cons c u =>
      subst ht
      have hlen : (b :: c :: u).length - 1 = (c :: u).length := by simp
      have hlast2 : (c :: u).getD ((c :: u).length - 1) [] ≠ [] := by
        rw [hlen] at hlast
        rw [show ((c :: u).length) = ((c :: u).length - 1) + 1 from by simp,
          List.getD_cons_succ] at hlast
        exact hlast
      have hr := ih (by intro hcon; cases hcon) hlast2
      have hfne : (c :: u).flatten ≠ [] := by
        have hiss : ((c :: u).flatten).getLast?.isSome := by
          rw [hr]
          exact List.getLast?_isSome.mpr hlast2
        exact List.getLast?_isSome.mp hiss
      rw [List.flatten_cons, List.getLast?_append_of_ne_nil _ hfne, hr, hlen]
      rw [show ((c :: u).length) = ((c :: u).length - 1) + 1 from by simp,
        List.getD_cons_succ]
      simp


theorem ll_eraseAll_sent (st : LL.St Int) (n : Int)
    (hne : st.buckets ≠ [])
    (hsent : (LL.flatten st).getLast? = some LL.svInt)
    (hlastne : st.buckets.getD (st.buckets.length - 1) [] ≠ []) :
    ∀ st2 ct, LL.eraseAll intLt intEq 0 st n = some (st2, ct) →
    (LL.flatten st2).getLast? = some LL.svInt := by
  intro st2 ct hres
  rw [LL.eraseAll] at hres
  by_cases hp : LL.find intLt intEq 0 st n = LL.endPos st
  · rw [if_pos hp] at hres
    cases hres
    exact hsent
  · rw [if_neg hp] at hres
    dsimp only at hres
    have hbsent : (st.buckets.getD (st.buckets.length - 1) []).getLast? =
        some LL.svInt := by
      rw [← flatten_getLast_bucket st.buckets hne hlastne]
      exact hsent
    cases hscan : LL.eraseScan intEq n (st.buckets.length - 1)
        ((st.buckets.map List.length).sum + 1) st.buckets
        (LL.find intLt intEq 0 st n).1 (LL.find intLt intEq 0 st n).2 0 with
    | none =>
      rw [hscan] at hres
      cases hres
    | some q =>
      obtain ⟨bk1, thisB, ct1⟩ := q
      rw [hscan] at hres
      simp only [] at hres
      have hs := eraseScan_sent intEq n LL.svInt
        ((st.buckets.map List.length).sum + 1) st.buckets
        (LL.find intLt intEq 0 st n).1 (LL.find intLt intEq 0 st n).2 0
        hne hbsent bk1 thisB ct1 hscan
      have hbk1ne : bk1 ≠ [] := by
        intro hcon
        rw [hcon] at hs
        have := hs.1
        simp at this
        exact hne (List.length_eq_zero.mp this.symm)
      have hbk1last : bk1.getD (bk1.length - 1) [] ≠ [] := by
        have hiss : (bk1.getD (bk1.length - 1) []).getLast?.isSome := by
          rw [hs.2]
          rfl
        exact List.getLast?_isSome.mp hiss
      cases hres
      show ((LL.balance st.density
        (LL.balance st.density bk1 (LL.find intLt intEq 0 st n).1 none).1
        _ none).1).flatten.getLast? = some LL.svInt
      rw [ll_balance_fst_eq_vv, balance_flatten, ll_balance_fst_eq_vv,
        balance_flatten]
      rw [flatten_getLast_bucket bk1 hbk1ne hbk1last]
      exact hs.2

/-- C7 (amended): at every reachable state of the array and list engines with
configured density d at least 2, each non-last bucket holds at least
floor(d/2) elements, every bucket holds at most 2d elements, and the stored
contents in bucket order are non-decreasing (for the list engine, the stored
contents are everything before the trailing sentinel element). -/
theorem c7_amended_bucket_bounds (d : Nat) (hd : 2 ≤ d)
    (stv : VV.St Int) (hv : VVReach d stv)
    (stl : LL.St Int) (hl : LLReach d stl) :
    ((∀ j, j + 1 < stv.buckets.length →
        d / 2 ≤ (stv.buckets.getD j []).length) ∧
      (∀ j, j < stv.buckets.length →
        (stv.buckets.getD j []).length ≤ d * 2) ∧
      List.Sorted (fun a b : Int => a ≤ b) (VV.flatten stv)) ∧
    ((∀ j, j + 1 < stl.buckets.length →
        d / 2 ≤ (stl.buckets.getD j []).length) ∧
      (∀ j, j < stl.buckets.length →
        (stl.buckets.getD j []).length ≤ d * 2) ∧
      List.Sorted (fun a b : Int => a ≤ b) ((LL.flatten stl).dropLast)) := by
  obtain ⟨hvinv, hvd⟩ := vv_reach_inv d hd stv hv
  obtain ⟨hlinv, hld⟩ := ll_reach_inv d hd stl hl
  refine ⟨⟨?_, ?_, hvinv.2.1⟩, ?_, ?_, hlinv.2.2.1⟩
  · intro j hj
    have := hvinv.2.2.2.1 j hj
    rwa [hvd] at this
  · intro j hj
    have := hvinv.2.2.2.2 j hj
    rwa [hvd] at this
  · intro j hj
    have := hlinv.2.2.2.2.1 j hj
    rwa [hld] at this
  · intro j hj
    have := hlinv.2.2.2.2.2.1 j hj
    rwa [hld] at this

theorem c7_amended_bucket_bounds_witness :
    ((∀ j, j + 1 < (vvIns (VV.initSt Int 3) 5).buckets.length →
        3 / 2 ≤ ((vvIns (VV.initSt Int 3) 5).buckets.getD j []).length) ∧
      (∀ j, j < (vvIns (VV.initSt Int 3) 5).buckets.length →
        ((vvIns (VV.initSt Int 3) 5).buckets.getD j []).length ≤ 3 * 2) ∧
      List.Sorted (fun a b : Int => a ≤ b)
        (VV.flatten (vvIns (VV.initSt Int 3) 5))) ∧
    ((∀ j, j + 1 < (LL.insert intLt 0 (LL.initSt LL.svInt 3) 5).1.buckets.length →
        3 / 2 ≤ (((LL.insert intLt 0 (LL.initSt LL.svInt 3) 5).1.buckets.getD
          j [])).length) ∧
      (∀ j, j < (LL.insert intLt 0 (LL.initSt LL.svInt 3) 5).1.buckets.length →
        (((LL.insert intLt 0 (LL.initSt LL.svInt 3) 5).1.buckets.getD
          j [])).length ≤ 3 * 2) ∧
      List.Sorted (fun a b : Int => a ≤ b)
        ((LL.flatten (LL.insert intLt 0 (LL.initSt LL.svInt 3) 5).1).dropLast)) :=
  c7_amended_bucket_bounds 3 (by decide)
    (vvIns (VV.initSt Int 3) 5)
    (VVReach.ins (VV.initSt Int 3) 5 VVReach.init)
    (LL.insert intLt 0 (LL.initSt LL.svInt 3) 5).1
    (LLReach.ins (LL.initSt LL.svInt 3) 5 LLReach.init)

/-- C8 (amended): the list engine's last bucket always ends with the one
extra sentinel element: it is there alone at construction, it stays the final
element at every reachable state, size() never counts it, and a completed
eraseAll call leaves it in place.  The array engine stores no sentinel
element at all: its constructor creates a single empty bucket. -/
theorem c8_amended_ll_sentinel (d : Nat) (hd : 2 ≤ d) (st : LL.St Int)
    (h : LLReach d st) (n : Int) :
    LL.flatten (LL.initSt LL.svInt d) = [LL.svInt] ∧
    (LL.initSt LL.svInt d).sz = 0 ∧
    VV.flatten (VV.initSt Int d) = [] ∧
    (LL.flatten st).getLast? = some LL.svInt ∧
    st.sz = (LL.flatten st).length - 1 ∧
    (∀ st2 ct, LL.eraseAll intLt intEq 0 st n = some (st2, ct) →
      (LL.flatten st2).getLast? = some LL.svInt) := by
  obtain ⟨hinv, _⟩ := ll_reach_inv d hd st h
  refine ⟨rfl, rfl, rfl, hinv.2.2.2.1, hinv.2.2.2.2.2.2, ?_⟩
  have hlastlt : st.buckets.length - 1 < st.buckets.length := by
    have : 0 < st.buckets.length := List.length_pos.mpr hinv.1
    omega
  exact ll_eraseAll_sent st n hinv.1 hinv.2.2.2.1
    (hinv.2.1 (st.buckets.length - 1) hlastlt)

theorem c8_amended_ll_sentinel_witness :
    LL.flatten (LL.initSt LL.svInt 3) = [LL.svInt] ∧
    (LL.initSt LL.svInt 3).sz = 0 ∧
    VV.flatten (VV.initSt Int 3) = [] ∧
    (LL.flatten (LL.insert intLt 0 (LL.initSt LL.svInt 3) 5).1).getLast? =
      some LL.svInt ∧
    (LL.insert intLt 0 (LL.initSt LL.svInt 3) 5).1.sz =
      (LL.flatten (LL.insert intLt 0 (LL.initSt LL.svInt 3) 5).1).length - 1 ∧
    (∀ st2 ct, LL.eraseAll intLt intEq 0
        (LL.insert intLt 0 (LL.initSt LL.svInt 3) 5).1 5 = some (st2, ct) →
      (LL.flatten st2).getLast? = some LL.svInt) :=
  c8_amended_ll_sentinel 3 (by decide)
    (LL.insert intLt 0 (LL.initSt LL.svInt 3) 5).1
    (LLReach.ins (LL.initSt LL.svInt 3) 5 LLReach.init) 5

theorem ll_fwd_beq {α : Type} (less beq : α → α → Bool) (dfl : α)
    (st : LL.St α) (n : α)
    (h : (LL.findWithDistance less beq dfl st n).1 ≠ LL.endPos st) :
    beq ((st.buckets.getD (LL.findWithDistance less beq dfl st n).1.1 []).getD
      (LL.findWithDistance less beq dfl st n).1.2 dfl) n = true := by
  rw [LL.findWithDistance] at h ⊢
  generalize htb : LL.pickBucketLB less dfl st n = tb at h ⊢
  generalize hio : LL.scanIn (fun e => less e n) (st.buckets.getD tb [])
    (if tb = st.buckets.length - 1 then
      some ((st.buckets.getD tb []).length - 1)
    else none) = i0 at h ⊢
  generalize hp : (if i0 = (st.buckets.getD tb []).length then (tb + 1, 0)
    else (tb, i0)) = p at h ⊢
  by_cases hc : (p.1 = st.buckets.length - 1 ∧
      p.2 = (st.buckets.getD (st.buckets.length - 1) []).length - 1) ∨
      (!beq ((st.buckets.getD p.1 []).getD p.2 dfl) n) = true
  · rw [if_pos hc] at h
    simp at h
  · rw [if_neg hc] at h ⊢
    rcases not_or.mp hc with ⟨_, h2⟩
    have h3 : beq ((st.buckets.getD p.1 []).getD p.2 dfl) n = true := by
      revert h2
      cases beq ((st.buckets.getD p.1 []).getD p.2 dfl) n <;> simp
    dsimp only
    exact h3

theorem rbt_fwd_equal {α : Type} (o : RBT.Ops α) (n : α) :
    ∀ (t : RBT.T α) (path : RBT.Path α) (dist : Int) (t2 : RBT.T α)
    (p2 : RBT.Path α),
    (RBT.fwdGo o n t path dist).1 = some (t2, p2) →
    ∃ l v cp m c s r, t2 = RBT.T.node l v cp m c s r ∧ o.equal n v = true := by
  intro t
  induction t with
  | nil =>
    intro path dist t2 p2 h
    rw [RBT.fwdGo] at h
    cases h
  | node l v cp m c s r ihl ihr =>
    intro path dist t2 p2 h
    rw [RBT.fwdGo] at h
    by_cases hs : s = true
    · rw [if_pos hs] at h
      exact ihl _ _ _ _ h
    · rw [if_neg hs] at h
      by_cases he : o.equal n v = true
      · rw [if_pos he] at h
        dsimp only at h
        cases h
        exact ⟨l, v, cp, m, c, s, r, rfl, he⟩
      · rw [if_neg he] at h
        by_cases hc : o.comp n v = true
        · rw [if_pos hc] at h
          exact ihl _ _ _ _ h
        · rw [if_neg hc] at h
          exact ihr _ _ _ _ h

/-- C9 (amended): the tree engine decides membership with the caller-supplied
Equal predicate: whatever position its find returns holds a key Equal to the
probe.  The array and list engines locate the candidate position with the
ordering comparator alone, but then accept or reject that position with the
separate raw equality predicate passed for the key type's operator== — the
array engine's find succeeds exactly when the element at the lower-bound
position is raw-equal to the probe, and any non-end position returned by the
list engine's find holds an element raw-equal to the probe. -/
theorem c9_amended_equality_semantics {α : Type} (less beq : α → α → Bool)
    (o : RBT.Ops α) (dfl : α) (stv : VV.St α) (stl : LL.St α)
    (str : RBT.St α) (n : α) :
    (∀ tb i v, VV.lowerBound less stv n = some (tb, i) →
      (stv.buckets.getD tb [])[i]? = some v →
      (VV.find less beq stv n = some (some (tb, i)) ↔ beq v n = true)) ∧
    ((LL.find less beq dfl stl n) ≠ LL.endPos stl →
      beq ((stl.buckets.getD (LL.find less beq dfl stl n).1 []).getD
        (LL.find less beq dfl stl n).2 dfl) n = true) ∧
    (∀ t2 p2, RBT.find o str n = some (t2, p2) →
      ∃ l v cp m c s r, t2 = RBT.T.node l v cp m c s r ∧
        o.equal n v = true) := by
  refine ⟨?_, ?_, ?_⟩
  · intro tb i v hlb hv
    rw [VV.find, hlb]
    dsimp only
    rw [hv]
    dsimp only
    by_cases hb : beq v n = true
    · rw [if_pos hb]
      simp [hb]
    · rw [if_neg hb]
      simp [hb]
  · intro h
    exact ll_fwd_beq less beq dfl stl n h
  · intro t2 p2 h
    exact rbt_fwd_equal o n str.tree [] 0 t2 p2 h

theorem c9_amended_equality_semantics_witness :
    (VV.find pairLt pairEq pairVV (1, 2) = some (some (0, 0)) ↔
      pairEq (1, 3) (1, 2) = true) ∧
    pairEq ((1 : Int), (3 : Int)) ((1 : Int), (2 : Int)) = false ∧
    VV.find pairLt pairEq pairVV (1, 2) = some none ∧
    intEq (((llOf [5] 3).buckets.getD
        (LL.find intLt intEq 0 (llOf [5] 3) 5).1 []).getD
      (LL.find intLt intEq 0 (llOf [5] 3) 5).2 0) 5 = true ∧
    (∀ t2 p2, RBT.find pairOpsFst pairRBT (1, 2) = some (t2, p2) →
      ∃ l v cp m c s r, t2 = RBT.T.node l v cp m c s r ∧
        pairOpsFst.equal (1, 2) v = true) := by
  refine ⟨?_, by decide, by decide, ?_, ?_⟩
  · exact (c9_amended_equality_semantics pairLt pairEq pairOpsFst ((0 : Int), (0 : Int))
      pairVV (LL.initSt ((0 : Int), (0 : Int)) 3) pairRBT (1, 2)).1 0 0 (1, 3)
      (by decide) (by decide)
  · exact (c9_amended_equality_semantics intLt intEq RBT.intOps 0
      VV.init0 (llOf [5] 3) RBT.init0 5).2.1 (by decide)
  · exact (c9_amended_equality_semantics pairLt pairEq pairOpsFst ((0 : Int), (0 : Int))
      pairVV (LL.initSt ((0 : Int), (0 : Int)) 3) pairRBT (1, 2)).2.2
